import Mathlib

/-!
TextEditor: a shallow embedding of `src/TextEditor/main.cpp`.

The C++ program keeps an in-memory document (`File`) made of lines (`Line`),
each line being a growable array (`Vector<char>`) together with a cursor column.
This development embeds the containers and the document operations as pure Lean
functions and proves properties of them.

Modelling conventions.

* A heap buffer `T* arr` of `cap` cells is a `List T` of length `cap`.  Cells at
  indices `>= size` hold unspecified values in C++; freshly allocated cells are
  filled with `default` here.
* Raw array accesses `arr[i]` are checked against the buffer length: an access
  outside the buffer (undefined behaviour in C++) is the error `badAccess`.
* `throw std::runtime_error("Popping from empty list.")` is `emptyContainer`,
  `throw ...("Index out of range.")` is `indexOutOfRange`.
* `size_t` values are natural numbers (all sizes are bounded by the memory that
  holds the buffers, far below `2^64`).
* `Vector<Line*>` owns its lines exclusively (every pointer stored in it comes
  from a distinct `new Line()`), so it is embedded as a vector of `Line` values;
  a mutation through a `Line*` taken from cell `i` is a write to cell `i`.
* `for` loops are recursive functions on the number of remaining iterations.
* Methods that can throw are also given as transitions (`popStep`, `insertStep`,
  `eraseStep`): the outcome of the call together with the object it leaves
  behind, so that the state after a throwing call can be stated.
* The `KEY_*` constants come from `curses.h`, which is not part of the program;
  they are the fields of the parameter `Keys`.
* `std::map<Vector<int>, KeyAction>` is the list of its entries in iteration
  order (ascending under `Vector::operator<`, no two equivalent keys);
  `std::unordered_map<int, KeyAction*>` is a function from codes to optional
  actions; a function pointer is a value of the enumeration `Handler`.
-/

namespace TextEditor

/-- The ways an operation of the program can fail. -/
inductive Error where
  | emptyContainer
  | indexOutOfRange
  | badAccess
  deriving DecidableEq, Repr

/-- Outcome of a fallible operation. -/
abbrev Result (α : Type) : Type := Except Error α

/-- Raw read `arr[i]` of a heap buffer. -/
def readAt {T : Type} (arr : List T) (i : Nat) : Result T :=
  match arr[i]? with
  | some x => .ok x
  | none => .error .badAccess

/-- Raw write `arr[i] = x` of a heap buffer. -/
def writeAt {T : Type} (arr : List T) (i : Nat) (x : T) : Result (List T) :=
  if i < arr.length then .ok (arr.set i x) else .error .badAccess

/-- The C++ type `char`: one byte.  `'\0'` is `0`. -/
abbrev CChar : Type := Fin 256

/-- Implicit conversion `int -> char` (keeps the low byte). -/
def narrow (c : Int) : CChar := ⟨(c % 256).toNat, by omega⟩

/-- Implicit conversion `char -> int` for a non-negative character code. -/
def widen (c : CChar) : Int := (c.val : Int)

/-- The class `Vector<T>`: buffer, number of valid elements, buffer capacity. -/
structure Vector (T : Type) where
  arr : List T
  size : Nat
  cap : Nat
  deriving DecidableEq, Repr

/-- Constructor `Vector()`: `arr = nullptr; size = 0; cap = 0`. -/
def Vector.empty {T : Type} : Vector T := ⟨[], 0, 0⟩

/-- Loop `for (i = i0; i < i0 + k; i++) copy[i] = arr[i];` of `grow`. -/
def copyLoop {T : Type} (src : List T) : Nat → Nat → List T → Result (List T)
  | _, 0, copy => .ok copy
  | i, k + 1, copy =>
    match readAt src i with
    | .error e => .error e
    | .ok x =>
      match writeAt copy i x with
      | .error e => .error e
      | .ok copy1 => copyLoop src (i + 1) k copy1

/-- Method `Vector::grow`. -/
def Vector.grow {T : Type} [Inhabited T] (v : Vector T) : Result (Vector T) :=
  let og := v.cap
  let cap := if v.size + 1 > v.cap then (if v.cap = 0 then 1 else v.cap * 2) else v.cap
  if og ≠ cap then
    match copyLoop v.arr 0 v.size (List.replicate cap default) with
    | .error e => .error e
    | .ok copy => .ok ⟨copy, v.size, cap⟩
  else .ok ⟨v.arr, v.size, cap⟩

/-- Accessor `Vector::setSize`. -/
def Vector.setSize {T : Type} (v : Vector T) (s : Nat) : Vector T :=
  { v with size := s }

/-- Method `Vector::push`. -/
def Vector.push {T : Type} [Inhabited T] (v : Vector T) (value : T) : Result (Vector T) :=
  match v.grow with
  | .error e => .error e
  | .ok g =>
    match writeAt g.arr g.size value with
    | .error e => .error e
    | .ok arr => .ok ⟨arr, g.size + 1, g.cap⟩

/-- Method `Vector::pop`: the popped value and the vector left behind. -/
def Vector.pop {T : Type} (v : Vector T) : Result (T × Vector T) :=
  if v.size > 0 then
    match readAt v.arr (v.size - 1) with
    | .error e => .error e
    | .ok x => .ok (x, { v with size := v.size - 1 })
  else .error .emptyContainer

/-- Loop `for (i = i0; i > i0 - k; i--) arr[i] = arr[i - 1];` of `insert`. -/
def shiftRightLoop {T : Type} : List T → Nat → Nat → Result (List T)
  | arr, _, 0 => .ok arr
  | arr, i, k + 1 =>
    match readAt arr (i - 1) with
    | .error e => .error e
    | .ok x =>
      match writeAt arr i x with
      | .error e => .error e
      | .ok arr1 => shiftRightLoop arr1 (i - 1) k

/-- Method `Vector::insert`. -/
def Vector.insert {T : Type} [Inhabited T] (v : Vector T) (index : Nat) (value : T) :
    Result (Vector T) :=
  match v.grow with
  | .error e => .error e
  | .ok g =>
    if index > g.size then .error .indexOutOfRange
    else
      match shiftRightLoop g.arr g.size (g.size - index) with
      | .error e => .error e
      | .ok arr1 =>
        match writeAt arr1 index value with
        | .error e => .error e
        | .ok arr2 => .ok ⟨arr2, g.size + 1, g.cap⟩

/-- Loop `for (i = i0; i < i0 + k; i++) arr[i] = arr[i + 1];` of `erase`. -/
def shiftLeftLoop {T : Type} : List T → Nat → Nat → Result (List T)
  | arr, _, 0 => .ok arr
  | arr, i, k + 1 =>
    match readAt arr (i + 1) with
    | .error e => .error e
    | .ok x =>
      match writeAt arr i x with
      | .error e => .error e
      | .ok arr1 => shiftLeftLoop arr1 (i + 1) k

/-- Method `Vector::erase`: the removed value and the vector left behind. -/
def Vector.erase {T : Type} (v : Vector T) (index : Nat) : Result (T × Vector T) :=
  if index ≥ v.size then .error .indexOutOfRange
  else
    match readAt v.arr index with
    | .error e => .error e
    | .ok removed =>
      match shiftLeftLoop v.arr index (v.size - 1 - index) with
      | .error e => .error e
      | .ok arr1 => .ok (removed, ⟨arr1, v.size - 1, v.cap⟩)

/-- The valid elements of a vector, in order: cells `0 .. size - 1`. -/
def Vector.toList {T : Type} (v : Vector T) : List T := v.arr.take v.size

/-- Representation invariant of `Vector`: the buffer has `cap` cells and
`size <= cap`. -/
def Vector.WF {T : Type} (v : Vector T) : Prop := v.size ≤ v.cap ∧ v.arr.length = v.cap

instance {T : Type} (v : Vector T) : Decidable v.WF := by
  unfold Vector.WF; infer_instance

/-- The class `Line`: the text, the cursor column and the selection flag. -/
structure Line where
  text : Vector CChar
  position : Nat
  selected : Bool
  deriving DecidableEq, Repr

/-- Constructor `Line()`. -/
def Line.new : Line := ⟨Vector.empty, 0, false⟩

instance : Inhabited Line := ⟨Line.new⟩

/-- Accessor `Line::getSize`. -/
def Line.getSize (l : Line) : Nat := l.text.size

/-- Accessor `Line::getArr`. -/
def Line.getArr (l : Line) : List CChar := l.text.arr

/-- Method `Line::insertChar`. -/
def Line.insertChar (l : Line) (c : CChar) : Result Line :=
  match l.text.insert l.position c with
  | .error e => .error e
  | .ok t => .ok { l with text := t, position := l.position + 1 }

/-- Method `Line::removeChar`: the returned character and the line left behind. -/
def Line.removeChar (l : Line) : Result (CChar × Line) :=
  if l.position = 0 then .ok (0, l)
  else
    match l.text.erase (l.position - 1) with
    | .error e => .error e
    | .ok (deleted, t) => .ok (deleted, { l with text := t, position := l.position - 1 })

/-- Method `Line::cutOff`. -/
def Line.cutOff (l : Line) : Line := { l with text := l.text.setSize l.position }

/-- The characters of a line, in order. -/
def Line.chars (l : Line) : List CChar := l.text.toList

/-- The class `File`: the lines and the index of the active line. -/
structure File where
  lines : Vector Line
  currentLine : Nat
  deriving DecidableEq, Repr

/-- Method `File::getCurrentLine`: `lines.getArr()[currentLine]`. -/
def File.getCurrentLine (f : File) : Result Line := readAt f.lines.arr f.currentLine

/-- Assignment through a `Line*` taken from cell `i` of `lines`. -/
def File.setLine (f : File) (i : Nat) (l : Line) : Result File :=
  match writeAt f.lines.arr i l with
  | .error e => .error e
  | .ok arr => .ok { f with lines := { f.lines with arr := arr } }

/-- Constructor `File()`. -/
def File.new : Result File :=
  match (Vector.empty : Vector Line).push Line.new with
  | .error e => .error e
  | .ok lines =>
    match readAt lines.arr 0 with
    | .error e => .error e
    | .ok start => File.setLine ⟨lines, 0⟩ 0 { start with position := 0 }

/-- Method `File::insertChar`. -/
def File.insertChar (f : File) (c : Int) : Result File :=
  match f.getCurrentLine with
  | .error e => .error e
  | .ok selectedLine =>
    match selectedLine.insertChar (narrow c) with
    | .error e => .error e
    | .ok l => f.setLine f.currentLine l

/-- Method `File::removeChar`: the returned character and the document left behind. -/
def File.removeChar (f : File) : Result (CChar × File) :=
  match f.getCurrentLine with
  | .error e => .error e
  | .ok selectedLine =>
    if selectedLine.position = 0 then
      if f.lines.size = 1 then .ok (0, f)
      else
        match f.lines.erase f.currentLine with
        | .error e => .error e
        | .ok (_, lines) =>
          let currentLine := if f.currentLine > 0 then f.currentLine - 1 else f.currentLine
          match readAt lines.arr currentLine with
          | .error e => .error e
          | .ok selectedLine1 =>
            match File.setLine ⟨lines, currentLine⟩ currentLine
                { selectedLine1 with position := selectedLine1.getSize } with
            | .error e => .error e
            | .ok f1 => .ok (0, f1)
    else
      match selectedLine.removeChar with
      | .error e => .error e
      | .ok (c, l) =>
        match f.setLine f.currentLine l with
        | .error e => .error e
        | .ok f1 => .ok (c, f1)

/-- Loop `for (i = i0; i < i0 + k; i++) newLine->insertChar(selectedLine->getArr()[i]);`
of `newLineAt`. -/
def newLineLoop (src : List CChar) : Nat → Nat → Line → Result Line
  | _, 0, newLine => .ok newLine
  | i, k + 1, newLine =>
    match readAt src i with
    | .error e => .error e
    | .ok c =>
      match newLine.insertChar c with
      | .error e => .error e
      | .ok newLine1 => newLineLoop src (i + 1) k newLine1

/-- Method `File::newLineAt`. -/
def File.newLineAt (f : File) : Result File :=
  match f.getCurrentLine with
  | .error e => .error e
  | .ok selectedLine =>
    match newLineLoop selectedLine.getArr selectedLine.position
        (selectedLine.getSize - selectedLine.position) Line.new with
    | .error e => .error e
    | .ok newLine =>
      match f.setLine f.currentLine selectedLine.cutOff with
      | .error e => .error e
      | .ok f1 =>
        match f1.lines.insert (f.currentLine + 1) newLine with
        | .error e => .error e
        | .ok lines =>
          match File.setLine ⟨lines, f.currentLine⟩ (f.currentLine + 1)
              { newLine with position := 0 } with
          | .error e => .error e
          | .ok f2 => .ok { f2 with currentLine := f.currentLine + 1 }

/-- Method `File::cursorDown`. -/
def File.cursorDown (f : File) : Result File :=
  if f.currentLine + 1 < f.lines.size then
    match f.getCurrentLine with
    | .error e => .error e
    | .ok selectedLine =>
      match readAt f.lines.arr (f.currentLine + 1) with
      | .error e => .error e
      | .ok newLine =>
        let newLine1 : Line :=
          if selectedLine.position > newLine.getSize then
            { newLine with position := newLine.getSize }
          else { newLine with position := selectedLine.position }
        match f.setLine (f.currentLine + 1) newLine1 with
        | .error e => .error e
        | .ok f1 => .ok { f1 with currentLine := f.currentLine + 1 }
  else .ok f

/-- Method `File::cursorUp`. -/
def File.cursorUp (f : File) : Result File :=
  if f.currentLine > 0 then
    match f.getCurrentLine with
    | .error e => .error e
    | .ok selectedLine =>
      match readAt f.lines.arr (f.currentLine - 1) with
      | .error e => .error e
      | .ok newLine =>
        let newLine1 : Line :=
          if selectedLine.position = 0 ∨ selectedLine.position > newLine.getSize then
            { newLine with position := newLine.getSize }
          else { newLine with position := selectedLine.position }
        match f.setLine (f.currentLine - 1) newLine1 with
        | .error e => .error e
        | .ok f1 => .ok { f1 with currentLine := f.currentLine - 1 }
  else .ok f

/-- Method `File::cursorRight`. -/
def File.cursorRight (f : File) : Result File :=
  match f.getCurrentLine with
  | .error e => .error e
  | .ok selectedLine =>
    if selectedLine.position = selectedLine.getSize then
      if f.currentLine + 1 < f.lines.size then
        match readAt f.lines.arr (f.currentLine + 1) with
        | .error e => .error e
        | .ok newLine =>
          match f.setLine (f.currentLine + 1) { newLine with position := 0 } with
          | .error e => .error e
          | .ok f1 => .ok { f1 with currentLine := f.currentLine + 1 }
      else .ok f
    else f.setLine f.currentLine { selectedLine with position := selectedLine.position + 1 }

/-- Method `File::cursorLeft`. -/
def File.cursorLeft (f : File) : Result File :=
  match f.getCurrentLine with
  | .error e => .error e
  | .ok selectedLine =>
    if selectedLine.position = 0 then
      if f.currentLine > 0 then
        match readAt f.lines.arr (f.currentLine - 1) with
        | .error e => .error e
        | .ok newLine =>
          f.setLine (f.currentLine - 1) { newLine with position := newLine.getSize }
      else .ok f
    else f.setLine f.currentLine { selectedLine with position := selectedLine.position - 1 }

/-- Handler `handleHome`: `getCurrentLine()->position = 0`. -/
def handleHome (f : File) : Result File :=
  match f.getCurrentLine with
  | .error e => .error e
  | .ok l => f.setLine f.currentLine { l with position := 0 }

/-- Handler `handleEnd`: `getCurrentLine()->position = getCurrentLine()->getSize()`. -/
def handleEnd (f : File) : Result File :=
  match f.getCurrentLine with
  | .error e => .error e
  | .ok l => f.setLine f.currentLine { l with position := l.getSize }

/-- The lines of a document, in order. -/
def File.lineList (f : File) : List Line := f.lines.toList

/-- Representation invariant of a document: the line vector and every line's
text vector satisfy the `Vector` invariant. -/
def File.WF (f : File) : Prop := f.lines.WF ∧ ∀ l ∈ f.lineList, l.text.WF

/-- Validity of a document: at least one line, the active index addresses a
line, and every line's cursor column is at most the line's length. -/
def File.valid (f : File) : Prop :=
  0 < f.lines.size ∧ f.currentLine < f.lines.size ∧
    ∀ l ∈ f.lineList, l.position ≤ l.getSize

instance (f : File) : Decidable f.WF := by
  unfold File.WF; infer_instance

instance (f : File) : Decidable f.valid := by
  unfold File.valid; infer_instance

/-- Per-line condition: the text vector satisfies the `Vector` invariant and the
cursor column is at most the line's length. -/
def Line.ok (l : Line) : Prop := l.text.WF ∧ l.position ≤ l.getSize

instance (l : Line) : Decidable l.ok := by
  unfold Line.ok; infer_instance

/-- A navigation call of `File`. -/
inductive Move where
  | left
  | right
  | up
  | down
  deriving DecidableEq, Repr

/-- Run one navigation call. -/
def File.move (f : File) : Move → Result File
  | .left => f.cursorLeft
  | .right => f.cursorRight
  | .up => f.cursorUp
  | .down => f.cursorDown

/-- Run a sequence of navigation calls, recording the document after every
call; stops at the first call that fails. -/
def File.moves (f : File) : List Move → Result (List File)
  | [] => .ok []
  | m :: ms =>
    match f.move m with
    | .error e => .error e
    | .ok f1 =>
      match f1.moves ms with
      | .error e => .error e
      | .ok fs => .ok (f1 :: fs)

/-- Build a line from its characters and cursor column (tight buffer). -/
def Line.ofList (cs : List CChar) (p : Nat) : Line := ⟨⟨cs, cs.length, cs.length⟩, p, false⟩

/-- Build a document from its lines and active index (tight buffer). -/
def File.ofList (ls : List Line) (k : Nat) : File := ⟨⟨ls, ls.length, ls.length⟩, k⟩

/-- The line `"ab"` with the cursor at column `p`. -/
def lineAb (p : Nat) : Line := Line.ofList [97, 98] p

/-- The line `"cd"` with the cursor at column `p`. -/
def lineCd (p : Nat) : Line := Line.ofList [99, 100] p

/-- The line `"hello"` with the cursor at column `p`. -/
def lineHello (p : Nat) : Line := Line.ofList [104, 101, 108, 108, 111] p

/-- The two-line document `"ab"` / `"cd"` with active index `k` and cursor
columns `p` and `q`. -/
def docAbCd (k p q : Nat) : File := File.ofList [lineAb p, lineCd q] k

/-- The one-line document `"hello"` with cursor column `p`. -/
def docHello (p : Nat) : File := File.ofList [lineHello p] 0

/-- The document reached from `File()` by typing `a` then `b`: one line whose
buffer has grown to two cells. -/
def docTypedAb : File := ⟨⟨[⟨⟨[97, 98], 2, 2⟩, 2, false⟩], 1, 1⟩, 0⟩

/-- Loop `for (const T& elem : list) push(elem);` of the initializer-list
constructor. -/
def pushAll {T : Type} [Inhabited T] : Vector T → List T → Result (Vector T)
  | v, [] => .ok v
  | v, elem :: list =>
    match v.push elem with
    | .error e => .error e
    | .ok v1 => pushAll v1 list

/-- Constructor `Vector(std::initializer_list<T> list)`. -/
def Vector.ofInitList {T : Type} [Inhabited T] (list : List T) : Result (Vector T) :=
  pushAll Vector.empty list

/-- Copy constructor `Vector(const Vector& rhs)`. -/
def Vector.copy {T : Type} [Inhabited T] (rhs : Vector T) : Result (Vector T) :=
  match copyLoop rhs.arr 0 rhs.size (List.replicate rhs.cap default) with
  | .error e => .error e
  | .ok arr => .ok ⟨arr, rhs.size, rhs.cap⟩

/-- Method `Vector::pop` as a transition of the object: the outcome of the call
and the object afterwards, also when the call throws. -/
def Vector.popStep {T : Type} (v : Vector T) : Result T × Vector T :=
  if v.size > 0 then
    let v1 : Vector T := { v with size := v.size - 1 }
    match readAt v1.arr v1.size with
    | .error e => (.error e, v1)
    | .ok x => (.ok x, v1)
  else (.error .emptyContainer, v)

/-- Method `Vector::insert` as a transition of the object: the outcome of the
call and the object afterwards, also when the call throws. -/
def Vector.insertStep {T : Type} [Inhabited T] (v : Vector T) (index : Nat) (value : T) :
    Result Unit × Vector T :=
  match v.grow with
  | .error e => (.error e, v)
  | .ok g =>
    if index > g.size then (.error .indexOutOfRange, g)
    else
      match shiftRightLoop g.arr g.size (g.size - index) with
      | .error e => (.error e, g)
      | .ok arr1 =>
        match writeAt arr1 index value with
        | .error e => (.error e, { g with arr := arr1 })
        | .ok arr2 => (.ok (), ⟨arr2, g.size + 1, g.cap⟩)

/-- Method `Vector::erase` as a transition of the object: the outcome of the
call and the object afterwards, also when the call throws. -/
def Vector.eraseStep {T : Type} (v : Vector T) (index : Nat) : Result T × Vector T :=
  if index ≥ v.size then (.error .indexOutOfRange, v)
  else
    match readAt v.arr index with
    | .error e => (.error e, v)
    | .ok removed =>
      match shiftLeftLoop v.arr index (v.size - 1 - index) with
      | .error e => (.error e, v)
      | .ok arr1 => (.ok removed, ⟨arr1, v.size - 1, v.cap⟩)

/-- Run `pop` the given number of times, collecting the popped values; stops at
the first call that throws. -/
def popMany {T : Type} : Nat → Vector T → Result (List T × Vector T)
  | 0, v => .ok ([], v)
  | n + 1, v =>
    match v.pop with
    | .error e => .error e
    | .ok (x, v1) =>
      match popMany n v1 with
      | .error e => .error e
      | .ok (xs, v2) => .ok (x :: xs, v2)

/-- Loop of `Vector::operator<`: `some b` when the body returns `b`, `none` when
the loop runs to its end. -/
def ltLoop (arr rhsArr : List Int) : Nat → Nat → Result (Option Bool)
  | _, 0 => .ok none
  | i, k + 1 =>
    match readAt arr i with
    | .error e => .error e
    | .ok x =>
      match readAt rhsArr i with
      | .error e => .error e
      | .ok y =>
        if x < y then .ok (some true)
        else if x > y then .ok (some false)
        else ltLoop arr rhsArr (i + 1) k

/-- Method `Vector::operator<` at `T = int`. -/
def Vector.lt (v rhs : Vector Int) : Result Bool :=
  let minSize := if v.size < rhs.size then v.size else rhs.size
  match ltLoop v.arr rhs.arr 0 minSize with
  | .error e => .error e
  | .ok (some b) => .ok b
  | .ok none => .ok (decide (v.size < rhs.size))

/-- Strict lexicographic order on lists of integers, as the specification words
it: the first differing element decides, and a proper initial segment is less than its
extension. -/
def lexLt : List Int → List Int → Bool
  | [], [] => false
  | [], _ :: _ => true
  | _ :: _, [] => false
  | x :: xs, y :: ys => if x = y then lexLt xs ys else decide (x < y)

/-- The key codes that `curses.h` defines and the program uses.  The header is
not part of the program, so the codes are a parameter. -/
structure Keys where
  KEY_LEFT : Int
  KEY_RIGHT : Int
  KEY_UP : Int
  KEY_DOWN : Int
  KEY_ENTER : Int
  KEY_BACKSPACE : Int
  KEY_HOME : Int
  KEY_END : Int
  deriving DecidableEq, Repr

/-- The eleven codes of the built-in key table, in the order of the table. -/
def Keys.codes (K : Keys) : List Int :=
  [K.KEY_LEFT, K.KEY_RIGHT, K.KEY_UP, K.KEY_DOWN, K.KEY_ENTER, 10, 27, 8, K.KEY_BACKSPACE,
    K.KEY_HOME, K.KEY_END]

/-- The key codes of ncurses. -/
def ncursesKeys : Keys := ⟨260, 261, 259, 258, 343, 263, 262, 360⟩

/-- The global state the handlers act on: `Global::file` and `Global::running`. -/
structure Global where
  file : File
  running : Bool
  deriving DecidableEq, Repr

/-- Handler `leftHandler`. -/
def leftHandler (g : Global) : Result Global :=
  match g.file.cursorLeft with
  | .error e => .error e
  | .ok f => .ok { g with file := f }

/-- Handler `rightHandler`. -/
def rightHandler (g : Global) : Result Global :=
  match g.file.cursorRight with
  | .error e => .error e
  | .ok f => .ok { g with file := f }

/-- Handler `upHandler`. -/
def upHandler (g : Global) : Result Global :=
  match g.file.cursorUp with
  | .error e => .error e
  | .ok f => .ok { g with file := f }

/-- Handler `downHandler`. -/
def downHandler (g : Global) : Result Global :=
  match g.file.cursorDown with
  | .error e => .error e
  | .ok f => .ok { g with file := f }

/-- Handler `arrows`: the `switch` on the key code. -/
def arrows (K : Keys) (code : Int) (g : Global) : Result Global :=
  if code = K.KEY_LEFT then leftHandler g
  else if code = K.KEY_RIGHT then rightHandler g
  else if code = K.KEY_UP then upHandler g
  else if code = K.KEY_DOWN then downHandler g
  else .ok g

/-- Handler `handleEnter`. -/
def handleEnter (_code : Int) (g : Global) : Result Global :=
  match g.file.newLineAt with
  | .error e => .error e
  | .ok f => .ok { g with file := f }

/-- Handler `handleEscape`. -/
def handleEscape (_code : Int) (g : Global) : Result Global :=
  .ok { g with running := false }

/-- Handler `handleBackspace`: the character `removeChar` returns is dropped. -/
def handleBackspace (_code : Int) (g : Global) : Result Global :=
  match g.file.removeChar with
  | .error e => .error e
  | .ok (_, f) => .ok { g with file := f }

/-- The functions a `KeyAction` can point to (`void(*)(int code)`). -/
inductive Handler where
  | arrows
  | handleEnter
  | handleEscape
  | handleBackspace
  | handleHome
  | handleEnd
  deriving DecidableEq, Repr

/-- Call through a handler pointer: `handler(code)`. -/
def Handler.call (K : Keys) : Handler → Int → Global → Result Global
  | .arrows, code, g => TextEditor.arrows K code g
  | .handleEnter, code, g => TextEditor.handleEnter code g
  | .handleEscape, code, g => TextEditor.handleEscape code g
  | .handleBackspace, code, g => TextEditor.handleBackspace code g
  | .handleHome, _, g =>
    match TextEditor.handleHome g.file with
    | .error e => .error e
    | .ok f => .ok { g with file := f }
  | .handleEnd, _, g =>
    match TextEditor.handleEnd g.file with
    | .error e => .error e
    | .ok f => .ok { g with file := f }

/-- The class `KeyAction`. -/
structure KeyAction where
  keyCodes : Vector Int
  handler : Handler
  deriving DecidableEq, Repr

/-- Constructor `KeyAction(void(*_handler)(int code))`: `keyCodes` stays empty. -/
def KeyAction.ofHandler (handler : Handler) : KeyAction := ⟨Vector.empty, handler⟩

/-- Method `KeyAction::handle`. -/
def KeyAction.handle (K : Keys) (a : KeyAction) (code : Int) (g : Global) : Result Global :=
  a.handler.call K code g

/-- The entries of a `std::map<Vector<int>, KeyAction>`, in iteration order:
ascending by key under `Vector::operator<`, no two keys equivalent. -/
abbrev KeyMap : Type := List (Vector Int × KeyAction)

/-- Insertion of one entry into a `std::map`: the entry goes before the first
key it is less than; if an equivalent key (neither less than the other) is
already present the map is left as it is. -/
def KeyMap.insert (e : Vector Int × KeyAction) : KeyMap → Result KeyMap
  | [] => .ok [e]
  | e1 :: rest =>
    match e.1.lt e1.1 with
    | .error err => .error err
    | .ok true => .ok (e :: e1 :: rest)
    | .ok false =>
      match e1.1.lt e.1 with
      | .error err => .error err
      | .ok false => .ok (e1 :: rest)
      | .ok true =>
        match KeyMap.insert e rest with
        | .error err => .error err
        | .ok rest1 => .ok (e1 :: rest1)

/-- Construction of a `std::map` from an initializer list of
`(key codes, action)` pairs: each key is built by `Vector(initializer_list)`,
copied into the map's entry, and the entries are inserted left to right. -/
def KeyMap.ofInitList : List (List Int × KeyAction) → KeyMap → Result KeyMap
  | [], m => .ok m
  | (codes, action) :: rest, m =>
    match Vector.ofInitList codes with
    | .error e => .error e
    | .ok key =>
      match key.copy with
      | .error e => .error e
      | .ok key1 =>
        match KeyMap.insert (key1, action) m with
        | .error e => .error e
        | .ok m1 => KeyMap.ofInitList rest m1

/-- The initializer list of `Global::specialKeys`. -/
def specialKeysInit (K : Keys) : List (List Int × KeyAction) :=
  [([K.KEY_LEFT, K.KEY_RIGHT, K.KEY_UP, K.KEY_DOWN], KeyAction.ofHandler .arrows),
   ([K.KEY_ENTER, 10], KeyAction.ofHandler .handleEnter),
   ([27], KeyAction.ofHandler .handleEscape),
   ([8, K.KEY_BACKSPACE], KeyAction.ofHandler .handleBackspace),
   ([K.KEY_HOME], KeyAction.ofHandler .handleHome),
   ([K.KEY_END], KeyAction.ofHandler .handleEnd)]

/-- The table `Global::specialKeys`. -/
def specialKeys (K : Keys) : Result KeyMap :=
  KeyMap.ofInitList (specialKeysInit K) []

/-- The entries of `Global::specialKeys` for the ncurses key codes, in the
order `operator<` puts them. -/
def ncursesTable : KeyMap :=
  [(⟨[8, 263], 2, 2⟩, KeyAction.ofHandler .handleBackspace),
   (⟨[27], 1, 1⟩, KeyAction.ofHandler .handleEscape),
   (⟨[260, 261, 259, 258], 4, 4⟩, KeyAction.ofHandler .arrows),
   (⟨[262], 1, 1⟩, KeyAction.ofHandler .handleHome),
   (⟨[343, 10], 2, 2⟩, KeyAction.ofHandler .handleEnter),
   (⟨[360], 1, 1⟩, KeyAction.ofHandler .handleEnd)]

/-- The table `Global::keyLookup` (`std::unordered_map<int, KeyAction*>`): a
pointer into `specialKeys` is represented by the action it points to. -/
abbrev KeyLookup : Type := Int → Option KeyAction

/-- The empty `keyLookup`. -/
def KeyLookup.empty : KeyLookup := fun _ => none

/-- Assignment `keyLookup[code] = &action`. -/
def KeyLookup.assign (m : KeyLookup) (code : Int) (action : KeyAction) : KeyLookup :=
  fun c => if c = code then some action else m c

/-- Inner loop `for (i = i0; i < i0 + k; i++) keyLookup[codes.getArr()[i]] = &action;`
of `installSpecialKeys`. -/
def installLoop (codes : Vector Int) (action : KeyAction) : Nat → Nat → KeyLookup → Result KeyLookup
  | _, 0, m => .ok m
  | i, k + 1, m =>
    match readAt codes.arr i with
    | .error e => .error e
    | .ok c => installLoop codes action (i + 1) k (m.assign c action)

/-- Outer loop of `installSpecialKeys`, over the entries of the group table. -/
def installEntries : KeyMap → KeyLookup → Result KeyLookup
  | [], m => .ok m
  | (codes, action) :: rest, m =>
    match installLoop codes action 0 codes.size m with
    | .error e => .error e
    | .ok m1 => installEntries rest m1

/-- Function `installSpecialKeys`, on a given group table. -/
def installSpecialKeys (table : KeyMap) : Result KeyLookup :=
  installEntries table KeyLookup.empty

/-- The dispatch of one key code in the loop of `main`: the handler of the code
when `keyLookup` has one, `file.insertChar(c)` otherwise. -/
def eventStep (K : Keys) (keyLookup : KeyLookup) (g : Global) (c : Int) : Result Global :=
  match keyLookup c with
  | some action => action.handle K c g
  | none =>
    match g.file.insertChar c with
    | .error e => .error e
    | .ok f => .ok { g with file := f }

/-- One event of `main` with the built-in table: `installSpecialKeys()` on
`Global::specialKeys`, then the dispatch of the code. -/
def mainStep (K : Keys) (g : Global) (c : Int) : Result Global :=
  match specialKeys K with
  | .error e => .error e
  | .ok table =>
    match installSpecialKeys table with
    | .error e => .error e
    | .ok keyLookup => eventStep K keyLookup g c

/-- Reference for "set the active line's column": the active line gets the
column `col` computes from it, nothing else changes. -/
def setActiveColumn (f : File) (col : Line → Nat) : Result File :=
  match f.getCurrentLine with
  | .error e => .error e
  | .ok l => f.setLine f.currentLine { l with position := col l }

/-- Reference for the per-event step, as the specification words it. -/
def stepRef (K : Keys) (g : Global) (c : Int) : Result Global :=
  if c = K.KEY_LEFT then g.file.cursorLeft.map (fun f => { g with file := f })
  else if c = K.KEY_RIGHT then g.file.cursorRight.map (fun f => { g with file := f })
  else if c = K.KEY_UP then g.file.cursorUp.map (fun f => { g with file := f })
  else if c = K.KEY_DOWN then g.file.cursorDown.map (fun f => { g with file := f })
  else if c = K.KEY_ENTER ∨ c = 10 then g.file.newLineAt.map (fun f => { g with file := f })
  else if c = 8 ∨ c = K.KEY_BACKSPACE then
    g.file.removeChar.map (fun r => { g with file := r.2 })
  else if c = K.KEY_HOME then
    (setActiveColumn g.file (fun _ => 0)).map (fun f => { g with file := f })
  else if c = K.KEY_END then
    (setActiveColumn g.file (fun l => l.getSize)).map (fun f => { g with file := f })
  else if c = 27 then .ok { g with running := false }
  else g.file.insertChar c |>.map (fun f => { g with file := f })

/-! ## Buffers and loops -/

theorem readAt_of_getElem? {T : Type} {arr : List T} {i : Nat} {x : T}
    (h : arr[i]? = some x) : readAt arr i = .ok x := by
  simp [readAt, h]

theorem readAt_of_lt {T : Type} {arr : List T} {i : Nat} (h : i < arr.length) :
    readAt arr i = .ok arr[i] :=
  readAt_of_getElem? (List.getElem?_eq_getElem h)

theorem writeAt_of_lt {T : Type} {arr : List T} {i : Nat} (x : T) (h : i < arr.length) :
    writeAt arr i x = .ok (arr.set i x) := by
  simp [writeAt, h]

theorem copyLoop_spec {T : Type} (src : List T) :
    ∀ (k i : Nat) (copy : List T), i + k ≤ src.length → i + k ≤ copy.length →
      ∃ r, copyLoop src i k copy = .ok r ∧ r.length = copy.length ∧
        ∀ j, r[j]? = if i ≤ j ∧ j < i + k then src[j]? else copy[j]? := by
  intro k
  induction k with
  | zero =>
    intro i copy _ _
    refine ⟨copy, rfl, rfl, fun j => ?_⟩
    have : ¬ (i ≤ j ∧ j < i + 0) := by omega
    rw [if_neg this]
  | succ k ih =>
    intro i copy hs hc
    have h1 : i < src.length := by omega
    have h2 : i < copy.length := by omega
    obtain ⟨r, hr, hlen, hget⟩ := ih (i + 1) (copy.set i src[i]) (by omega)
      (by rw [List.length_set]; omega)
    refine ⟨r, ?_, ?_, fun j => ?_⟩
    · simp only [copyLoop, readAt_of_lt h1, writeAt_of_lt _ h2, hr]
    · rw [hlen, List.length_set]
    · rw [hget j, List.getElem?_set]
      by_cases hj : i = j
      · subst hj
        simp [h2, h1]
      · by_cases hj2 : i + 1 ≤ j ∧ j < i + 1 + k
        · have : i ≤ j ∧ j < i + (k + 1) := by omega
          simp [hj2, this]
        · have : ¬ (i ≤ j ∧ j < i + (k + 1)) := by omega
          simp [hj2, this, hj]

theorem shiftRightLoop_spec {T : Type} :
    ∀ (k i : Nat) (arr : List T), k ≤ i → i < arr.length →
      ∃ r, shiftRightLoop arr i k = .ok r ∧ r.length = arr.length ∧
        ∀ j, r[j]? = if i - k < j ∧ j ≤ i then arr[j - 1]? else arr[j]? := by
  intro k
  induction k with
  | zero =>
    intro i arr _ _
    refine ⟨arr, rfl, rfl, fun j => ?_⟩
    have : ¬ (i - 0 < j ∧ j ≤ i) := by omega
    rw [if_neg this]
  | succ k ih =>
    intro i arr hk hi
    have h1 : i - 1 < arr.length := by omega
    obtain ⟨r, hr, hlen, hget⟩ := ih (i - 1) (arr.set i arr[i - 1]) (by omega)
      (by rw [List.length_set]; omega)
    refine ⟨r, ?_, ?_, fun j => ?_⟩
    · simp only [shiftRightLoop, readAt_of_lt h1, writeAt_of_lt _ hi, hr]
    · rw [hlen, List.length_set]
    · rw [hget j]
      by_cases hj : j = i
      · subst hj
        have a1 : ¬ (j - 1 - k < j ∧ j ≤ j - 1) := by omega
        have a2 : j - (k + 1) < j ∧ j ≤ j := by omega
        simp [a1, a2, hi, h1]
      · by_cases hj2 : i - 1 - k < j ∧ j ≤ i - 1
        · have a2 : i - (k + 1) < j ∧ j ≤ i := by omega
          have a3 : i ≠ j - 1 := by omega
          simp [hj2, a2, List.getElem?_set_ne a3]
        · have a2 : ¬ (i - (k + 1) < j ∧ j ≤ i) := by omega
          have a3 : i ≠ j := by omega
          simp [hj2, a2, List.getElem?_set_ne a3]

theorem shiftLeftLoop_spec {T : Type} :
    ∀ (k i : Nat) (arr : List T), i + k < arr.length →
      ∃ r, shiftLeftLoop arr i k = .ok r ∧ r.length = arr.length ∧
        ∀ j, r[j]? = if i ≤ j ∧ j < i + k then arr[j + 1]? else arr[j]? := by
  intro k
  induction k with
  | zero =>
    intro i arr _
    refine ⟨arr, rfl, rfl, fun j => ?_⟩
    have : ¬ (i ≤ j ∧ j < i + 0) := by omega
    rw [if_neg this]
  | succ k ih =>
    intro i arr hi
    have h1 : i + 1 < arr.length := by omega
    have h2 : i < arr.length := by omega
    obtain ⟨r, hr, hlen, hget⟩ := ih (i + 1) (arr.set i arr[i + 1])
      (by rw [List.length_set]; omega)
    refine ⟨r, ?_, ?_, fun j => ?_⟩
    · simp only [shiftLeftLoop, readAt_of_lt h1, writeAt_of_lt _ h2, hr]
    · rw [hlen, List.length_set]
    · rw [hget j]
      by_cases hj : j = i
      · subst hj
        have a1 : ¬ (j + 1 ≤ j ∧ j < j + 1 + k) := by omega
        have a2 : j ≤ j ∧ j < j + (k + 1) := by omega
        simp [a1, a2, h2, h1]
      · by_cases hj2 : i + 1 ≤ j ∧ j < i + 1 + k
        · have a2 : i ≤ j ∧ j < i + (k + 1) := by omega
          have a3 : i ≠ j + 1 := by omega
          simp [hj2, a2, List.getElem?_set_ne a3]
        · have a2 : ¬ (i ≤ j ∧ j < i + (k + 1)) := by omega
          have a3 : i ≠ j := by omega
          simp [hj2, a2, List.getElem?_set_ne a3]

/-! ## Vector operations -/

theorem Vector.getElem?_toList {T : Type} (v : Vector T) (j : Nat) :
    v.toList[j]? = if j < v.size then v.arr[j]? else none := by
  simp [Vector.toList, List.getElem?_take]

theorem Vector.length_toList {T : Type} {v : Vector T} (h : v.WF) :
    v.toList.length = v.size := by
  obtain ⟨h1, h2⟩ := h
  simp [Vector.toList, List.length_take]; omega

theorem Vector.grow_spec {T : Type} [Inhabited T] {v : Vector T} (h : v.WF) :
    ∃ g, v.grow = .ok g ∧ g.WF ∧ g.size = v.size ∧ g.toList = v.toList ∧ g.size < g.cap ∧
      g.cap = if v.size + 1 > v.cap then (if v.cap = 0 then 1 else v.cap * 2) else v.cap := by
  obtain ⟨h1, h2⟩ := h
  by_cases hfull : v.size + 1 > v.cap
  · have hne : v.cap ≠ (if v.cap = 0 then 1 else v.cap * 2) := by
      split <;> omega
    have hle : v.size < (if v.cap = 0 then 1 else v.cap * 2) := by
      split <;> omega
    obtain ⟨r, hr, hlen, hget⟩ := copyLoop_spec v.arr v.size 0
      (List.replicate (if v.cap = 0 then 1 else v.cap * 2) default) (by omega)
      (by rw [List.length_replicate]; omega)
    refine ⟨⟨r, v.size, if v.cap = 0 then 1 else v.cap * 2⟩, ?_, ?_, rfl, ?_, hle, ?_⟩
    · simp only [Vector.grow, if_pos hfull, if_pos hne, hr]
    · exact ⟨by simp only; omega, by rw [hlen, List.length_replicate]⟩
    · apply List.ext_getElem?
      intro j
      rw [Vector.getElem?_toList, Vector.getElem?_toList, hget j]
      by_cases hj : j < v.size
      · have : 0 ≤ j ∧ j < 0 + v.size := by omega
        simp [hj, this]
      · simp [hj]
    · simp only [if_pos hfull]
  · refine ⟨v, ?_, ⟨h1, h2⟩, rfl, rfl, by omega, ?_⟩
    · simp [Vector.grow, hfull]
    · simp only [if_neg hfull]

theorem Vector.insert_spec {T : Type} [Inhabited T] {v : Vector T} (h : v.WF)
    {index : Nat} (hi : index ≤ v.size) (value : T) :
    ∃ r, v.insert index value = .ok r ∧ r.WF ∧ r.size = v.size + 1 ∧
      r.toList = v.toList.take index ++ value :: v.toList.drop index := by
  obtain ⟨g, hg, ⟨hg1, hg2⟩, hgs, hgl, hgc, -⟩ := Vector.grow_spec h
  obtain ⟨r1, hr1, hlen1, hget1⟩ := shiftRightLoop_spec (g.size - index) g.size g.arr
    (by omega) (by omega)
  have hix : index < r1.length := by omega
  refine ⟨⟨r1.set index value, g.size + 1, g.cap⟩, ?_, ?_, by simp only; omega, ?_⟩
  · have : ¬ index > g.size := by omega
    simp only [Vector.insert, hg, if_neg this, hr1, writeAt_of_lt _ hix]
  · exact ⟨by simp only; omega, by simp only; rw [List.length_set]; omega⟩
  · apply List.ext_getElem?
    intro j
    have hlt : (List.take index v.toList).length = index := by
      rw [List.length_take, Vector.length_toList h]; omega
    rw [Vector.getElem?_toList, List.getElem?_append, hlt]
    simp only
    by_cases hj : j < index
    · have a1 : index ≠ j := by omega
      have a2 : ¬ (g.size - (g.size - index) < j ∧ j ≤ g.size) := by omega
      have a3 : j < g.size + 1 := by omega
      have a4 : j < v.size := by omega
      rw [if_pos a3, List.getElem?_set_ne a1, hget1 j, if_neg a2, if_pos hj,
        List.getElem?_take_of_lt hj, ← hgl, Vector.getElem?_toList, hgs, if_pos a4]
    · rw [if_neg hj]
      by_cases hj2 : j = index
      · subst hj2
        have a3 : j < g.size + 1 := by omega
        simp [a3, List.getElem?_set, hix]
      · have a1 : index ≠ j := by omega
        rw [List.getElem?_set_ne a1, hget1 j, List.getElem?_cons]
        have a5 : ¬ (j - index = 0) := by omega
        rw [if_neg a5, List.getElem?_drop, ← hgl, Vector.getElem?_toList]
        have a6 : index + (j - index - 1) = j - 1 := by omega
        rw [a6]
        by_cases hj3 : j < g.size + 1
        · have a2 : g.size - (g.size - index) < j ∧ j ≤ g.size := by omega
          have a7 : j - 1 < g.size := by omega
          rw [if_pos hj3, if_pos a2, if_pos a7]
        · have a7 : ¬ j - 1 < g.size := by omega
          rw [if_neg hj3, if_neg a7]

theorem Vector.erase_spec {T : Type} {v : Vector T} (h : v.WF)
    {index : Nat} (hi : index < v.size) :
    ∃ x r, v.erase index = .ok (x, r) ∧ v.toList[index]? = some x ∧ r.WF ∧
      r.size = v.size - 1 ∧ r.cap = v.cap ∧ r.toList = v.toList.eraseIdx index := by
  obtain ⟨h1, h2⟩ := h
  have hlt : index < v.arr.length := by omega
  obtain ⟨r1, hr1, hlen1, hget1⟩ := shiftLeftLoop_spec (v.size - 1 - index) index v.arr
    (by omega)
  refine ⟨v.arr[index], ⟨r1, v.size - 1, v.cap⟩, ?_, ?_, ?_, rfl, rfl, ?_⟩
  · have : ¬ index ≥ v.size := by omega
    simp only [Vector.erase, if_neg this, readAt_of_lt hlt, hr1]
  · rw [Vector.getElem?_toList, if_pos hi, List.getElem?_eq_getElem hlt]
  · exact ⟨by simp only; omega, by simp only; omega⟩
  · apply List.ext_getElem?
    intro j
    rw [List.getElem?_eraseIdx, Vector.getElem?_toList, Vector.getElem?_toList,
      Vector.getElem?_toList, hget1 j]
    simp only
    by_cases hj : j < index
    · have a1 : j < v.size - 1 := by omega
      have a2 : ¬ (index ≤ j ∧ j < index + (v.size - 1 - index)) := by omega
      have a3 : j < v.size := by omega
      rw [if_pos hj, if_pos a1, if_neg a2, if_pos a3]
    · rw [if_neg hj]
      by_cases hj2 : j < v.size - 1
      · have a2 : index ≤ j ∧ j < index + (v.size - 1 - index) := by omega
        have a3 : j + 1 < v.size := by omega
        rw [if_pos hj2, if_pos a2, if_pos a3]
      · have a3 : ¬ j + 1 < v.size := by omega
        rw [if_neg hj2, if_neg a3]

/-! ## Lines -/

theorem Line.length_chars {l : Line} (h : l.text.WF) : l.chars.length = l.getSize :=
  Vector.length_toList h

theorem Line.insertChar_spec {l : Line} (h : l.text.WF) (hp : l.position ≤ l.getSize)
    (c : CChar) :
    ∃ r, l.insertChar c = .ok r ∧ r.text.WF ∧ r.getSize = l.getSize + 1 ∧
      r.position = l.position + 1 ∧ r.selected = l.selected ∧
      r.chars = l.chars.take l.position ++ c :: l.chars.drop l.position := by
  obtain ⟨t, ht, hwf, hsz, hl⟩ := Vector.insert_spec h hp c
  exact ⟨{ l with text := t, position := l.position + 1 }, by simp only [Line.insertChar, ht],
    hwf, hsz, rfl, rfl, hl⟩

theorem Line.removeChar_spec {l : Line} (h : l.text.WF) (hp : l.position ≤ l.getSize)
    (h0 : 0 < l.position) :
    ∃ c r, l.removeChar = .ok (c, r) ∧ l.chars[l.position - 1]? = some c ∧ r.text.WF ∧
      r.getSize = l.getSize - 1 ∧ r.position = l.position - 1 ∧ r.selected = l.selected ∧
      r.chars = l.chars.eraseIdx (l.position - 1) := by
  have hlt : l.position - 1 < l.text.size := by unfold Line.getSize at hp; omega
  obtain ⟨c, t, ht, hc, hwf, hsz, -, hl⟩ := Vector.erase_spec h hlt
  have hne : ¬ l.position = 0 := by omega
  exact ⟨c, { l with text := t, position := l.position - 1 },
    by simp only [Line.removeChar, if_neg hne, ht], hc, hwf, hsz, rfl, rfl, hl⟩

theorem Line.cutOff_spec {l : Line} (h : l.text.WF) (hp : l.position ≤ l.getSize) :
    l.cutOff.text.WF ∧ l.cutOff.getSize = l.position ∧ l.cutOff.position = l.position ∧
      l.cutOff.selected = l.selected ∧ l.cutOff.chars = l.chars.take l.position := by
  obtain ⟨h1, h2⟩ := h
  unfold Line.getSize at hp
  refine ⟨⟨?_, h2⟩, rfl, rfl, rfl, ?_⟩
  · show l.position ≤ l.text.cap
    omega
  · show List.take l.position l.text.arr = List.take l.position (List.take l.text.size l.text.arr)
    rw [List.take_take, Nat.min_eq_left hp]

theorem newLineLoop_spec (src : List CChar) :
    ∀ (k i : Nat) (nl : Line), nl.text.WF → nl.position = nl.getSize → i + k ≤ src.length →
      ∃ r, newLineLoop src i k nl = .ok r ∧ r.text.WF ∧ r.position = r.getSize ∧
        r.selected = nl.selected ∧ r.chars = nl.chars ++ (src.drop i).take k := by
  intro k
  induction k with
  | zero =>
    intro i nl hwf hp _
    exact ⟨nl, rfl, hwf, hp, rfl, by simp⟩
  | succ k ih =>
    intro i nl hwf hp hk
    have hi : i < src.length := by omega
    obtain ⟨n1, hn1, hwf1, hsz1, hpos1, hsel1, hch1⟩ :=
      Line.insertChar_spec hwf (Nat.le_of_eq hp) src[i]
    obtain ⟨r, hr, hwfr, hposr, hselr, hchr⟩ := ih (i + 1) n1 hwf1 (by omega) (by omega)
    refine ⟨r, ?_, hwfr, hposr, by rw [hselr, hsel1], ?_⟩
    · simp only [newLineLoop, readAt_of_lt hi, hn1, hr]
    · have hlen : nl.chars.length = nl.position := by rw [Line.length_chars hwf, hp]
      rw [hchr, hch1, List.take_of_length_le (Nat.le_of_eq hlen),
        List.drop_of_length_le (Nat.le_of_eq hlen)]
      have : List.take (k + 1) (List.drop i src) = src[i] :: List.take k (List.drop (i + 1) src) := by
        rw [List.drop_eq_getElem_cons hi, List.take_succ_cons]
      rw [this]
      simp

/-! ## Documents -/

theorem File.getElem?_lineList (f : File) (j : Nat) :
    f.lineList[j]? = if j < f.lines.size then f.lines.arr[j]? else none :=
  Vector.getElem?_toList f.lines j

theorem File.length_lineList {f : File} (h : f.lines.WF) : f.lineList.length = f.lines.size :=
  Vector.length_toList h

theorem File.getCurrentLine_spec {f : File} (hw : f.lines.WF) (hk : f.currentLine < f.lines.size) :
    ∃ l, f.getCurrentLine = .ok l ∧ f.lineList[f.currentLine]? = some l := by
  have hlt : f.currentLine < f.lines.arr.length := by
    obtain ⟨h1, h2⟩ := hw; omega
  refine ⟨f.lines.arr[f.currentLine], readAt_of_lt hlt, ?_⟩
  rw [File.getElem?_lineList, if_pos hk, List.getElem?_eq_getElem hlt]

theorem File.readLine_spec {f : File} (hw : f.lines.WF) {i : Nat} (hi : i < f.lines.size) :
    ∃ l, readAt f.lines.arr i = .ok l ∧ f.lineList[i]? = some l := by
  have hlt : i < f.lines.arr.length := by
    obtain ⟨h1, h2⟩ := hw; omega
  refine ⟨f.lines.arr[i], readAt_of_lt hlt, ?_⟩
  rw [File.getElem?_lineList, if_pos hi, List.getElem?_eq_getElem hlt]

theorem File.setLine_spec {f : File} (hw : f.lines.WF) {i : Nat} (hi : i < f.lines.size)
    (l : Line) :
    ∃ r, f.setLine i l = .ok r ∧ r.lines.WF ∧ r.lines.size = f.lines.size ∧
      r.currentLine = f.currentLine ∧ r.lineList = f.lineList.set i l := by
  have hlt : i < f.lines.arr.length := by
    obtain ⟨h1, h2⟩ := hw; omega
  refine ⟨{ f with lines := { f.lines with arr := f.lines.arr.set i l } }, ?_, ?_, rfl, rfl, ?_⟩
  · simp only [File.setLine, writeAt_of_lt _ hlt]
  · obtain ⟨h1, h2⟩ := hw
    exact ⟨h1, by simp only; rw [List.length_set]; exact h2⟩
  · apply List.ext_getElem?
    intro j
    rw [File.getElem?_lineList]
    simp only
    by_cases hj : i = j
    · subst hj
      have : i < f.lineList.length := by rw [File.length_lineList hw]; exact hi
      simp [List.getElem?_set, hi, hlt, this]
    · rw [List.getElem?_set_ne hj, List.getElem?_set_ne hj, File.getElem?_lineList]

theorem File.good_iff (f : File) :
    (f.WF ∧ f.valid) ↔
      (f.lines.WF ∧ 0 < f.lines.size ∧ f.currentLine < f.lines.size ∧ ∀ l ∈ f.lineList, l.ok) := by
  unfold File.WF File.valid Line.ok
  constructor
  · rintro ⟨⟨h1, h2⟩, h3, h4, h5⟩
    exact ⟨h1, h3, h4, fun l hl => ⟨h2 l hl, h5 l hl⟩⟩
  · rintro ⟨h1, h3, h4, h5⟩
    exact ⟨⟨h1, fun l hl => (h5 l hl).1⟩, h3, h4, fun l hl => (h5 l hl).2⟩

theorem ok_of_mem_set {ls : List Line} (h : ∀ l ∈ ls, l.ok) {i : Nat} {x : Line} (hx : x.ok) :
    ∀ l ∈ ls.set i x, l.ok := by
  intro l hl
  rcases List.mem_or_eq_of_mem_set hl with h1 | h1
  · exact h l h1
  · rw [h1]; exact hx

theorem ok_of_getElem? {ls : List Line} (h : ∀ l ∈ ls, l.ok) {i : Nat} {x : Line}
    (hx : ls[i]? = some x) : x.ok :=
  h x (List.getElem?_mem hx)

theorem set_append_cons {α : Type} (a b : List α) (x y : α) {n : Nat} (hn : a.length = n) :
    (a ++ x :: b).set n y = a ++ y :: b := by
  subst hn
  induction a with
  | nil => rfl
  | cons h t ih => simp [List.set, ih]

/-- Case of `cursorLeft` with the cursor inside the line. -/
theorem File.cursorLeft_pos {f : File} (hwf : f.WF) (hv : f.valid) {l : Line}
    (hl : f.lineList[f.currentLine]? = some l) (hp : 0 < l.position) :
    ∃ r, f.cursorLeft = .ok r ∧ r.lines.WF ∧ r.lines.size = f.lines.size ∧
      r.currentLine = f.currentLine ∧
      r.lineList = f.lineList.set f.currentLine { l with position := l.position - 1 } := by
  obtain ⟨hw, h0, hk, hok⟩ := (File.good_iff f).1 ⟨hwf, hv⟩
  obtain ⟨l1, hg, hl1⟩ := File.getCurrentLine_spec hw hk
  rw [hl] at hl1; cases hl1
  obtain ⟨r, hr, h1, h2, h3, h4⟩ := File.setLine_spec hw hk { l with position := l.position - 1 }
  have hne : ¬ l.position = 0 := by omega
  exact ⟨r, by simp only [File.cursorLeft, hg, if_neg hne, hr], h1, h2, h3, h4⟩

/-- Case of `cursorLeft` at column 0 of a line that is not the first. -/
theorem File.cursorLeft_wrap {f : File} (hwf : f.WF) (hv : f.valid) {l : Line}
    (hl : f.lineList[f.currentLine]? = some l) (hp : l.position = 0) (hc : 0 < f.currentLine) :
    ∃ r q, f.cursorLeft = .ok r ∧ r.lines.WF ∧ r.lines.size = f.lines.size ∧
      r.currentLine = f.currentLine ∧ f.lineList[f.currentLine - 1]? = some q ∧
      r.lineList = f.lineList.set (f.currentLine - 1) { q with position := q.getSize } := by
  obtain ⟨hw, h0, hk, hok⟩ := (File.good_iff f).1 ⟨hwf, hv⟩
  obtain ⟨l1, hg, hl1⟩ := File.getCurrentLine_spec hw hk
  rw [hl] at hl1; cases hl1
  have hk1 : f.currentLine - 1 < f.lines.size := by omega
  obtain ⟨q, hq, hq1⟩ := File.readLine_spec hw hk1
  obtain ⟨r, hr, h1, h2, h3, h4⟩ := File.setLine_spec hw hk1 { q with position := q.getSize }
  have hc1 : f.currentLine > 0 := hc
  exact ⟨r, q, by simp only [File.cursorLeft, hg, if_pos hp, if_pos hc1, hq, hr], h1, h2, h3, hq1, h4⟩

/-- Case of `cursorLeft` at column 0 of the first line. -/
theorem File.cursorLeft_first {f : File} (hwf : f.WF) (hv : f.valid) {l : Line}
    (hl : f.lineList[f.currentLine]? = some l) (hp : l.position = 0) (hc : f.currentLine = 0) :
    f.cursorLeft = .ok f := by
  obtain ⟨hw, h0, hk, hok⟩ := (File.good_iff f).1 ⟨hwf, hv⟩
  obtain ⟨l1, hg, hl1⟩ := File.getCurrentLine_spec hw hk
  rw [hl] at hl1; cases hl1
  have hc1 : ¬ f.currentLine > 0 := by omega
  simp only [File.cursorLeft, hg, if_pos hp, if_neg hc1]

/-- Case of `cursorRight` with the cursor before the end of the line. -/
theorem File.cursorRight_inside {f : File} (hwf : f.WF) (hv : f.valid) {l : Line}
    (hl : f.lineList[f.currentLine]? = some l) (hp : l.position < l.getSize) :
    ∃ r, f.cursorRight = .ok r ∧ r.lines.WF ∧ r.lines.size = f.lines.size ∧
      r.currentLine = f.currentLine ∧
      r.lineList = f.lineList.set f.currentLine { l with position := l.position + 1 } := by
  obtain ⟨hw, h0, hk, hok⟩ := (File.good_iff f).1 ⟨hwf, hv⟩
  obtain ⟨l1, hg, hl1⟩ := File.getCurrentLine_spec hw hk
  rw [hl] at hl1; cases hl1
  obtain ⟨r, hr, h1, h2, h3, h4⟩ := File.setLine_spec hw hk { l with position := l.position + 1 }
  have hne : ¬ l.position = l.getSize := by omega
  exact ⟨r, by simp only [File.cursorRight, hg, if_neg hne, hr], h1, h2, h3, h4⟩

/-- Case of `cursorRight` at the end of a line that is not the last. -/
theorem File.cursorRight_wrap {f : File} (hwf : f.WF) (hv : f.valid) {l : Line}
    (hl : f.lineList[f.currentLine]? = some l) (hp : l.position = l.getSize)
    (hc : f.currentLine + 1 < f.lines.size) :
    ∃ r q, f.cursorRight = .ok r ∧ r.lines.WF ∧ r.lines.size = f.lines.size ∧
      r.currentLine = f.currentLine + 1 ∧ f.lineList[f.currentLine + 1]? = some q ∧
      r.lineList = f.lineList.set (f.currentLine + 1) { q with position := 0 } := by
  obtain ⟨hw, h0, hk, hok⟩ := (File.good_iff f).1 ⟨hwf, hv⟩
  obtain ⟨l1, hg, hl1⟩ := File.getCurrentLine_spec hw hk
  rw [hl] at hl1; cases hl1
  obtain ⟨q, hq, hq1⟩ := File.readLine_spec hw hc
  obtain ⟨r, hr, h1, h2, h3, h4⟩ := File.setLine_spec hw hc { q with position := 0 }
  exact ⟨{ r with currentLine := f.currentLine + 1 }, q,
    by simp only [File.cursorRight, hg, if_pos hp, if_pos hc, hq, hr], h1, h2, rfl, hq1, h4⟩

/-- Case of `cursorRight` at the end of the last line. -/
theorem File.cursorRight_last {f : File} (hwf : f.WF) (hv : f.valid) {l : Line}
    (hl : f.lineList[f.currentLine]? = some l) (hp : l.position = l.getSize)
    (hc : ¬ f.currentLine + 1 < f.lines.size) :
    f.cursorRight = .ok f := by
  obtain ⟨hw, h0, hk, hok⟩ := (File.good_iff f).1 ⟨hwf, hv⟩
  obtain ⟨l1, hg, hl1⟩ := File.getCurrentLine_spec hw hk
  rw [hl] at hl1; cases hl1
  simp only [File.cursorRight, hg, if_pos hp, if_neg hc]

/-- Case of `cursorDown` on a line that is not the last. -/
theorem File.cursorDown_step {f : File} (hwf : f.WF) (hv : f.valid) {l : Line}
    (hl : f.lineList[f.currentLine]? = some l) (hc : f.currentLine + 1 < f.lines.size) :
    ∃ r q, f.cursorDown = .ok r ∧ r.lines.WF ∧ r.lines.size = f.lines.size ∧
      r.currentLine = f.currentLine + 1 ∧ f.lineList[f.currentLine + 1]? = some q ∧
      r.lineList = f.lineList.set (f.currentLine + 1)
        { q with position := min l.position q.getSize } := by
  obtain ⟨hw, h0, hk, hok⟩ := (File.good_iff f).1 ⟨hwf, hv⟩
  obtain ⟨l1, hg, hl1⟩ := File.getCurrentLine_spec hw hk
  rw [hl] at hl1; cases hl1
  obtain ⟨q, hq, hq1⟩ := File.readLine_spec hw hc
  have hnew : (if l.position > q.getSize then { q with position := q.getSize }
      else { q with position := l.position } : Line) =
      { q with position := min l.position q.getSize } := by
    split
    · rw [Nat.min_eq_right (by omega)]
    · rw [Nat.min_eq_left (by omega)]
  obtain ⟨r, hr, h1, h2, h3, h4⟩ :=
    File.setLine_spec hw hc { q with position := min l.position q.getSize }
  exact ⟨{ r with currentLine := f.currentLine + 1 }, q,
    by simp only [File.cursorDown, if_pos hc, hg, hq, hnew, hr], h1, h2, rfl, hq1, h4⟩

/-- Case of `cursorDown` on the last line. -/
theorem File.cursorDown_last {f : File} (hc : ¬ f.currentLine + 1 < f.lines.size) :
    f.cursorDown = .ok f := by
  simp only [File.cursorDown, if_neg hc]

/-- Case of `cursorUp` on a line that is not the first. -/
theorem File.cursorUp_step {f : File} (hwf : f.WF) (hv : f.valid) {l : Line}
    (hl : f.lineList[f.currentLine]? = some l) (hc : 0 < f.currentLine) :
    ∃ r q, f.cursorUp = .ok r ∧ r.lines.WF ∧ r.lines.size = f.lines.size ∧
      r.currentLine = f.currentLine - 1 ∧ f.lineList[f.currentLine - 1]? = some q ∧
      r.lineList = f.lineList.set (f.currentLine - 1)
        { q with position := if l.position = 0 then q.getSize else min l.position q.getSize } := by
  obtain ⟨hw, h0, hk, hok⟩ := (File.good_iff f).1 ⟨hwf, hv⟩
  obtain ⟨l1, hg, hl1⟩ := File.getCurrentLine_spec hw hk
  rw [hl] at hl1; cases hl1
  have hk1 : f.currentLine - 1 < f.lines.size := by omega
  obtain ⟨q, hq, hq1⟩ := File.readLine_spec hw hk1
  have hnew : (if l.position = 0 ∨ l.position > q.getSize then { q with position := q.getSize }
      else { q with position := l.position } : Line) =
      { q with position := if l.position = 0 then q.getSize else min l.position q.getSize } := by
    by_cases hz : l.position = 0
    · simp [hz]
    · by_cases hgt : l.position > q.getSize
      · simp only [hz, hgt, or_true, if_true, if_false]
        rw [Nat.min_eq_right (by omega)]
      · simp only [hz, hgt, or_self, if_false]
        rw [Nat.min_eq_left (by omega)]
  obtain ⟨r, hr, h1, h2, h3, h4⟩ := File.setLine_spec hw hk1
    { q with position := if l.position = 0 then q.getSize else min l.position q.getSize }
  have hc1 : f.currentLine > 0 := hc
  exact ⟨{ r with currentLine := f.currentLine - 1 }, q,
    by simp only [File.cursorUp, if_pos hc1, hg, hq, hnew, hr], h1, h2, rfl, hq1, h4⟩

/-- Case of `cursorUp` on the first line. -/
theorem File.cursorUp_first {f : File} (hc : ¬ 0 < f.currentLine) :
    f.cursorUp = .ok f := by
  have hc1 : ¬ f.currentLine > 0 := hc
  simp only [File.cursorUp, if_neg hc1]

/-- Effect of `File::insertChar` on a valid document. -/
theorem File.insertChar_core {f : File} (hwf : f.WF) (hv : f.valid) {l : Line}
    (hl : f.lineList[f.currentLine]? = some l) (c : Int) :
    ∃ r l1, f.insertChar c = .ok r ∧ r.lines.WF ∧ r.lines.size = f.lines.size ∧
      r.currentLine = f.currentLine ∧ r.lineList = f.lineList.set f.currentLine l1 ∧
      l1.ok ∧ l1.position = l.position + 1 ∧ l1.selected = l.selected ∧
      l1.chars = l.chars.take l.position ++ narrow c :: l.chars.drop l.position := by
  obtain ⟨hw, h0, hk, hok⟩ := (File.good_iff f).1 ⟨hwf, hv⟩
  obtain ⟨l0, hg, hl0⟩ := File.getCurrentLine_spec hw hk
  rw [hl] at hl0; cases hl0
  obtain ⟨hlw, hlp⟩ := ok_of_getElem? hok hl
  obtain ⟨l1, hi, a1, a2, a3, a4, a5⟩ := Line.insertChar_spec hlw hlp (narrow c)
  obtain ⟨r, hr, h1, h2, h3, h4⟩ := File.setLine_spec hw hk l1
  exact ⟨r, l1, by simp only [File.insertChar, hg, hi, hr], h1, h2, h3, h4,
    ⟨a1, by omega⟩, a3, a4, a5⟩

/-- Case of `File::removeChar` with the cursor inside the line. -/
theorem File.removeChar_inside {f : File} (hwf : f.WF) (hv : f.valid) {l : Line}
    (hl : f.lineList[f.currentLine]? = some l) (hp : 0 < l.position) :
    ∃ c r l1, f.removeChar = .ok (c, r) ∧ l.chars[l.position - 1]? = some c ∧
      r.lines.WF ∧ r.lines.size = f.lines.size ∧ r.currentLine = f.currentLine ∧
      r.lineList = f.lineList.set f.currentLine l1 ∧
      l1.ok ∧ l1.position = l.position - 1 ∧ l1.selected = l.selected ∧
      l1.chars = l.chars.eraseIdx (l.position - 1) := by
  obtain ⟨hw, h0, hk, hok⟩ := (File.good_iff f).1 ⟨hwf, hv⟩
  obtain ⟨l0, hg, hl0⟩ := File.getCurrentLine_spec hw hk
  rw [hl] at hl0; cases hl0
  obtain ⟨hlw, hlp⟩ := ok_of_getElem? hok hl
  obtain ⟨c, l1, hi, hc, a1, a2, a3, a4, a5⟩ := Line.removeChar_spec hlw hlp hp
  obtain ⟨r, hr, h1, h2, h3, h4⟩ := File.setLine_spec hw hk l1
  have hne : ¬ l.position = 0 := by omega
  exact ⟨c, r, l1, by simp only [File.removeChar, hg, if_neg hne, hi, hr], hc, h1, h2, h3, h4,
    ⟨a1, by omega⟩, a3, a4, a5⟩

/-- Case of `File::removeChar` at column 0 of the only line. -/
theorem File.removeChar_single {f : File} (hwf : f.WF) (hv : f.valid) {l : Line}
    (hl : f.lineList[f.currentLine]? = some l) (hp : l.position = 0) (h1 : f.lines.size = 1) :
    f.removeChar = .ok (0, f) := by
  obtain ⟨hw, h0, hk, hok⟩ := (File.good_iff f).1 ⟨hwf, hv⟩
  obtain ⟨l0, hg, hl0⟩ := File.getCurrentLine_spec hw hk
  rw [hl] at hl0; cases hl0
  simp only [File.removeChar, hg, if_pos hp, if_pos h1]

/-- Case of `File::removeChar` at column 0 when the document has several lines. -/
theorem File.removeChar_join {f : File} (hwf : f.WF) (hv : f.valid) {l : Line}
    (hl : f.lineList[f.currentLine]? = some l) (hp : l.position = 0) (h1 : f.lines.size ≠ 1) :
    ∃ r q, f.removeChar = .ok (0, r) ∧ r.lines.WF ∧ r.lines.size = f.lines.size - 1 ∧
      r.currentLine = (if f.currentLine > 0 then f.currentLine - 1 else f.currentLine) ∧
      (f.lineList.eraseIdx f.currentLine)[r.currentLine]? = some q ∧
      r.lineList = (f.lineList.eraseIdx f.currentLine).set r.currentLine
        { q with position := q.getSize } := by
  obtain ⟨hw, h0, hk, hok⟩ := (File.good_iff f).1 ⟨hwf, hv⟩
  obtain ⟨l0, hg, hl0⟩ := File.getCurrentLine_spec hw hk
  rw [hl] at hl0; cases hl0
  obtain ⟨x, lines, he, -, e1, e2, e3, e4⟩ := Vector.erase_spec hw hk
  have hk1 : (if f.currentLine > 0 then f.currentLine - 1 else f.currentLine) < lines.size := by
    split <;> omega
  obtain ⟨q, hq, hq1⟩ := File.readLine_spec
    (f := ⟨lines, if f.currentLine > 0 then f.currentLine - 1 else f.currentLine⟩) e1 hk1
  obtain ⟨r, hr, a1, a2, a3, a4⟩ := File.setLine_spec
    (f := ⟨lines, if f.currentLine > 0 then f.currentLine - 1 else f.currentLine⟩) e1 hk1
    { q with position := q.getSize }
  have hll : (⟨lines, if f.currentLine > 0 then f.currentLine - 1 else f.currentLine⟩ :
      File).lineList = f.lineList.eraseIdx f.currentLine := e4
  simp only at hq a2 a3
  rw [hll] at hq1 a4
  refine ⟨r, q, ?_, a1, by omega, a3, by rw [a3]; exact hq1, by rw [a3]; exact a4⟩
  simp only [File.removeChar, hg, if_pos hp, if_neg h1, he, hq, hr]

/-- Effect of `File::newLineAt` on a valid document. -/
theorem File.newLineAt_core {f : File} (hwf : f.WF) (hv : f.valid) {l : Line}
    (hl : f.lineList[f.currentLine]? = some l) :
    ∃ r nl, f.newLineAt = .ok r ∧ r.lines.WF ∧ r.lines.size = f.lines.size + 1 ∧
      r.currentLine = f.currentLine + 1 ∧
      r.lineList = (f.lineList.set f.currentLine l.cutOff).take (f.currentLine + 1) ++
        nl :: (f.lineList.set f.currentLine l.cutOff).drop (f.currentLine + 1) ∧
      nl.ok ∧ nl.position = 0 ∧ nl.selected = false ∧ nl.chars = l.chars.drop l.position := by
  obtain ⟨hw, h0, hk, hok⟩ := (File.good_iff f).1 ⟨hwf, hv⟩
  obtain ⟨l0, hg, hl0⟩ := File.getCurrentLine_spec hw hk
  rw [hl] at hl0; cases hl0
  obtain ⟨hlw, hlp⟩ := ok_of_getElem? hok hl
  have hlen : l.position + (l.getSize - l.position) ≤ l.getArr.length := by
    obtain ⟨b1, b2⟩ := hlw
    unfold Line.getSize Line.getArr at *
    omega
  obtain ⟨n1, hn1, n2, n3, n4, n5⟩ := newLineLoop_spec l.getArr (l.getSize - l.position)
    l.position Line.new (by decide) rfl hlen
  obtain ⟨f1, hf1, c1, c2, c3, c4⟩ := File.setLine_spec hw hk l.cutOff
  have hk1 : f.currentLine + 1 ≤ f1.lines.size := by omega
  obtain ⟨lines, hins, i1, i2, i3⟩ := Vector.insert_spec c1 hk1 n1
  have hk2 : f.currentLine + 1 < lines.size := by omega
  obtain ⟨f2, hf2, d1, d2, d3, d4⟩ := File.setLine_spec (f := ⟨lines, f.currentLine⟩) i1 hk2
    { n1 with position := 0 }
  have hll : (⟨lines, f.currentLine⟩ : File).lineList = lines.toList := rfl
  have hf1l : f1.lines.toList = f1.lineList := rfl
  have hlt : (List.take (f.currentLine + 1) (f.lineList.set f.currentLine l.cutOff)).length =
      f.currentLine + 1 := by
    rw [List.length_take, List.length_set, File.length_lineList hw]; omega
  simp only at d2
  refine ⟨{ f2 with currentLine := f.currentLine + 1 }, { n1 with position := 0 }, ?_, d1,
    by simp only; omega, rfl, ?_, ⟨n2, Nat.zero_le _⟩, rfl, n4, ?_⟩
  · simp only [File.newLineAt, hg, hn1, hf1, hins, hf2]
  · show f2.lineList = _
    rw [d4, hll, i3, hf1l, c4]
    exact set_append_cons _ _ _ _ hlt
  · show n1.chars = _
    rw [n5]
    show Line.new.chars ++ _ = _
    have : Line.new.chars = [] := rfl
    rw [this, List.nil_append]
    show List.take (l.text.size - l.position) (List.drop l.position l.text.arr) =
      List.drop l.position (List.take l.text.size l.text.arr)
    rw [List.drop_take]

/-- Handler `handleHome` on a valid document. -/
theorem handleHome_core {f : File} (hwf : f.WF) (hv : f.valid) {l : Line}
    (hl : f.lineList[f.currentLine]? = some l) :
    ∃ r, handleHome f = .ok r ∧ r.lines.WF ∧ r.lines.size = f.lines.size ∧
      r.currentLine = f.currentLine ∧
      r.lineList = f.lineList.set f.currentLine { l with position := 0 } := by
  obtain ⟨hw, h0, hk, hok⟩ := (File.good_iff f).1 ⟨hwf, hv⟩
  obtain ⟨l0, hg, hl0⟩ := File.getCurrentLine_spec hw hk
  rw [hl] at hl0; cases hl0
  obtain ⟨r, hr, h1, h2, h3, h4⟩ := File.setLine_spec hw hk { l with position := 0 }
  exact ⟨r, by simp only [handleHome, hg, hr], h1, h2, h3, h4⟩

/-- Handler `handleEnd` on a valid document. -/
theorem handleEnd_core {f : File} (hwf : f.WF) (hv : f.valid) {l : Line}
    (hl : f.lineList[f.currentLine]? = some l) :
    ∃ r, handleEnd f = .ok r ∧ r.lines.WF ∧ r.lines.size = f.lines.size ∧
      r.currentLine = f.currentLine ∧
      r.lineList = f.lineList.set f.currentLine { l with position := l.getSize } := by
  obtain ⟨hw, h0, hk, hok⟩ := (File.good_iff f).1 ⟨hwf, hv⟩
  obtain ⟨l0, hg, hl0⟩ := File.getCurrentLine_spec hw hk
  rw [hl] at hl0; cases hl0
  obtain ⟨r, hr, h1, h2, h3, h4⟩ := File.setLine_spec hw hk { l with position := l.getSize }
  exact ⟨r, by simp only [handleEnd, hg, hr], h1, h2, h3, h4⟩

theorem File.active_line {f : File} (hwf : f.WF) (hv : f.valid) :
    ∃ l, f.lineList[f.currentLine]? = some l ∧ l.ok := by
  obtain ⟨hw, h0, hk, hok⟩ := (File.good_iff f).1 ⟨hwf, hv⟩
  obtain ⟨l, -, hl⟩ := File.getCurrentLine_spec hw hk
  exact ⟨l, hl, ok_of_getElem? hok hl⟩

theorem File.good_of_set {f r : File} (hwf : f.WF) (hv : f.valid) (h1 : r.lines.WF)
    (h2 : r.lines.size = f.lines.size) (h3 : r.currentLine < r.lines.size) {i : Nat} {x : Line}
    (h4 : r.lineList = f.lineList.set i x) (hx : x.ok) : r.WF ∧ r.valid := by
  obtain ⟨hw, h0, hk, hok⟩ := (File.good_iff f).1 ⟨hwf, hv⟩
  refine (File.good_iff r).2 ⟨h1, by omega, h3, ?_⟩
  rw [h4]
  exact ok_of_mem_set hok hx

theorem File.cursorLeft_good {f : File} (hwf : f.WF) (hv : f.valid) :
    ∃ r, f.cursorLeft = .ok r ∧ r.WF ∧ r.valid := by
  obtain ⟨hw, h0, hk, hok⟩ := (File.good_iff f).1 ⟨hwf, hv⟩
  obtain ⟨l, hl, hlw, hlp⟩ := File.active_line hwf hv
  by_cases hp : l.position = 0
  · by_cases hc : 0 < f.currentLine
    · obtain ⟨r, q, hr, a1, a2, a3, a4, a5⟩ := File.cursorLeft_wrap hwf hv hl hp hc
      have hq := ok_of_getElem? hok a4
      exact ⟨r, hr, File.good_of_set hwf hv a1 a2 (by omega) a5 ⟨hq.1, Nat.le_refl _⟩⟩
    · exact ⟨f, File.cursorLeft_first hwf hv hl hp (by omega), hwf, hv⟩
  · obtain ⟨r, hr, a1, a2, a3, a5⟩ := File.cursorLeft_pos hwf hv hl (by omega)
    refine ⟨r, hr, File.good_of_set hwf hv a1 a2 (by omega) a5 ⟨hlw, ?_⟩⟩
    show l.position - 1 ≤ l.getSize
    omega

theorem File.cursorRight_good {f : File} (hwf : f.WF) (hv : f.valid) :
    ∃ r, f.cursorRight = .ok r ∧ r.WF ∧ r.valid := by
  obtain ⟨hw, h0, hk, hok⟩ := (File.good_iff f).1 ⟨hwf, hv⟩
  obtain ⟨l, hl, hlw, hlp⟩ := File.active_line hwf hv
  by_cases hp : l.position = l.getSize
  · by_cases hc : f.currentLine + 1 < f.lines.size
    · obtain ⟨r, q, hr, a1, a2, a3, a4, a5⟩ := File.cursorRight_wrap hwf hv hl hp hc
      have hq := ok_of_getElem? hok a4
      exact ⟨r, hr, File.good_of_set hwf hv a1 a2 (by omega) a5 ⟨hq.1, Nat.zero_le _⟩⟩
    · exact ⟨f, File.cursorRight_last hwf hv hl hp hc, hwf, hv⟩
  · obtain ⟨r, hr, a1, a2, a3, a5⟩ := File.cursorRight_inside hwf hv hl (by omega)
    refine ⟨r, hr, File.good_of_set hwf hv a1 a2 (by omega) a5 ⟨hlw, ?_⟩⟩
    show l.position + 1 ≤ l.getSize
    omega

theorem File.cursorDown_good {f : File} (hwf : f.WF) (hv : f.valid) :
    ∃ r, f.cursorDown = .ok r ∧ r.WF ∧ r.valid := by
  obtain ⟨hw, h0, hk, hok⟩ := (File.good_iff f).1 ⟨hwf, hv⟩
  obtain ⟨l, hl, hlw, hlp⟩ := File.active_line hwf hv
  by_cases hc : f.currentLine + 1 < f.lines.size
  · obtain ⟨r, q, hr, a1, a2, a3, a4, a5⟩ := File.cursorDown_step hwf hv hl hc
    have hq := ok_of_getElem? hok a4
    exact ⟨r, hr, File.good_of_set hwf hv a1 a2 (by omega) a5 ⟨hq.1, Nat.min_le_right _ _⟩⟩
  · exact ⟨f, File.cursorDown_last hc, hwf, hv⟩

theorem File.cursorUp_good {f : File} (hwf : f.WF) (hv : f.valid) :
    ∃ r, f.cursorUp = .ok r ∧ r.WF ∧ r.valid := by
  obtain ⟨hw, h0, hk, hok⟩ := (File.good_iff f).1 ⟨hwf, hv⟩
  obtain ⟨l, hl, hlw, hlp⟩ := File.active_line hwf hv
  by_cases hc : 0 < f.currentLine
  · obtain ⟨r, q, hr, a1, a2, a3, a4, a5⟩ := File.cursorUp_step hwf hv hl hc
    have hq := ok_of_getElem? hok a4
    refine ⟨r, hr, File.good_of_set hwf hv a1 a2 (by omega) a5 ⟨hq.1, ?_⟩⟩
    show (if l.position = 0 then q.getSize else min l.position q.getSize) ≤ q.getSize
    split
    · exact Nat.le_refl _
    · exact Nat.min_le_right _ _
  · exact ⟨f, File.cursorUp_first hc, hwf, hv⟩

theorem File.move_good {f : File} (hwf : f.WF) (hv : f.valid) (m : Move) :
    ∃ r, f.move m = .ok r ∧ r.WF ∧ r.valid := by
  cases m
  · exact File.cursorLeft_good hwf hv
  · exact File.cursorRight_good hwf hv
  · exact File.cursorUp_good hwf hv
  · exact File.cursorDown_good hwf hv

theorem File.moves_good (ms : List Move) :
    ∀ {f : File}, f.WF → f.valid →
      ∃ fs, f.moves ms = .ok fs ∧ fs.length = ms.length ∧ ∀ g ∈ fs, g.WF ∧ g.valid := by
  induction ms with
  | nil =>
    intro f _ _
    exact ⟨[], rfl, rfl, fun g hg => absurd hg (List.not_mem_nil g)⟩
  | cons m ms ih =>
    intro f hwf hv
    obtain ⟨f1, h1, hwf1, hv1⟩ := File.move_good hwf hv m
    obtain ⟨fs, h2, hlen, hall⟩ := ih hwf1 hv1
    refine ⟨f1 :: fs, by simp only [File.moves, h1, h2], by simp [hlen], ?_⟩
    intro g hg
    rcases List.mem_cons.1 hg with h | h
    · rw [h]; exact ⟨hwf1, hv1⟩
    · exact hall g h

theorem Line.cutOff_ok {l : Line} (h : l.ok) : l.cutOff.ok := by
  obtain ⟨a1, a2, a3, -, -⟩ := Line.cutOff_spec h.1 h.2
  exact ⟨a1, by rw [a2, a3]⟩

theorem File.insertChar_good {f : File} (hwf : f.WF) (hv : f.valid) (c : Int) :
    ∃ r, f.insertChar c = .ok r ∧ r.WF ∧ r.valid := by
  obtain ⟨l, hl, -⟩ := File.active_line hwf hv
  obtain ⟨r, l1, hr, a1, a2, a3, a4, a5, -⟩ := File.insertChar_core hwf hv hl c
  exact ⟨r, hr, File.good_of_set hwf hv a1 a2 (by rw [a2, a3]; exact hv.2.1) a4 a5⟩

theorem File.removeChar_good {f : File} (hwf : f.WF) (hv : f.valid) :
    ∃ c r, f.removeChar = .ok (c, r) ∧ r.WF ∧ r.valid := by
  obtain ⟨hw, h0, hk, hok⟩ := (File.good_iff f).1 ⟨hwf, hv⟩
  obtain ⟨l, hl, -⟩ := File.active_line hwf hv
  by_cases hp : l.position = 0
  · by_cases h1 : f.lines.size = 1
    · exact ⟨0, f, File.removeChar_single hwf hv hl hp h1, hwf, hv⟩
    · obtain ⟨r, q, hr, a1, a2, a3, a4, a5⟩ := File.removeChar_join hwf hv hl hp h1
      refine ⟨0, r, hr, (File.good_iff r).2 ⟨a1, by omega, ?_, ?_⟩⟩
      · rw [a3, a2]; split <;> omega
      · rw [a5]
        have hq : q.ok := hok q (List.mem_of_mem_eraseIdx (List.getElem?_mem a4))
        exact ok_of_mem_set (fun x hx => hok x (List.mem_of_mem_eraseIdx hx))
          ⟨hq.1, Nat.le_refl _⟩
  · obtain ⟨c, r, l1, hr, -, a1, a2, a3, a4, a5, -⟩ :=
      File.removeChar_inside hwf hv hl (by omega)
    exact ⟨c, r, hr, File.good_of_set hwf hv a1 a2 (by rw [a2, a3]; exact hk) a4 a5⟩

theorem File.newLineAt_good {f : File} (hwf : f.WF) (hv : f.valid) :
    ∃ r, f.newLineAt = .ok r ∧ r.WF ∧ r.valid := by
  obtain ⟨hw, h0, hk, hok⟩ := (File.good_iff f).1 ⟨hwf, hv⟩
  obtain ⟨l, hl, hlok⟩ := File.active_line hwf hv
  obtain ⟨r, nl, hr, a1, a2, a3, a4, a5, -⟩ := File.newLineAt_core hwf hv hl
  refine ⟨r, hr, (File.good_iff r).2 ⟨a1, by omega, by omega, ?_⟩⟩
  have hset := ok_of_mem_set (i := f.currentLine) hok (Line.cutOff_ok hlok)
  rw [a4]
  intro x hx
  rcases List.mem_append.1 hx with h | h
  · exact hset x (List.mem_of_mem_take h)
  · rcases List.mem_cons.1 h with h | h
    · rw [h]; exact a5
    · exact hset x (List.mem_of_mem_drop h)

theorem handleHome_good {f : File} (hwf : f.WF) (hv : f.valid) :
    ∃ r, handleHome f = .ok r ∧ r.WF ∧ r.valid := by
  obtain ⟨l, hl, hlok⟩ := File.active_line hwf hv
  obtain ⟨r, hr, a1, a2, a3, a4⟩ := handleHome_core hwf hv hl
  exact ⟨r, hr, File.good_of_set hwf hv a1 a2 (by rw [a2, a3]; exact hv.2.1) a4
    ⟨hlok.1, Nat.zero_le _⟩⟩

theorem handleEnd_good {f : File} (hwf : f.WF) (hv : f.valid) :
    ∃ r, handleEnd f = .ok r ∧ r.WF ∧ r.valid := by
  obtain ⟨l, hl, hlok⟩ := File.active_line hwf hv
  obtain ⟨r, hr, a1, a2, a3, a4⟩ := handleEnd_core hwf hv hl
  exact ⟨r, hr, File.good_of_set hwf hv a1 a2 (by rw [a2, a3]; exact hv.2.1) a4
    ⟨hlok.1, Nat.le_refl _⟩⟩

theorem narrow_widen (c : CChar) : narrow (widen c) = c := by
  apply Fin.ext
  have h := c.isLt
  simp only [narrow, widen]
  omega

theorem getElem?_set_other {α : Type} (ls : List α) {i j : Nat} (x : α) (h : j ≠ i) :
    (ls.set i x)[j]? = ls[j]? :=
  List.getElem?_set_ne (fun e => h e.symm)

theorem getElem?_set_same {α : Type} {ls : List α} {i : Nat} {y : α} (x : α)
    (h : ls[i]? = some y) : (ls.set i x)[i]? = some x := by
  obtain ⟨hlt, -⟩ := List.getElem?_eq_some.1 h
  exact List.getElem?_set_self hlt

theorem map_chars_set_position {ls : List Line} {i : Nat} {q : Line} (p : Nat)
    (h : ls[i]? = some q) :
    (ls.set i { q with position := p }).map Line.chars = ls.map Line.chars := by
  apply List.ext_getElem?
  intro j
  rw [List.getElem?_map, List.getElem?_map]
  by_cases hj : j = i
  · subst hj
    rw [getElem?_set_same _ h, h]
    rfl
  · rw [getElem?_set_other _ _ hj]

theorem map_eraseIdx_chars (ls : List Line) (k : Nat) :
    (ls.eraseIdx k).map Line.chars = (ls.map Line.chars).eraseIdx k := by
  apply List.ext_getElem?
  intro j
  rw [List.getElem?_map, List.getElem?_eraseIdx, List.getElem?_eraseIdx]
  split <;> rw [List.getElem?_map]

/-- Pointwise description of the line list after `newLineAt`. -/
theorem File.newLineAt_lines {f : File} (hwf : f.WF) (hv : f.valid) {l : Line}
    (hl : f.lineList[f.currentLine]? = some l) :
    ∃ r nl, f.newLineAt = .ok r ∧ r.lines.WF ∧ r.lines.size = f.lines.size + 1 ∧
      r.currentLine = f.currentLine + 1 ∧
      nl.ok ∧ nl.position = 0 ∧ nl.selected = false ∧ nl.chars = l.chars.drop l.position ∧
      (∀ j, j < f.currentLine → r.lineList[j]? = f.lineList[j]?) ∧
      r.lineList[f.currentLine]? = some l.cutOff ∧
      r.lineList[f.currentLine + 1]? = some nl ∧
      (∀ j, f.currentLine < j → r.lineList[j + 1]? = f.lineList[j]?) := by
  obtain ⟨hw, h0, hk, hok⟩ := (File.good_iff f).1 ⟨hwf, hv⟩
  obtain ⟨r, nl, hr, a1, a2, a3, a4, a5, a6, a7, a8⟩ := File.newLineAt_core hwf hv hl
  have hlen : f.lineList.length = f.lines.size := File.length_lineList hw
  have hlt : (List.take (f.currentLine + 1) (f.lineList.set f.currentLine l.cutOff)).length =
      f.currentLine + 1 := by
    rw [List.length_take, List.length_set, hlen]; omega
  have hget : ∀ j, r.lineList[j]? =
      if j < f.currentLine + 1 then (f.lineList.set f.currentLine l.cutOff)[j]?
      else (nl :: (f.lineList.set f.currentLine l.cutOff).drop (f.currentLine + 1))[j -
        (f.currentLine + 1)]? := by
    intro j
    rw [a4, List.getElem?_append, hlt]
    split
    · rw [List.getElem?_take_of_lt (by assumption)]
    · rfl
  refine ⟨r, nl, hr, a1, a2, a3, a5, a6, a7, a8, ?_, ?_, ?_, ?_⟩
  · intro j hj
    rw [hget j, if_pos (by omega), getElem?_set_other _ _ (by omega)]
  · rw [hget _, if_pos (by omega)]
    exact getElem?_set_same _ hl
  · rw [hget _, if_neg (by omega), Nat.sub_self]
    exact List.getElem?_cons_zero
  · intro j hj
    rw [hget _, if_neg (by omega)]
    have e1 : j + 1 - (f.currentLine + 1) = (j - f.currentLine - 1) + 1 := by omega
    rw [e1, List.getElem?_cons_succ, List.getElem?_drop]
    have e2 : f.currentLine + 1 + (j - f.currentLine - 1) = j := by omega
    rw [e2, getElem?_set_other _ _ (by omega)]

/-- Effect of `newLineAt()` followed by `removeChar()` on the line list. -/
theorem File.newLineAt_removeChar {f : File} (hwf : f.WF) (hv : f.valid) {l : Line}
    (hl : f.lineList[f.currentLine]? = some l) :
    ∃ r1 r2, f.newLineAt = .ok r1 ∧ r1.removeChar = .ok (0, r2) ∧ r2.lines.WF ∧
      r2.lines.size = f.lines.size ∧ r2.currentLine = f.currentLine ∧
      r2.lineList[f.currentLine]? = some l.cutOff ∧
      ∀ j, j ≠ f.currentLine → r2.lineList[j]? = f.lineList[j]? := by
  obtain ⟨hw, h0, hk, hok⟩ := (File.good_iff f).1 ⟨hwf, hv⟩
  obtain ⟨hlw, hlp⟩ := ok_of_getElem? hok hl
  obtain ⟨r1, nl, hr1, a1, a2, a3, -, a6, -, -, b1, b2, b3, b4⟩ :=
    File.newLineAt_lines hwf hv hl
  obtain ⟨r1', hr1', g1, g2⟩ := File.newLineAt_good hwf hv
  rw [hr1] at hr1'
  cases hr1'
  rw [← a3] at b3
  obtain ⟨r2, q, hr2, c1, c2, c3, c4, c5⟩ :=
    File.removeChar_join g1 g2 b3 a6 (by omega)
  have hcur : r2.currentLine = f.currentLine := by
    rw [c3, a3]; simp
  rw [hcur, a3, List.getElem?_eraseIdx, if_pos (by omega), b2] at c4
  cases c4
  have hcut : ({ l.cutOff with position := l.cutOff.getSize } : Line) = l.cutOff := by
    obtain ⟨-, e2, e3, -, -⟩ := Line.cutOff_spec hlw hlp
    rw [e2, ← e3]
  rw [hcur, a3, hcut] at c5
  have hb2 : (r1.lineList.eraseIdx (f.currentLine + 1))[f.currentLine]? = some l.cutOff := by
    rw [List.getElem?_eraseIdx, if_pos (by omega), b2]
  refine ⟨r1, r2, hr1, hr2, c1, by omega, hcur, ?_, ?_⟩
  · rw [c5]; exact getElem?_set_same _ hb2
  · intro j hj
    rw [c5, getElem?_set_other _ _ hj, List.getElem?_eraseIdx]
    by_cases hjk : j < f.currentLine
    · rw [if_pos (by omega), b1 j hjk]
    · rw [if_neg (by omega), b4 j (by omega)]

/-! ## Claims -/

/-- C1: from a valid document, every finite sequence of `cursorLeft` /
`cursorRight` / `cursorUp` / `cursorDown` calls runs without failure, and the
document after every call of the sequence is valid; in particular
`activeLineIndex < numberOfLines` and the active line's `position <= length`
at every step. -/
theorem C1_navigation_keeps_validity (f : File) (hwf : f.WF) (hv : f.valid) (ms : List Move) :
    ∃ fs, f.moves ms = .ok fs ∧ fs.length = ms.length ∧
      ∀ g ∈ fs, g.WF ∧ g.valid ∧ g.currentLine < g.lines.size ∧
        g.lineList.length = g.lines.size ∧
        ∃ l, g.lineList[g.currentLine]? = some l ∧ l.position ≤ l.getSize := by
  obtain ⟨fs, h1, h2, h3⟩ := File.moves_good ms hwf hv
  refine ⟨fs, h1, h2, fun g hg => ?_⟩
  obtain ⟨gw, gv⟩ := h3 g hg
  obtain ⟨l, hl, -, hlp⟩ := File.active_line gw gv
  exact ⟨gw, gv, gv.2.1, File.length_lineList gw.1, l, hl, hlp⟩

/-- C1 at `"ab"` / `"cd"` with the cursor at column 0 of the second line and a
sequence of seven navigation calls. -/
theorem C1_navigation_witness :
    (docAbCd 1 0 0).WF ∧ (docAbCd 1 0 0).valid ∧
    ∃ fs, (docAbCd 1 0 0).moves
        [Move.left, Move.up, Move.right, Move.right, Move.right, Move.down, Move.down] = .ok fs ∧
      fs.length = 7 ∧ ∀ g ∈ fs, g.WF ∧ g.valid :=
  ⟨by decide, by decide, by
    obtain ⟨fs, h1, h2, h3⟩ := C1_navigation_keeps_validity (docAbCd 1 0 0) (by decide)
      (by decide) [Move.left, Move.up, Move.right, Move.right, Move.right, Move.down, Move.down]
    exact ⟨fs, h1, h2, fun g hg => ⟨(h3 g hg).1, (h3 g hg).2.1⟩⟩⟩

/-- C2: on a valid document each of `insertChar(c)`, `removeChar()`,
`newLineAt()` and the Home and End handlers returns normally (no
`emptyContainer`, `indexOutOfRange` or any other failure) and the document it
leaves is valid: it has at least one line, the active index addresses a line,
and every line, active or not, has `position <= length`. -/
theorem C2_editing_keeps_validity (f : File) (hwf : f.WF) (hv : f.valid) :
    (∀ c : Int, ∃ r, f.insertChar c = .ok r ∧ r.WF ∧ r.valid) ∧
    (∃ c r, f.removeChar = .ok (c, r) ∧ r.WF ∧ r.valid) ∧
    (∃ r, f.newLineAt = .ok r ∧ r.WF ∧ r.valid) ∧
    (∃ r, handleHome f = .ok r ∧ r.WF ∧ r.valid) ∧
    (∃ r, handleEnd f = .ok r ∧ r.WF ∧ r.valid) :=
  ⟨fun c => File.insertChar_good hwf hv c, File.removeChar_good hwf hv,
    File.newLineAt_good hwf hv, handleHome_good hwf hv, handleEnd_good hwf hv⟩

/-- C2 at `"ab"` / `"cd"` with the cursor at column 0 of the second line. -/
theorem C2_editing_witness :
    (docAbCd 1 2 0).WF ∧ (docAbCd 1 2 0).valid ∧
    (∃ r, (docAbCd 1 2 0).insertChar 120 = .ok r ∧ r.WF ∧ r.valid) ∧
    (∃ c r, (docAbCd 1 2 0).removeChar = .ok (c, r) ∧ r.WF ∧ r.valid) ∧
    (∃ r, (docAbCd 1 2 0).newLineAt = .ok r ∧ r.WF ∧ r.valid) :=
  ⟨by decide, by decide,
    (C2_editing_keeps_validity (docAbCd 1 2 0) (by decide) (by decide)).1 120,
    (C2_editing_keeps_validity (docAbCd 1 2 0) (by decide) (by decide)).2.1,
    (C2_editing_keeps_validity (docAbCd 1 2 0) (by decide) (by decide)).2.2.1⟩

/-- C3: on a valid document with active text `t` and column `p`,
`insertChar(c)` does not fail; afterwards the active line's text is the first
`p` characters of `t`, then `c`, then the rest of `t`, its column is `p + 1`,
and `activeLineIndex`, the number of lines and every other line (text and
column) are unchanged.  The argument is the `int` code `i` of the character,
which the call narrows back to `c`. -/
theorem C3_insertChar_inserts_at_cursor (f : File) (hwf : f.WF) (hv : f.valid)
    (c : CChar) (i : Int) (hi : narrow i = c) :
    ∃ l r l1, f.lineList[f.currentLine]? = some l ∧ f.insertChar i = .ok r ∧
      r.lineList[r.currentLine]? = some l1 ∧
      l1.chars = l.chars.take l.position ++ [c] ++ l.chars.drop l.position ∧
      l1.position = l.position + 1 ∧
      r.currentLine = f.currentLine ∧ r.lines.size = f.lines.size ∧
      r.lineList.length = f.lineList.length ∧
      ∀ j, j ≠ f.currentLine → r.lineList[j]? = f.lineList[j]? := by
  obtain ⟨l, hl, -⟩ := File.active_line hwf hv
  obtain ⟨r, l1, hr, a1, a2, a3, a4, -, a6, -, a8⟩ := File.insertChar_core hwf hv hl i
  refine ⟨l, r, l1, hl, hr, ?_, ?_, a6, a3, a2, ?_, ?_⟩
  · rw [a3, a4]; exact getElem?_set_same l1 hl
  · rw [a8, hi]; simp
  · rw [a4, List.length_set]
  · intro j hj
    rw [a4]; exact getElem?_set_other _ _ hj

/-- C3 at the document `"hello"` with the cursor at column 2 and the character
`'a'` (code 97). -/
theorem C3_insertChar_witness :
    (docHello 2).WF ∧ (docHello 2).valid ∧ narrow 97 = (97 : CChar) ∧
    ∃ l r l1, (docHello 2).lineList[(docHello 2).currentLine]? = some l ∧
      (docHello 2).insertChar 97 = .ok r ∧
      r.lineList[r.currentLine]? = some l1 ∧
      l1.chars = l.chars.take l.position ++ [(97 : CChar)] ++ l.chars.drop l.position ∧
      l1.position = l.position + 1 :=
  ⟨by decide, by decide, by decide, by
    obtain ⟨l, r, l1, h1, h2, h3, h4, h5, -⟩ :=
      C3_insertChar_inserts_at_cursor (docHello 2) (by decide) (by decide) 97 97 (by decide)
    exact ⟨l, r, l1, h1, h2, h3, h4, h5⟩⟩

/-- C4: on a valid document whose active line has column `p > 0`,
`removeChar()` returns the character at index `p - 1` of the active line,
removes exactly that character (the others keep their order), sets the column
to `p - 1`, and leaves `activeLineIndex`, the number of lines and every other
line unchanged. -/
theorem C4_removeChar_inside_line (f : File) (hwf : f.WF) (hv : f.valid) (l : Line)
    (hl : f.lineList[f.currentLine]? = some l) (hp : 0 < l.position) :
    ∃ c r l1, f.removeChar = .ok (c, r) ∧ l.chars[l.position - 1]? = some c ∧
      r.lineList[r.currentLine]? = some l1 ∧
      l1.chars = l.chars.take (l.position - 1) ++ l.chars.drop l.position ∧
      l1.position = l.position - 1 ∧
      r.currentLine = f.currentLine ∧ r.lines.size = f.lines.size ∧
      r.lineList.length = f.lineList.length ∧
      ∀ j, j ≠ f.currentLine → r.lineList[j]? = f.lineList[j]? := by
  obtain ⟨c, r, l1, hr, hc, a1, a2, a3, a4, -, a6, -, a8⟩ :=
    File.removeChar_inside hwf hv hl hp
  refine ⟨c, r, l1, hr, hc, ?_, ?_, a6, a3, a2, ?_, ?_⟩
  · rw [a3, a4]; exact getElem?_set_same l1 hl
  · rw [a8, List.eraseIdx_eq_take_drop_succ]
    have : l.position - 1 + 1 = l.position := by omega
    rw [this]
  · rw [a4, List.length_set]
  · intro j hj
    rw [a4]; exact getElem?_set_other _ _ hj

/-- C4 at the document obtained from one empty line by inserting `'a'` then
`'b'`: `removeChar()` returns `'b'` and leaves the line `"a"` with column 1. -/
theorem C4_removeChar_witness :
    (∃ f0 f1, File.new = .ok f0 ∧ f0.lineList.map Line.chars = [[]] ∧
      f0.insertChar 97 = .ok f1 ∧ f1.insertChar 98 = .ok docTypedAb) ∧
    docTypedAb.WF ∧ docTypedAb.valid ∧
    ∃ r l1, docTypedAb.removeChar = .ok (98, r) ∧
      r.lineList[r.currentLine]? = some l1 ∧ l1.chars = [97] ∧ l1.position = 1 ∧
      r.lineList.length = 1 :=
  ⟨⟨⟨⟨[Line.new], 1, 1⟩, 0⟩, ⟨⟨[⟨⟨[97], 1, 1⟩, 1, false⟩], 1, 1⟩, 0⟩, rfl, rfl, rfl, rfl⟩,
    by decide, by decide, by
    obtain ⟨c, r, l1, h1, h2, h3, h4, h5, -, -, h8, -⟩ :=
      C4_removeChar_inside_line docTypedAb (by decide) (by decide)
        ⟨⟨[97, 98], 2, 2⟩, 2, false⟩ rfl (by decide)
    have hc : c = 98 := by
      have : (some (98 : CChar)) = some c := h2
      exact (Option.some.inj this).symm
    subst hc
    exact ⟨r, l1, h1, h3, h4, h5, h8⟩⟩

/-- C5: on a valid document with more than one line whose active line has
column 0, `removeChar()` returns the sentinel `'\0'` and the sequence of line
texts afterwards is the original sequence with the active line's entry deleted:
one line fewer, every remaining text unchanged (those before the deleted line
stay in place, those after move up by one), nothing appended to any line. -/
theorem C5_removeChar_deletes_line (f : File) (hwf : f.WF) (hv : f.valid) (l : Line)
    (hl : f.lineList[f.currentLine]? = some l) (hp : l.position = 0)
    (hn : 1 < f.lines.size) :
    ∃ r, f.removeChar = .ok (0, r) ∧
      r.lineList.map Line.chars = (f.lineList.map Line.chars).eraseIdx f.currentLine ∧
      r.lines.size + 1 = f.lines.size ∧ r.lineList.length + 1 = f.lineList.length ∧
      (∀ j, j < f.currentLine →
        (r.lineList[j]?).map Line.chars = (f.lineList[j]?).map Line.chars) ∧
      (∀ j, f.currentLine ≤ j →
        (r.lineList[j]?).map Line.chars = (f.lineList[j + 1]?).map Line.chars) := by
  obtain ⟨r, q, hr, a1, a2, a3, a4, a5⟩ :=
    File.removeChar_join hwf hv hl hp (by omega)
  have hmap : r.lineList.map Line.chars = (f.lineList.map Line.chars).eraseIdx f.currentLine := by
    rw [a5, map_chars_set_position _ a4, map_eraseIdx_chars]
  have hpt : ∀ j, (r.lineList[j]?).map Line.chars =
      if j < f.currentLine then (f.lineList[j]?).map Line.chars
      else (f.lineList[j + 1]?).map Line.chars := by
    intro j
    rw [← List.getElem?_map, hmap, List.getElem?_eraseIdx]
    split <;> rw [List.getElem?_map]
  refine ⟨r, hr, hmap, by omega, ?_, ?_, ?_⟩
  · rw [File.length_lineList a1, File.length_lineList hwf.1]; omega
  · intro j hj
    rw [hpt j, if_pos hj]
  · intro j hj
    rw [hpt j, if_neg (by omega)]

/-- C5 at the document `"ab"` / `"cd"` with the cursor at column 0 of the
second line: the result is the single line `"ab"`. -/
theorem C5_removeChar_witness :
    (docAbCd 1 2 0).WF ∧ (docAbCd 1 2 0).valid ∧
    ∃ r, (docAbCd 1 2 0).removeChar = .ok (0, r) ∧
      r.lineList.map Line.chars = [[97, 98]] ∧ r.lines.size + 1 = 2 :=
  ⟨by decide, by decide, by
    obtain ⟨r, h1, h2, h3, -⟩ :=
      C5_removeChar_deletes_line (docAbCd 1 2 0) (by decide) (by decide) (lineCd 0) rfl rfl
        (by decide)
    exact ⟨r, h1, h2, h3⟩⟩

/-- C6 as stated fails: on `"ab"` / `"cd"` with the cursor at column 0 of the
first line, `removeChar()` leaves `activeLineIndex` at 0 (not one less), and
the new active line is `"cd"`, the line that followed the deleted one. -/
theorem C6_removeChar_first_line_counterexample :
    (docAbCd 0 0 0).WF ∧ (docAbCd 0 0 0).valid ∧ 1 < (docAbCd 0 0 0).lines.size ∧
    (docAbCd 0 0 0).lineList[(docAbCd 0 0 0).currentLine]? = some (lineAb 0) ∧
    (lineAb 0).position = 0 ∧
    ∃ r, (docAbCd 0 0 0).removeChar = .ok (0, r) ∧
      ¬ (r.currentLine + 1 = (docAbCd 0 0 0).currentLine) ∧
      r.currentLine = 0 ∧
      (r.lineList[r.currentLine]?).map Line.chars = some [99, 100] :=
  ⟨by decide, by decide, by decide, rfl, rfl,
    ⟨⟨[lineCd 2, lineCd 0], 1, 2⟩, 0⟩, rfl, by decide, rfl, rfl⟩

/-- C6 (amended): on a valid document with more than one line whose active line
has column 0, `removeChar()` returns the sentinel and deletes the active line:
the number of lines drops by one and the line list is the original one with
the active entry erased, except for the column of the new active line.  If the
active index `k` was positive it becomes `k - 1` and the new active line is the
line that preceded the deleted one; if `k` was 0 it stays 0 and the new active
line is the one that followed the deleted line.  In both cases that line keeps
its text and its cursor column equals its length; every other remaining line
is unchanged, text and column. -/
theorem C6_removeChar_new_active_line (f : File) (hwf : f.WF) (hv : f.valid) (l : Line)
    (hl : f.lineList[f.currentLine]? = some l) (hp : l.position = 0)
    (hn : 1 < f.lines.size) :
    ∃ r q, f.removeChar = .ok (0, r) ∧
      (0 < f.currentLine → r.currentLine + 1 = f.currentLine ∧
        f.lineList[f.currentLine - 1]? = some q) ∧
      (f.currentLine = 0 → r.currentLine = 0 ∧ f.lineList[1]? = some q) ∧
      r.lineList[r.currentLine]? = some { q with position := q.getSize } ∧
      r.lines.size + 1 = f.lines.size ∧ r.lineList.length + 1 = f.lineList.length ∧
      r.lineList = (f.lineList.eraseIdx f.currentLine).set r.currentLine
        { q with position := q.getSize } ∧
      r.lineList.map Line.chars = (f.lineList.map Line.chars).eraseIdx f.currentLine ∧
      (∀ j, j ≠ r.currentLine → j < f.currentLine → r.lineList[j]? = f.lineList[j]?) ∧
      (∀ j, j ≠ r.currentLine → f.currentLine ≤ j →
        r.lineList[j]? = f.lineList[j + 1]?) := by
  obtain ⟨r, q, hr, a1, a2, a3, a4, a5⟩ :=
    File.removeChar_join hwf hv hl hp (by omega)
  have hsize : r.lines.size + 1 = f.lines.size := by omega
  refine ⟨r, q, hr, ?_, ?_, ?_, hsize, ?_, a5, ?_, ?_, ?_⟩
  · intro hk
    have hgt : f.currentLine > 0 := hk
    rw [if_pos hgt] at a3
    rw [a3, List.getElem?_eraseIdx, if_pos (by omega)] at a4
    exact ⟨by omega, a4⟩
  · intro hk
    have hgt : ¬ f.currentLine > 0 := by omega
    rw [if_neg hgt] at a3
    rw [a3, List.getElem?_eraseIdx, if_neg (by omega), hk] at a4
    exact ⟨by omega, a4⟩
  · rw [a5]; exact getElem?_set_same _ a4
  · rw [File.length_lineList a1, File.length_lineList hwf.1]; exact hsize
  · rw [a5, map_chars_set_position _ a4, map_eraseIdx_chars]
  · intro j hj hjk
    rw [a5, getElem?_set_other _ _ hj, List.getElem?_eraseIdx, if_pos hjk]
  · intro j hj hjk
    rw [a5, getElem?_set_other _ _ hj, List.getElem?_eraseIdx, if_neg (by omega)]

/-- C6 (amended) at `"ab"` / `"cd"` with the cursor at column 0 of the second
line: the active index drops from 1 to 0, one line is left, and it is `"ab"`
with column 2. -/
theorem C6_removeChar_new_active_line_witness :
    (docAbCd 1 1 0).WF ∧ (docAbCd 1 1 0).valid ∧
    ∃ r q, (docAbCd 1 1 0).removeChar = .ok (0, r) ∧
      (0 < (docAbCd 1 1 0).currentLine → r.currentLine + 1 = (docAbCd 1 1 0).currentLine ∧
        (docAbCd 1 1 0).lineList[(docAbCd 1 1 0).currentLine - 1]? = some q) ∧
      r.lineList[r.currentLine]? = some { q with position := q.getSize } ∧
      r.lines.size + 1 = 2 ∧ r.lineList.length + 1 = 2 ∧
      r.lineList.map Line.chars = [[97, 98]] :=
  ⟨by decide, by decide, by
    obtain ⟨r, q, h1, h2, -, h4, h5, h6, -, h8, -⟩ :=
      C6_removeChar_new_active_line (docAbCd 1 1 0) (by decide) (by decide) (lineCd 0) rfl rfl
        (by decide)
    exact ⟨r, q, h1, h2, h4, h5, h6, h8⟩⟩

/-- C7: on a valid document with `n` lines, active index `k`, active text `t`
and column `p`, `newLineAt()` does not fail; afterwards there are `n + 1`
lines, lines `0 .. k-1` are unchanged, line `k` has the first `p` characters of
`t` and column `p`, line `k + 1` is a new line holding the characters of `t`
from index `p` on with column 0, the former lines `k+1 .. n-1` sit unchanged at
indices `k+2 .. n`, and `activeLineIndex` is `k + 1`. -/
theorem C7_newLineAt_splits_line (f : File) (hwf : f.WF) (hv : f.valid) (l : Line)
    (hl : f.lineList[f.currentLine]? = some l) :
    ∃ r a b, f.newLineAt = .ok r ∧
      r.lines.size = f.lines.size + 1 ∧ r.lineList.length = f.lineList.length + 1 ∧
      r.currentLine = f.currentLine + 1 ∧
      (∀ j, j < f.currentLine → r.lineList[j]? = f.lineList[j]?) ∧
      r.lineList[f.currentLine]? = some a ∧
      a.chars = l.chars.take l.position ∧ a.position = l.position ∧
      r.lineList[f.currentLine + 1]? = some b ∧
      b.chars = l.chars.drop l.position ∧ b.position = 0 ∧
      (∀ j, f.currentLine < j → r.lineList[j + 1]? = f.lineList[j]?) := by
  obtain ⟨hw, h0, hk, hok⟩ := (File.good_iff f).1 ⟨hwf, hv⟩
  obtain ⟨hlw, hlp⟩ := ok_of_getElem? hok hl
  obtain ⟨r, nl, hr, a1, a2, a3, -, a6, -, a8, b1, b2, b3, b4⟩ :=
    File.newLineAt_lines hwf hv hl
  obtain ⟨-, -, c3, -, c5⟩ := Line.cutOff_spec hlw hlp
  refine ⟨r, l.cutOff, nl, hr, a2, ?_, a3, b1, b2, c5, c3, b3, a8, a6, b4⟩
  rw [File.length_lineList a1, File.length_lineList hw, a2]

/-- C7 at the one-line document `"hello"` with column 5: the result is
`"hello"` (column 5) followed by the empty line (column 0), active index 1. -/
theorem C7_newLineAt_witness :
    (docHello 5).WF ∧ (docHello 5).valid ∧
    ∃ r a b, (docHello 5).newLineAt = .ok r ∧ r.lines.size = 2 ∧ r.currentLine = 1 ∧
      r.lineList[0]? = some a ∧ a.chars = [104, 101, 108, 108, 111] ∧ a.position = 5 ∧
      r.lineList[1]? = some b ∧ b.chars = [] ∧ b.position = 0 :=
  ⟨by decide, by decide, by
    obtain ⟨r, a, b, h1, h2, -, h4, -, h6, h7, h8, h9, h10, h11, -⟩ :=
      C7_newLineAt_splits_line (docHello 5) (by decide) (by decide) (lineHello 5) rfl
    exact ⟨r, a, b, h1, h2, h4, h6, h7, h8, h9, h10, h11⟩⟩

/-- C8: on a valid document with active text `t` and column `p`, `newLineAt()`
followed immediately by `removeChar()` yields a document with the original
number of lines and the original `activeLineIndex`, whose active line holds the
first `p` characters of `t` with column `p`, every other line being unchanged.
Hence the texts of the document are restored exactly when `p` is the length of
`t`; whenever `p` is smaller the active line is not restored, and such a
document exists. -/
theorem C8_split_then_backspace (f : File) (hwf : f.WF) (hv : f.valid) (l : Line)
    (hl : f.lineList[f.currentLine]? = some l) :
    (∃ r1 r2 a, f.newLineAt = .ok r1 ∧ r1.removeChar = .ok (0, r2) ∧
      r2.lines.size = f.lines.size ∧ r2.lineList.length = f.lineList.length ∧
      r2.currentLine = f.currentLine ∧
      r2.lineList[f.currentLine]? = some a ∧
      a.chars = l.chars.take l.position ∧ a.position = l.position ∧
      (∀ j, j ≠ f.currentLine → r2.lineList[j]? = f.lineList[j]?) ∧
      (r2.lineList.map Line.chars = f.lineList.map Line.chars ↔
        l.position = l.chars.length) ∧
      (l.position < l.chars.length → a.chars ≠ l.chars)) ∧
    (∃ g g1 g2 : File, g.WF ∧ g.valid ∧ g.newLineAt = .ok g1 ∧ g1.removeChar = .ok (0, g2) ∧
      g2.lineList.map Line.chars ≠ g.lineList.map Line.chars) := by
  constructor
  · obtain ⟨hw, h0, hk, hok⟩ := (File.good_iff f).1 ⟨hwf, hv⟩
    obtain ⟨hlw, hlp⟩ := ok_of_getElem? hok hl
    obtain ⟨r1, r2, hr1, hr2, a1, a2, a3, a4, a5⟩ := File.newLineAt_removeChar hwf hv hl
    obtain ⟨-, -, c3, -, c5⟩ := Line.cutOff_spec hlw hlp
    have hlen : l.chars.length = l.getSize := Line.length_chars hlw
    have htake : l.chars.take l.position = l.chars ↔ l.position = l.chars.length := by
      rw [List.take_eq_self_iff]; omega
    refine ⟨r1, r2, l.cutOff, hr1, hr2, a2, ?_, a3, a4, c5, c3, a5, ?_, ?_⟩
    · rw [File.length_lineList a1, File.length_lineList hw, a2]
    · constructor
      · intro hmap
        have h1 : (r2.lineList.map Line.chars)[f.currentLine]? =
            (f.lineList.map Line.chars)[f.currentLine]? := by rw [hmap]
        rw [List.getElem?_map, List.getElem?_map, a4, hl] at h1
        have h2 : l.cutOff.chars = l.chars := Option.some.inj h1
        rw [c5] at h2
        exact htake.1 h2
      · intro hp
        apply List.ext_getElem?
        intro j
        rw [List.getElem?_map, List.getElem?_map]
        by_cases hj : j = f.currentLine
        · rw [hj, a4, hl]
          show some l.cutOff.chars = some l.chars
          rw [c5, htake.2 hp]
        · rw [a5 j hj]
    · intro hp h2
      rw [c5] at h2
      have := htake.1 h2
      omega
  · exact ⟨docHello 2, ⟨⟨[(lineHello 2).cutOff, ⟨⟨[108, 108, 111, 0], 3, 4⟩, 0, false⟩], 2, 2⟩, 1⟩,
      ⟨⟨[(lineHello 2).cutOff, ⟨⟨[108, 108, 111, 0], 3, 4⟩, 0, false⟩], 1, 2⟩, 0⟩,
      by decide, by decide, rfl, rfl, by decide⟩

/-- C8 at the one-line document `"hello"` with column 2: after `newLineAt()` and
`removeChar()` the only line is `"he"` with column 2, and `"hello"` is not
restored. -/
theorem C8_split_then_backspace_witness :
    (docHello 2).WF ∧ (docHello 2).valid ∧
    ∃ r1 r2 a, (docHello 2).newLineAt = .ok r1 ∧ r1.removeChar = .ok (0, r2) ∧
      r2.lines.size = 1 ∧ r2.currentLine = 0 ∧ r2.lineList[0]? = some a ∧
      a.chars = [104, 101] ∧ a.position = 2 ∧ a.chars ≠ (lineHello 2).chars :=
  ⟨by decide, by decide, by
    obtain ⟨r1, r2, a, h1, h2, h3, -, h5, h6, h7, h8, -, -, h11⟩ :=
      (C8_split_then_backspace (docHello 2) (by decide) (by decide) (lineHello 2) rfl).1
    exact ⟨r1, r2, a, h1, h2, h3, h5, h6, h7, h8, h11 (by decide)⟩⟩

/-- C9: on a valid document `cursorLeft()` does not fail, never changes
`activeLineIndex` and never changes any line's text.  If the active column is
positive it is decremented by 1 and nothing else changes; if it is 0 and the
active line is not the first, the only change is that the previous line's
column becomes that line's length (the active line and its column stay as they
were); if it is 0 on the first line the document is unchanged. -/
theorem C9_cursorLeft_cases (f : File) (hwf : f.WF) (hv : f.valid) (l : Line)
    (hl : f.lineList[f.currentLine]? = some l) :
    ∃ r, f.cursorLeft = .ok r ∧ r.currentLine = f.currentLine ∧
      r.lines.size = f.lines.size ∧
      r.lineList.map Line.chars = f.lineList.map Line.chars ∧
      (0 < l.position →
        r.lineList = f.lineList.set f.currentLine { l with position := l.position - 1 }) ∧
      (l.position = 0 → 0 < f.currentLine →
        ∃ q, f.lineList[f.currentLine - 1]? = some q ∧
          r.lineList = f.lineList.set (f.currentLine - 1) { q with position := q.getSize } ∧
          r.lineList[r.currentLine]? = some l) ∧
      (l.position = 0 → f.currentLine = 0 → r = f) := by
  by_cases hp : l.position = 0
  · by_cases hc : 0 < f.currentLine
    · obtain ⟨r, q, hr, -, a2, a3, a4, a5⟩ := File.cursorLeft_wrap hwf hv hl hp hc
      refine ⟨r, hr, a3, a2, ?_, fun h => absurd hp (by omega), fun _ _ => ⟨q, a4, a5, ?_⟩,
        fun _ h => absurd h (by omega)⟩
      · rw [a5, map_chars_set_position _ a4]
      · rw [a3, a5, getElem?_set_other _ _ (by omega), hl]
    · have hr := File.cursorLeft_first hwf hv hl hp (by omega)
      exact ⟨f, hr, rfl, rfl, rfl, fun h => absurd hp (by omega),
        fun _ h => absurd h hc, fun _ _ => rfl⟩
  · obtain ⟨r, hr, -, a2, a3, a5⟩ := File.cursorLeft_pos hwf hv hl (by omega)
    refine ⟨r, hr, a3, a2, ?_, fun _ => a5, fun h => absurd h hp, fun h => absurd h hp⟩
    rw [a5, map_chars_set_position _ hl]

/-- C9 at `"ab"` / `"cd"` with the cursor at column 0 of the second line: the
active index stays 1, the column of `"ab"` becomes 2, and `"cd"` keeps column 0. -/
theorem C9_cursorLeft_witness :
    (docAbCd 1 0 0).WF ∧ (docAbCd 1 0 0).valid ∧
    ∃ r, (docAbCd 1 0 0).cursorLeft = .ok r ∧ r.currentLine = 1 ∧
      r.lineList.map Line.chars = [[97, 98], [99, 100]] ∧
      r.lineList = [lineAb 2, lineCd 0] :=
  ⟨by decide, by decide, by
    obtain ⟨r, h1, h2, -, h4, -, h6, -⟩ :=
      C9_cursorLeft_cases (docAbCd 1 0 0) (by decide) (by decide) (lineCd 0) rfl
    obtain ⟨q, hq, h7, -⟩ := h6 rfl (by decide)
    have hq2 : q = lineAb 0 := (Option.some.inj hq).symm
    subst hq2
    exact ⟨r, h1, h2, h4, h7⟩⟩

/-- C10: on a valid document `cursorRight()` does not fail and changes no
line's text.  If the active column is less than the active line's length it is
incremented by 1 and nothing else changes; if it equals the length and the
active line is not the last, the next line's column becomes 0 and
`activeLineIndex` is incremented by 1 (the line being left keeps its column);
at the end of the last line the document is unchanged. -/
theorem C10_cursorRight_cases (f : File) (hwf : f.WF) (hv : f.valid) (l : Line)
    (hl : f.lineList[f.currentLine]? = some l) :
    ∃ r, f.cursorRight = .ok r ∧ r.lines.size = f.lines.size ∧
      l.getSize = l.chars.length ∧
      r.lineList.map Line.chars = f.lineList.map Line.chars ∧
      (l.position < l.getSize → r.currentLine = f.currentLine ∧
        r.lineList = f.lineList.set f.currentLine { l with position := l.position + 1 }) ∧
      (l.position = l.getSize → f.currentLine + 1 < f.lines.size →
        r.currentLine = f.currentLine + 1 ∧
        ∃ q, f.lineList[f.currentLine + 1]? = some q ∧
          r.lineList = f.lineList.set (f.currentLine + 1) { q with position := 0 } ∧
          r.lineList[f.currentLine]? = some l) ∧
      (l.position = l.getSize → ¬ f.currentLine + 1 < f.lines.size → r = f) := by
  obtain ⟨hw, h0, hk, hok⟩ := (File.good_iff f).1 ⟨hwf, hv⟩
  obtain ⟨hlw, hlp⟩ := ok_of_getElem? hok hl
  have hlen : l.getSize = l.chars.length := (Line.length_chars hlw).symm
  by_cases hp : l.position = l.getSize
  · by_cases hc : f.currentLine + 1 < f.lines.size
    · obtain ⟨r, q, hr, -, a2, a3, a4, a5⟩ := File.cursorRight_wrap hwf hv hl hp hc
      refine ⟨r, hr, a2, hlen, ?_, fun h => absurd hp (by omega),
        fun _ _ => ⟨a3, q, a4, a5, ?_⟩, fun _ h => absurd hc h⟩
      · rw [a5, map_chars_set_position _ a4]
      · rw [a5, getElem?_set_other _ _ (by omega), hl]
    · have hr := File.cursorRight_last hwf hv hl hp hc
      exact ⟨f, hr, rfl, hlen, rfl, fun h => absurd hp (by omega),
        fun _ h => absurd h hc, fun _ _ => rfl⟩
  · obtain ⟨r, hr, -, a2, a3, a5⟩ := File.cursorRight_inside hwf hv hl (by omega)
    refine ⟨r, hr, a2, hlen, ?_, fun _ => ⟨a3, a5⟩, fun h => absurd h hp, fun h => absurd h hp⟩
    rw [a5, map_chars_set_position _ hl]

/-- C10 at `"ab"` / `"cd"` with the cursor at the end of the first line and the
second line's column at 1: the active index becomes 1, the column of `"cd"`
becomes 0, and `"ab"` keeps column 2. -/
theorem C10_cursorRight_witness :
    (docAbCd 0 2 1).WF ∧ (docAbCd 0 2 1).valid ∧
    ∃ r, (docAbCd 0 2 1).cursorRight = .ok r ∧ r.currentLine = 1 ∧
      r.lineList.map Line.chars = [[97, 98], [99, 100]] ∧
      r.lineList = [lineAb 2, lineCd 0] :=
  ⟨by decide, by decide, by
    obtain ⟨r, h1, -, -, h4, -, h6, -⟩ :=
      C10_cursorRight_cases (docAbCd 0 2 1) (by decide) (by decide) (lineAb 2) rfl
    obtain ⟨h7, q, hq, h8, -⟩ := h6 rfl (by decide)
    have hq2 : q = lineCd 1 := (Option.some.inj hq).symm
    subst hq2
    exact ⟨r, h1, h7, h4, h8⟩⟩

/-! ## Vector: push, pop, round trips -/

theorem eraseIdx_append_cons {α : Type} (a b : List α) (x : α) {n : Nat} (hn : a.length = n) :
    (a ++ x :: b).eraseIdx n = a ++ b := by
  subst hn
  induction a with
  | nil => rfl
  | cons h t ih => simp [List.eraseIdx, ih]

theorem getElem?_append_cons {α : Type} (a b : List α) (x : α) {n : Nat} (hn : a.length = n) :
    (a ++ x :: b)[n]? = some x := by
  subst hn
  induction a with
  | nil => simp
  | cons h t ih => simpa using ih

/-- Effect of `insert(i, v)` followed by `erase(i)` on a vector. -/
theorem Vector.insert_erase {T : Type} [Inhabited T] {v : Vector T} (h : v.WF) {i : Nat}
    (hi : i ≤ v.size) (x : T) :
    ∃ v1 v2, v.insert i x = .ok v1 ∧ v1.erase i = .ok (x, v2) ∧ v2.WF ∧
      v2.size = v.size ∧ v2.toList = v.toList := by
  obtain ⟨v1, h1, w1, s1, l1⟩ := Vector.insert_spec h hi x
  obtain ⟨y, v2, h2, hy, w2, s2, -, l2⟩ := Vector.erase_spec w1 (show i < v1.size by omega)
  have hlen : (List.take i v.toList).length = i := by
    rw [List.length_take, Vector.length_toList h]; omega
  rw [l1, getElem?_append_cons _ _ _ hlen] at hy
  cases hy
  refine ⟨v1, v2, h1, h2, w2, by omega, ?_⟩
  rw [l2, l1, eraseIdx_append_cons _ _ _ hlen, List.take_append_drop]

/-- Effect of `push` on a vector that satisfies the representation invariant. -/
theorem Vector.push_spec {T : Type} [Inhabited T] {v : Vector T} (h : v.WF) (x : T) :
    ∃ r, v.push x = .ok r ∧ r.WF ∧ r.size = v.size + 1 ∧ r.toList = v.toList ++ [x] ∧
      r.cap = if v.size = v.cap then (if v.cap = 0 then 1 else v.cap * 2) else v.cap := by
  obtain ⟨g, hg, ⟨g1, g2⟩, gs, gl, gc, gcap⟩ := Vector.grow_spec h
  have hlt : g.size < g.arr.length := by omega
  refine ⟨⟨g.arr.set g.size x, g.size + 1, g.cap⟩, ?_, ?_, by simp only; omega, ?_, ?_⟩
  · simp only [Vector.push, hg, writeAt_of_lt _ hlt]
  · exact ⟨by simp only; omega, by simp only; rw [List.length_set]; exact g2⟩
  · apply List.ext_getElem?
    intro j
    have hlen : v.toList.length = v.size := Vector.length_toList h
    rw [Vector.getElem?_toList, List.getElem?_append, hlen, ← gl, Vector.getElem?_toList]
    simp only
    by_cases hj : j < g.size
    · have a1 : g.size ≠ j := by omega
      rw [if_pos (by omega), List.getElem?_set_ne a1, if_pos (by omega), if_pos hj]
    · by_cases hj2 : j = g.size
      · subst hj2
        rw [if_pos (by omega), List.getElem?_set_self hlt, if_neg (by omega), gs, Nat.sub_self]
        rfl
      · rw [if_neg (by omega), if_neg (by omega)]
        have : j - v.size = (j - v.size - 1) + 1 := by omega
        rw [this]
        rfl
  · simp only
    rw [gcap]
    obtain ⟨h1, h2⟩ := h
    by_cases hf : v.size = v.cap
    · rw [if_pos hf, if_pos (by omega)]
    · rw [if_neg hf, if_neg (by omega)]

theorem pushAll_snoc {T : Type} [Inhabited T] (xs : List T) (y : T) :
    ∀ (v r : Vector T), pushAll v xs = .ok r → pushAll v (xs ++ [y]) = r.push y := by
  induction xs with
  | nil =>
    intro v r h
    simp only [pushAll] at h
    cases h
    show (match v.push y with
      | .error e => .error e
      | .ok v1 => pushAll v1 []) = v.push y
    cases v.push y <;> rfl
  | cons x xs ih =>
    intro v r h
    simp only [pushAll, List.cons_append] at h ⊢
    cases hp : v.push x with
    | error e => rw [hp] at h; cases h
    | ok v1 =>
      rw [hp] at h
      simp only at h ⊢
      exact ih v1 r h

/-- Growth invariant of a vector built by pushes only: the capacity is 0 for the
empty vector and otherwise a power of two with `cap / 2 < size <= cap`. -/
theorem Vector.push_growth {T : Type} [Inhabited T] {v : Vector T} (h : v.WF)
    (hinv : (v.size = 0 ∧ v.cap = 0) ∨ ∃ k, v.cap = 2 ^ k ∧ v.cap < 2 * v.size) (x : T) :
    ∃ r, v.push x = .ok r ∧ r.WF ∧ r.size = v.size + 1 ∧ r.toList = v.toList ++ [x] ∧
      ∃ k, r.cap = 2 ^ k ∧ r.cap < 2 * r.size := by
  obtain ⟨r, hr, hw, hs, hl, hc⟩ := Vector.push_spec h x
  refine ⟨r, hr, hw, hs, hl, ?_⟩
  obtain ⟨h1, h2⟩ := h
  rcases hinv with ⟨z1, z2⟩ | ⟨k, k1, k2⟩
  · refine ⟨0, ?_, ?_⟩
    · rw [hc, if_pos (by omega), if_pos z2]; rfl
    · rw [hc, if_pos (by omega), if_pos z2]; omega
  · have hpos : 0 < v.cap := by rw [k1]; exact Nat.pow_pos (by decide)
    by_cases hf : v.size = v.cap
    · refine ⟨k + 1, ?_, ?_⟩
      · rw [hc, if_pos hf, if_neg (by omega), k1, Nat.pow_succ]
      · rw [hc, if_pos hf, if_neg (by omega)]; omega
    · refine ⟨k, ?_, ?_⟩
      · rw [hc, if_neg hf, k1]
      · rw [hc, if_neg hf]; omega

theorem pushAll_spec {T : Type} [Inhabited T] (xs : List T) :
    ∃ v, pushAll (Vector.empty : Vector T) xs = .ok v ∧ v.WF ∧ v.size = xs.length ∧
      v.toList = xs ∧
      ((v.size = 0 ∧ v.cap = 0) ∨ ∃ k, v.cap = 2 ^ k ∧ v.cap < 2 * v.size) := by
  induction xs using List.reverseRecOn with
  | nil => exact ⟨Vector.empty, rfl, ⟨Nat.le_refl 0, rfl⟩, rfl, rfl, Or.inl ⟨rfl, rfl⟩⟩
  | append_singleton xs y ih =>
    obtain ⟨v, hv, hw, hs, hl, hinv⟩ := ih
    obtain ⟨r, hr, rw1, rs, rl, rinv⟩ := Vector.push_growth hw hinv y
    refine ⟨r, ?_, rw1, ?_, ?_, Or.inr rinv⟩
    · rw [pushAll_snoc xs y _ _ hv, hr]
    · rw [rs, hs, List.length_append]; rfl
    · rw [rl, hl]

theorem pow_two_least {n k : Nat} (h2 : 2 ^ k < 2 * n) :
    ∀ j, n ≤ 2 ^ j → 2 ^ k ≤ 2 ^ j := by
  intro j hj
  by_contra hlt
  have hjk : j < k := by
    by_contra hge
    exact hlt (Nat.pow_le_pow_right (by decide) (by omega))
  have h3 : 2 ^ (j + 1) ≤ 2 ^ k := Nat.pow_le_pow_right (by decide) hjk
  rw [Nat.pow_succ] at h3
  omega

/-- Effect of `pop` on a non-empty vector. -/
theorem Vector.pop_spec {T : Type} {v : Vector T} (h : v.WF) (hs : 0 < v.size) :
    ∃ x r, v.popStep = (.ok x, r) ∧ v.pop = .ok (x, r) ∧ v.toList = r.toList ++ [x] ∧
      r.size = v.size - 1 ∧ r.cap = v.cap ∧ r.WF := by
  obtain ⟨h1, h2⟩ := h
  have hlt : v.size - 1 < v.arr.length := by omega
  have hgt : v.size > 0 := hs
  refine ⟨v.arr[v.size - 1], { v with size := v.size - 1 }, ?_, ?_, ?_, rfl, rfl,
    ⟨by simp only; omega, h2⟩⟩
  · simp only [Vector.popStep, if_pos hgt, readAt_of_lt hlt]
  · simp only [Vector.pop, if_pos hgt, readAt_of_lt hlt]
  · apply List.ext_getElem?
    intro j
    have hlen : (List.take (v.size - 1) v.arr).length = v.size - 1 := by
      rw [List.length_take]; omega
    show (List.take v.size v.arr)[j]? = (List.take (v.size - 1) v.arr ++ [v.arr[v.size - 1]])[j]?
    rw [List.getElem?_append, hlen, List.getElem?_take, List.getElem?_take]
    by_cases hj : j < v.size - 1
    · rw [if_pos (by omega), if_pos hj, if_pos hj]
    · rw [if_neg hj]
      by_cases hj2 : j = v.size - 1
      · subst hj2
        rw [if_pos (by omega), Nat.sub_self, List.getElem?_eq_getElem hlt]
        rfl
      · rw [if_neg (by omega)]
        have : j - (v.size - 1) = (j - (v.size - 1) - 1) + 1 := by omega
        rw [this]
        rfl

/-- Effect of `pop` on an empty vector: it throws and leaves the vector as it is. -/
theorem Vector.pop_empty {T : Type} {v : Vector T} (hs : v.size = 0) :
    v.popStep = (.error .emptyContainer, v) ∧ v.pop = .error .emptyContainer := by
  have hgt : ¬ v.size > 0 := by omega
  exact ⟨by simp only [Vector.popStep, if_neg hgt], by simp only [Vector.pop, if_neg hgt]⟩

/-- Effect of `erase` at a valid index, as a transition. -/
theorem Vector.eraseStep_spec {T : Type} {v : Vector T} (h : v.WF) {index : Nat}
    (hi : index < v.size) :
    ∃ x r, v.eraseStep index = (.ok x, r) ∧ v.erase index = .ok (x, r) ∧
      v.toList[index]? = some x ∧ r.WF ∧ r.size = v.size - 1 ∧ r.cap = v.cap ∧
      r.toList = v.toList.eraseIdx index := by
  obtain ⟨x, r, hr, a1, a2, a3, a4, a5⟩ := Vector.erase_spec h hi
  refine ⟨x, r, ?_, hr, a1, a2, a3, a4, a5⟩
  have hge : ¬ index ≥ v.size := by omega
  simp only [Vector.erase, if_neg hge] at hr
  simp only [Vector.eraseStep, if_neg hge]
  cases hrd : readAt v.arr index with
  | error e => rw [hrd] at hr; cases hr
  | ok removed =>
    rw [hrd] at hr
    simp only at hr ⊢
    cases hsl : shiftLeftLoop v.arr index (v.size - 1 - index) with
    | error e => rw [hsl] at hr; cases hr
    | ok arr1 =>
      rw [hsl] at hr
      simp only at hr ⊢
      cases hr
      rfl

/-- Effect of `erase` at an index that is out of range: it throws and leaves the
vector as it is. -/
theorem Vector.erase_out_of_range {T : Type} {v : Vector T} {index : Nat}
    (hi : v.size ≤ index) :
    v.eraseStep index = (.error .indexOutOfRange, v) ∧
      v.erase index = .error .indexOutOfRange := by
  have hge : index ≥ v.size := hi
  exact ⟨by simp only [Vector.eraseStep, if_pos hge], by simp only [Vector.erase, if_pos hge]⟩

/-- Effect of `insert` at a valid index, as a transition. -/
theorem Vector.insertStep_spec {T : Type} [Inhabited T] {v : Vector T} (h : v.WF)
    {index : Nat} (hi : index ≤ v.size) (value : T) :
    ∃ r, v.insertStep index value = (.ok (), r) ∧ v.insert index value = .ok r ∧ r.WF ∧
      r.size = v.size + 1 ∧
      r.toList = v.toList.take index ++ value :: v.toList.drop index := by
  obtain ⟨r, hr, a1, a2, a3⟩ := Vector.insert_spec h hi value
  refine ⟨r, ?_, hr, a1, a2, a3⟩
  obtain ⟨g, hg, -, gs, -⟩ := Vector.grow_spec h
  have hgt : ¬ index > g.size := by omega
  simp only [Vector.insert, hg, if_neg hgt] at hr
  simp only [Vector.insertStep, hg, if_neg hgt]
  cases hsl : shiftRightLoop g.arr g.size (g.size - index) with
  | error e => rw [hsl] at hr; cases hr
  | ok arr1 =>
    rw [hsl] at hr
    simp only at hr ⊢
    cases hw : writeAt arr1 index value with
    | error e => rw [hw] at hr; cases hr
    | ok arr2 =>
      rw [hw] at hr
      simp only at hr ⊢
      cases hr
      rfl

/-- Effect of `insert` at an index that is out of range: it throws after
`grow()` has run, so the vector left behind is the grown one. -/
theorem Vector.insert_out_of_range {T : Type} [Inhabited T] {v : Vector T} (h : v.WF)
    {index : Nat} (hi : v.size < index) (value : T) :
    ∃ g, v.grow = .ok g ∧ v.insertStep index value = (.error .indexOutOfRange, g) ∧
      v.insert index value = .error .indexOutOfRange ∧
      g.size = v.size ∧ g.toList = v.toList ∧
      g.cap = if v.size = v.cap then (if v.cap = 0 then 1 else v.cap * 2) else v.cap := by
  obtain ⟨g, hg, -, gs, gl, -, gc⟩ := Vector.grow_spec h
  have hgt : index > g.size := by omega
  refine ⟨g, hg, by simp only [Vector.insertStep, hg, if_pos hgt],
    by simp only [Vector.insert, hg, if_pos hgt], gs, gl, ?_⟩
  rw [gc]
  obtain ⟨h1, h2⟩ := h
  by_cases hf : v.size = v.cap
  · rw [if_pos hf, if_pos (by omega)]
  · rw [if_neg hf, if_neg (by omega)]

/-! ## Comparison of vectors -/

theorem lexLt_nil_left (l : List Int) : lexLt [] l = decide (0 < l.length) := by
  cases l with
  | nil => rfl
  | cons x xs => simp [lexLt]

theorem lexLt_nil_right (l : List Int) : lexLt l [] = false := by
  cases l <;> rfl

/-- The loop of `operator<` on the cells `i .. i + k - 1`, followed by the final
`return size < rhs.size`, computes the lexicographic comparison of the
elements from index `i` on. -/
theorem ltLoop_spec (a b : Vector Int) (ha : a.WF) (hb : b.WF) :
    ∀ (k i : Nat), i + k = min a.size b.size →
      ∃ r, ltLoop a.arr b.arr i k = .ok r ∧
        (match r with
          | some c => c
          | none => decide (a.size < b.size)) = lexLt (a.toList.drop i) (b.toList.drop i) := by
  obtain ⟨a1, a2⟩ := ha
  obtain ⟨b1, b2⟩ := hb
  have hla : a.toList.length = a.size := Vector.length_toList ⟨a1, a2⟩
  have hlb : b.toList.length = b.size := Vector.length_toList ⟨b1, b2⟩
  intro k
  induction k with
  | zero =>
    intro i hi
    refine ⟨none, rfl, ?_⟩
    simp only
    by_cases hlt : a.size < b.size
    · have hda : a.toList.drop i = [] := List.drop_of_length_le (by omega)
      rw [hda, lexLt_nil_left, List.length_drop, hlb]
      exact (decide_eq_true hlt).trans (decide_eq_true (by omega)).symm
    · have hdb : b.toList.drop i = [] := List.drop_of_length_le (by omega)
      rw [hdb, lexLt_nil_right]
      exact decide_eq_false hlt
  | succ k ih =>
    intro i hi
    have hia : i < a.size := by omega
    have hib : i < b.size := by omega
    have hia2 : i < a.arr.length := by omega
    have hib2 : i < b.arr.length := by omega
    have hia3 : i < a.toList.length := by omega
    have hib3 : i < b.toList.length := by omega
    have ea : a.toList[i] = a.arr[i] := by
      have h1 : a.toList[i]? = a.arr[i]? := by rw [Vector.getElem?_toList, if_pos hia]
      rw [List.getElem?_eq_getElem hia3, List.getElem?_eq_getElem hia2] at h1
      exact Option.some.inj h1
    have eb : b.toList[i] = b.arr[i] := by
      have h1 : b.toList[i]? = b.arr[i]? := by rw [Vector.getElem?_toList, if_pos hib]
      rw [List.getElem?_eq_getElem hib3, List.getElem?_eq_getElem hib2] at h1
      exact Option.some.inj h1
    rw [List.drop_eq_getElem_cons hia3, List.drop_eq_getElem_cons hib3, ea, eb]
    obtain ⟨r, hr, hres⟩ := ih (i + 1) (by omega)
    simp only [ltLoop, readAt_of_lt hia2, readAt_of_lt hib2, lexLt]
    by_cases hlt : a.arr[i] < b.arr[i]
    · refine ⟨some true, by rw [if_pos hlt], ?_⟩
      have hne : ¬ a.arr[i] = b.arr[i] := by omega
      simp only [if_neg hne]
      exact (decide_eq_true hlt).symm
    · by_cases hgt : a.arr[i] > b.arr[i]
      · refine ⟨some false, by rw [if_neg hlt, if_pos hgt], ?_⟩
        have hne : ¬ a.arr[i] = b.arr[i] := by omega
        simp only [if_neg hne]
        exact (decide_eq_false hlt).symm
      · have heq : a.arr[i] = b.arr[i] := by omega
        refine ⟨r, by rw [if_neg hlt, if_neg hgt]; exact hr, ?_⟩
        rw [if_pos heq]
        exact hres

/-- On vectors that satisfy the representation invariant `operator<` returns
the lexicographic comparison of the element lists. -/
theorem Vector.lt_eq_lexLt {a b : Vector Int} (ha : a.WF) (hb : b.WF) :
    a.lt b = .ok (lexLt a.toList b.toList) := by
  have hmin : 0 + (if a.size < b.size then a.size else b.size) = min a.size b.size := by
    split <;> omega
  obtain ⟨r, hr, hres⟩ := ltLoop_spec a b ha hb _ 0 hmin
  simp only [List.drop_zero] at hres
  simp only [Vector.lt, hr]
  cases r with
  | none => simp only at hres ⊢; rw [hres]
  | some c => simp only at hres ⊢; rw [hres]

theorem lexLt_irrefl (l : List Int) : lexLt l l = false := by
  induction l with
  | nil => rfl
  | cons x xs ih => simp [lexLt, ih]

theorem lexLt_trans : ∀ (a b c : List Int), lexLt a b = true → lexLt b c = true →
    lexLt a c = true := by
  intro a
  induction a with
  | nil =>
    intro b c h1 h2
    cases b with
    | nil => cases h1
    | cons y ys =>
      cases c with
      | nil => cases h2
      | cons z zs => rfl
  | cons x xs ih =>
    intro b c h1 h2
    cases b with
    | nil => cases h1
    | cons y ys =>
      cases c with
      | nil => cases h2
      | cons z zs =>
        simp only [lexLt] at h1 h2 ⊢
        by_cases hxy : x = y
        · subst hxy
          rw [if_pos rfl] at h1
          by_cases hxz : x = z
          · subst hxz
            rw [if_pos rfl] at h2 ⊢
            exact ih ys zs h1 h2
          · rw [if_neg hxz] at h2 ⊢
            exact h2
        · rw [if_neg hxy] at h1
          have h1' : x < y := of_decide_eq_true h1
          by_cases hyz : y = z
          · subst hyz
            rw [if_neg hxy]
            exact h1
          · rw [if_neg hyz] at h2
            have h2' : y < z := of_decide_eq_true h2
            have hxz : ¬ x = z := by omega
            rw [if_neg hxz]
            exact decide_eq_true (by omega)

theorem lexLt_asymm : ∀ (a b : List Int), lexLt a b = true → lexLt b a = false := by
  intro a b h
  cases hba : lexLt b a with
  | false => rfl
  | true =>
    have := lexLt_trans a b a h hba
    rw [lexLt_irrefl] at this
    cases this

theorem lexLt_total : ∀ (a b : List Int), lexLt a b = true ∨ lexLt b a = true ∨ a = b := by
  intro a
  induction a with
  | nil =>
    intro b
    cases b with
    | nil => exact Or.inr (Or.inr rfl)
    | cons y ys => exact Or.inl rfl
  | cons x xs ih =>
    intro b
    cases b with
    | nil => exact Or.inr (Or.inl rfl)
    | cons y ys =>
      simp only [lexLt]
      by_cases hxy : x = y
      · subst hxy
        rw [if_pos rfl, if_pos rfl]
        rcases ih ys with h | h | h
        · exact Or.inl h
        · exact Or.inr (Or.inl h)
        · exact Or.inr (Or.inr (by rw [h]))
      · have hyx : ¬ y = x := fun e => hxy e.symm
        rw [if_neg hxy, if_neg hyx]
        rcases Int.lt_or_gt_of_ne hxy with h | h
        · exact Or.inl (decide_eq_true h)
        · exact Or.inr (Or.inl (decide_eq_true h))

theorem lexLt_iff_lex : ∀ (a b : List Int), lexLt a b = true ↔ List.Lex (· < ·) a b := by
  intro a
  induction a with
  | nil =>
    intro b
    cases b with
    | nil => exact ⟨fun h => (by cases h), fun h => (by cases h)⟩
    | cons y ys => exact ⟨fun _ => List.Lex.nil, fun _ => rfl⟩
  | cons x xs ih =>
    intro b
    cases b with
    | nil => exact ⟨fun h => (by cases h), fun h => (by cases h)⟩
    | cons y ys =>
      simp only [lexLt]
      by_cases hxy : x = y
      · subst hxy
        rw [if_pos rfl]
        constructor
        · intro h
          exact List.Lex.cons ((ih ys).1 h)
        · intro h
          cases h with
          | cons h1 => exact (ih ys).2 h1
          | rel h1 => exact absurd h1 (Int.lt_irrefl x)
      · rw [if_neg hxy]
        constructor
        · intro h
          exact List.Lex.rel (of_decide_eq_true h)
        · intro h
          cases h with
          | cons h1 => exact absurd rfl hxy
          | rel h1 => exact decide_eq_true h1

/-! ## Key dispatch -/

/-- The inner loop of `installSpecialKeys` registers the codes of the cells it
visits and leaves every other code as it was. -/
theorem installLoop_spec (codes : Vector Int) (action : KeyAction) :
    ∀ (k i : Nat) (m : KeyLookup), i + k ≤ codes.arr.length →
      ∃ m1, installLoop codes action i k m = .ok m1 ∧
        ∀ c, m1 c = if c ∈ (codes.arr.drop i).take k then some action else m c := by
  intro k
  induction k with
  | zero =>
    intro i m _
    exact ⟨m, rfl, fun c => by simp⟩
  | succ k ih =>
    intro i m hi
    have hlt : i < codes.arr.length := by omega
    obtain ⟨m1, h1, h2⟩ := ih (i + 1) (m.assign codes.arr[i] action) (by omega)
    refine ⟨m1, by simp only [installLoop, readAt_of_lt hlt, h1], fun c => ?_⟩
    rw [h2 c, List.drop_eq_getElem_cons hlt, List.take_succ_cons]
    by_cases hc : c = codes.arr[i]
    · have hmem : c ∈ codes.arr[i] :: List.take k (List.drop (i + 1) codes.arr) := by
        rw [hc]; exact List.mem_cons_self _ _
      rw [if_pos hmem]
      split
      · rfl
      · simp only [KeyLookup.assign, if_pos hc]
    · by_cases hr : c ∈ List.take k (List.drop (i + 1) codes.arr)
      · rw [if_pos hr, if_pos (List.mem_cons_of_mem _ hr)]
      · have hmem : ¬ c ∈ codes.arr[i] :: List.take k (List.drop (i + 1) codes.arr) := by
          intro h
          rcases List.mem_cons.1 h with h | h
          · exact hc h
          · exact hr h
        rw [if_neg hr, if_neg hmem]
        simp only [KeyLookup.assign, if_neg hc]

/-- One entry of the group table: its codes get its action, all other codes
keep what they had. -/
theorem installLoop_entry {codes : Vector Int} (hw : codes.WF) (action : KeyAction)
    (m : KeyLookup) :
    ∃ m1, installLoop codes action 0 codes.size m = .ok m1 ∧
      ∀ c, m1 c = if c ∈ codes.toList then some action else m c := by
  obtain ⟨h1, h2⟩ := hw
  obtain ⟨m1, e1, e2⟩ := installLoop_spec codes action codes.size 0 m (by omega)
  exact ⟨m1, e1, fun c => by rw [e2 c]; rfl⟩

/-- The outer loop of `installSpecialKeys` on a table whose groups are pairwise
disjoint. -/
theorem installEntries_spec :
    ∀ (table : KeyMap) (m : KeyLookup), (∀ e ∈ table, e.1.WF) →
      ∃ m1, installEntries table m = .ok m1 ∧
        (∀ c, (∀ e ∈ table, c ∉ e.1.toList) → m1 c = m c) ∧
        (table.Pairwise (fun e1 e2 => ∀ c, c ∈ e1.1.toList → c ∉ e2.1.toList) →
          ∀ e ∈ table, ∀ c, c ∈ e.1.toList → m1 c = some e.2) := by
  intro table
  induction table with
  | nil =>
    intro m _
    exact ⟨m, rfl, fun _ _ => rfl, fun _ e he => absurd he (List.not_mem_nil e)⟩
  | cons e0 rest ih =>
    intro m hwf
    obtain ⟨codes, action⟩ := e0
    obtain ⟨m0, h0, h0c⟩ := installLoop_entry (hwf (codes, action) (List.mem_cons_self _ _))
      action m
    obtain ⟨m1, h1, h1a, h1b⟩ := ih m0 (fun e he => hwf e (List.mem_cons_of_mem _ he))
    refine ⟨m1, by simp only [installEntries, h0, h1], ?_, ?_⟩
    · intro c hc
      rw [h1a c (fun e he => hc e (List.mem_cons_of_mem _ he)), h0c c,
        if_neg (hc (codes, action) (List.mem_cons_self _ _))]
    · intro hp e he c hce
      obtain ⟨hp1, hp2⟩ := List.pairwise_cons.1 hp
      rcases List.mem_cons.1 he with h | h
      · subst h
        rw [h1a c (fun e2 he2 => hp1 e2 he2 c hce), h0c c, if_pos hce]
      · exact h1b hp2 e h c hce

/-- Effect of the copy constructor. -/
theorem Vector.copy_spec {T : Type} [Inhabited T] {v : Vector T} (h : v.WF) :
    ∃ r, v.copy = .ok r ∧ r.WF ∧ r.size = v.size ∧ r.cap = v.cap ∧ r.toList = v.toList := by
  obtain ⟨h1, h2⟩ := h
  obtain ⟨arr, ha, hlen, hget⟩ := copyLoop_spec v.arr v.size 0 (List.replicate v.cap default)
    (by omega) (by rw [List.length_replicate]; omega)
  refine ⟨⟨arr, v.size, v.cap⟩, by simp only [Vector.copy, ha],
    ⟨h1, by rw [hlen, List.length_replicate]⟩, rfl, rfl, ?_⟩
  apply List.ext_getElem?
  intro j
  rw [Vector.getElem?_toList, Vector.getElem?_toList, hget j]
  by_cases hj : j < v.size
  · have : 0 ≤ j ∧ j < 0 + v.size := by omega
    simp [hj, this]
  · simp [hj]

/-- Effect of the initializer-list constructor. -/
theorem Vector.ofInitList_spec {T : Type} [Inhabited T] (list : List T) :
    ∃ v, Vector.ofInitList list = .ok v ∧ v.WF ∧ v.toList = list := by
  obtain ⟨v, h1, h2, -, h4, -⟩ := pushAll_spec list
  exact ⟨v, h1, h2, h4⟩

/-- Insertion of an entry whose key is equivalent to no key of the map: the
entry is added. -/
theorem KeyMap.insert_perm (e : Vector Int × KeyAction) (he : e.1.WF) :
    ∀ (m : KeyMap), (∀ e1 ∈ m, e1.1.WF) →
      (∀ e1 ∈ m, lexLt e.1.toList e1.1.toList = true ∨ lexLt e1.1.toList e.1.toList = true) →
      ∃ m1, KeyMap.insert e m = .ok m1 ∧ m1.Perm (e :: m) := by
  intro m
  induction m with
  | nil =>
    intro _ _
    exact ⟨[e], rfl, List.Perm.refl _⟩
  | cons e1 rest ih =>
    intro hwf hne
    have hw1 := hwf e1 (List.mem_cons_self _ _)
    have h1 := Vector.lt_eq_lexLt he hw1
    have h2 := Vector.lt_eq_lexLt hw1 he
    cases hlt : lexLt e.1.toList e1.1.toList with
    | true =>
      rw [hlt] at h1
      exact ⟨e :: e1 :: rest, by simp only [KeyMap.insert, h1], List.Perm.refl _⟩
    | false =>
      rw [hlt] at h1
      have hgt : lexLt e1.1.toList e.1.toList = true := by
        rcases hne e1 (List.mem_cons_self _ _) with h | h
        · rw [hlt] at h; cases h
        · exact h
      rw [hgt] at h2
      obtain ⟨rest1, hr, hp⟩ := ih (fun x hx => hwf x (List.mem_cons_of_mem _ hx))
        (fun x hx => hne x (List.mem_cons_of_mem _ hx))
      refine ⟨e1 :: rest1, by simp only [KeyMap.insert, h1, h2, hr], ?_⟩
      exact (List.Perm.cons e1 hp).trans (List.Perm.swap e e1 rest)

/-- Construction of a map from an initializer list whose keys are pairwise
inequivalent, and inequivalent to the keys already present: every entry is
added, so the map holds the given entries in some order. -/
theorem KeyMap.ofInitList_perm :
    ∀ (inits : List (List Int × KeyAction)) (m : KeyMap), (∀ e ∈ m, e.1.WF) →
      inits.Pairwise (fun a b => lexLt a.1 b.1 = true ∨ lexLt b.1 a.1 = true) →
      (∀ a ∈ inits, ∀ e ∈ m, lexLt a.1 e.1.toList = true ∨ lexLt e.1.toList a.1 = true) →
      ∃ m1, KeyMap.ofInitList inits m = .ok m1 ∧ (∀ e ∈ m1, e.1.WF) ∧
        (m1.map (fun e => (e.1.toList, e.2))).Perm
          (inits ++ m.map (fun e => (e.1.toList, e.2))) := by
  intro inits
  induction inits with
  | nil =>
    intro m hwf _ _
    exact ⟨m, rfl, hwf, List.Perm.refl _⟩
  | cons a rest ih =>
    intro m hwf hp hne
    obtain ⟨codes, action⟩ := a
    obtain ⟨key, hk, kw, kl⟩ := Vector.ofInitList_spec codes
    obtain ⟨key1, hk1, kw1, -, -, kl1⟩ := Vector.copy_spec kw
    have hkl : key1.toList = codes := by rw [kl1, kl]
    obtain ⟨hp1, hp2⟩ := List.pairwise_cons.1 hp
    obtain ⟨m1, hm1, pm1⟩ := KeyMap.insert_perm (key1, action) kw1 m hwf (by
      intro e1 he1
      have := hne (codes, action) (List.mem_cons_self _ _) e1 he1
      simp only at this ⊢
      rw [hkl]
      exact this)
    have hwf1 : ∀ e ∈ m1, e.1.WF := by
      intro e he
      rcases List.mem_cons.1 (pm1.mem_iff.1 he) with h | h
      · rw [h]; exact kw1
      · exact hwf e h
    obtain ⟨m2, hm2, wf2, pm2⟩ := ih m1 hwf1 hp2 (by
      intro a ha e he
      rcases List.mem_cons.1 (pm1.mem_iff.1 he) with h | h
      · rw [h]
        simp only
        rw [hkl]
        rcases hp1 a ha with h3 | h3
        · exact Or.inr h3
        · exact Or.inl h3
      · exact hne a (List.mem_cons_of_mem _ ha) e h)
    refine ⟨m2, by simp only [KeyMap.ofInitList, hk, hk1, hm1, hm2], wf2, ?_⟩
    refine pm2.trans ?_
    have hmap : (m1.map (fun e => (e.1.toList, e.2))).Perm
        ((codes, action) :: m.map (fun e => (e.1.toList, e.2))) := by
      have := pm1.map (fun e => (e.1.toList, e.2))
      simp only [List.map_cons, hkl] at this
      exact this
    exact (List.Perm.append_left rest hmap).trans List.perm_middle

theorem lexLt_of_disjoint {a b : List Int} (ha : a ≠ []) (hb : b ≠ [])
    (h : ∀ c, c ∈ a → c ∉ b) : lexLt a b = true ∨ lexLt b a = true := by
  cases a with
  | nil => exact absurd rfl ha
  | cons x xs =>
    cases b with
    | nil => exact absurd rfl hb
    | cons y ys =>
      have hxy : x ≠ y := by
        intro e
        exact h x (List.mem_cons_self _ _) (by rw [e]; exact List.mem_cons_self _ _)
      have hyx : ¬ y = x := fun e => hxy e.symm
      simp only [lexLt, if_neg hxy, if_neg hyx]
      rcases Int.lt_or_gt_of_ne hxy with h1 | h1
      · exact Or.inl (decide_eq_true h1)
      · exact Or.inr (decide_eq_true h1)

theorem specialKeysInit_flatten (K : Keys) :
    ((specialKeysInit K).map Prod.fst).flatten = K.codes := rfl

theorem specialKeysInit_nonempty (K : Keys) : ∀ a ∈ specialKeysInit K, a.1 ≠ [] := by
  intro a ha
  simp only [specialKeysInit, List.mem_cons, List.mem_singleton, List.not_mem_nil,
    or_false] at ha
  rcases ha with h | h | h | h | h | h <;> (rw [h]; exact List.cons_ne_nil _ _)

theorem specialKeysInit_disjoint (K : Keys) (hK : K.codes.Nodup) :
    (specialKeysInit K).Pairwise (fun a b => ∀ c, c ∈ a.1 → c ∉ b.1) := by
  rw [← specialKeysInit_flatten, List.nodup_flatten] at hK
  have h := List.pairwise_map.1 hK.2
  exact h.imp (fun hd c hc1 hc2 => hd hc1 hc2)

/-- The built-in table, for pairwise distinct key codes: the map holds the six
entries of the initializer list (in the order `operator<` gives them), and the
per-code table built from it maps the codes of each group to the group's
action and has no entry for any other code. -/
theorem keyLookup_spec (K : Keys) (hK : K.codes.Nodup) :
    ∃ table keyLookup, specialKeys K = .ok table ∧ installSpecialKeys table = .ok keyLookup ∧
      (∀ e ∈ table, e.1.WF) ∧
      table.Pairwise (fun e1 e2 => ∀ c, c ∈ e1.1.toList → c ∉ e2.1.toList) ∧
      (∀ a ∈ specialKeysInit K, ∀ c, c ∈ a.1 → keyLookup c = some a.2) ∧
      (∀ c, c ∉ K.codes → keyLookup c = none) := by
  have hdis0 := specialKeysInit_disjoint K hK
  have hpair : (specialKeysInit K).Pairwise
      (fun a b => lexLt a.1 b.1 = true ∨ lexLt b.1 a.1 = true) :=
    hdis0.imp_of_mem (fun ha hb h =>
      lexLt_of_disjoint (specialKeysInit_nonempty K _ ha) (specialKeysInit_nonempty K _ hb) h)
  obtain ⟨table, ht, hwf, hperm⟩ := KeyMap.ofInitList_perm (specialKeysInit K) []
    (fun e he => absurd he (List.not_mem_nil e)) hpair
    (fun a _ e he => absurd he (List.not_mem_nil e))
  simp only [List.map_nil, List.append_nil] at hperm
  have hsymm : ∀ (a b : List Int × KeyAction), (∀ c, c ∈ a.1 → c ∉ b.1) →
      (∀ c, c ∈ b.1 → c ∉ a.1) := fun a b h c hb ha => h c ha hb
  have hdis1 : (table.map (fun e => (e.1.toList, e.2))).Pairwise
      (fun a b => ∀ c, c ∈ a.1 → c ∉ b.1) :=
    (hperm.pairwise_iff (fun {a b} h => hsymm a b h)).2 hdis0
  have hdis : table.Pairwise (fun e1 e2 => ∀ c, c ∈ e1.1.toList → c ∉ e2.1.toList) :=
    List.pairwise_map.1 hdis1
  obtain ⟨lk, h1, h2, h3⟩ := installEntries_spec table KeyLookup.empty hwf
  refine ⟨table, lk, ht, h1, hwf, hdis, ?_, ?_⟩
  · intro a ha c hc
    have hmem : a ∈ table.map (fun e => (e.1.toList, e.2)) := hperm.mem_iff.2 ha
    obtain ⟨e, he, hea⟩ := List.mem_map.1 hmem
    subst hea
    exact h3 hdis e he c hc
  · intro c hc
    rw [h2 c, KeyLookup.empty]
    intro e he hce
    have hmem : (e.1.toList, e.2) ∈ specialKeysInit K :=
      hperm.mem_iff.1 (List.mem_map.2 ⟨e, he, rfl⟩)
    apply hc
    rw [← specialKeysInit_flatten]
    exact List.mem_flatten.2 ⟨e.1.toList, List.mem_map.2 ⟨_, hmem, rfl⟩, hce⟩

theorem Keys.codes_ne (K : Keys) (hK : K.codes.Nodup) {i j : Nat} {x y : Int}
    (hi : K.codes[i]? = some x) (hj : K.codes[j]? = some y) (hij : i ≠ j) : x ≠ y := by
  intro e
  subst e
  obtain ⟨hlt, -⟩ := List.getElem?_eq_some.1 hi
  exact hij (List.getElem?_inj hlt hK (hi.trans hj.symm))

theorem leftHandler_eq (g : Global) :
    leftHandler g = g.file.cursorLeft.map (fun f => { g with file := f }) := by
  unfold leftHandler
  cases g.file.cursorLeft <;> rfl

theorem rightHandler_eq (g : Global) :
    rightHandler g = g.file.cursorRight.map (fun f => { g with file := f }) := by
  unfold rightHandler
  cases g.file.cursorRight <;> rfl

theorem upHandler_eq (g : Global) :
    upHandler g = g.file.cursorUp.map (fun f => { g with file := f }) := by
  unfold upHandler
  cases g.file.cursorUp <;> rfl

theorem downHandler_eq (g : Global) :
    downHandler g = g.file.cursorDown.map (fun f => { g with file := f }) := by
  unfold downHandler
  cases g.file.cursorDown <;> rfl

theorem handleEnter_eq (code : Int) (g : Global) :
    handleEnter code g = g.file.newLineAt.map (fun f => { g with file := f }) := by
  unfold handleEnter
  cases g.file.newLineAt <;> rfl

theorem handleBackspace_eq (code : Int) (g : Global) :
    handleBackspace code g = g.file.removeChar.map (fun r => { g with file := r.2 }) := by
  unfold handleBackspace
  cases g.file.removeChar <;> rfl

theorem handleHome_call_eq (K : Keys) (code : Int) (g : Global) :
    Handler.call K .handleHome code g =
      (setActiveColumn g.file (fun _ => 0)).map (fun f => { g with file := f }) := by
  have h : handleHome g.file = setActiveColumn g.file (fun _ => 0) := rfl
  simp only [Handler.call, h]
  cases setActiveColumn g.file (fun _ => 0) <;> rfl

theorem handleEnd_call_eq (K : Keys) (code : Int) (g : Global) :
    Handler.call K .handleEnd code g =
      (setActiveColumn g.file (fun l => l.getSize)).map (fun f => { g with file := f }) := by
  have h : handleEnd g.file = setActiveColumn g.file (fun l => l.getSize) := rfl
  simp only [Handler.call, h]
  cases setActiveColumn g.file (fun l => l.getSize) <;> rfl

theorem insert_branch_eq (g : Global) (c : Int) :
    (match g.file.insertChar c with
      | .error e => .error e
      | .ok f => .ok { g with file := f } : Result Global) =
      (g.file.insertChar c).map (fun f => { g with file := f }) := by
  cases g.file.insertChar c <;> rfl

theorem running_of_map {α : Type} (g g1 : Global) (x : Result α) (h : α → File)
    (hx : x.map (fun a => ({ g with file := h a } : Global)) = .ok g1) :
    g1.running = g.running := by
  cases x with
  | error e => cases hx
  | ok a =>
    have : ({ g with file := h a } : Global) = g1 := Except.ok.inj hx
    rw [← this]

/-- The dispatch with the built-in table agrees with the reference. -/
theorem mainStep_eq_stepRef (K : Keys) (hK : K.codes.Nodup) (g : Global) (c : Int) :
    mainStep K g c = stepRef K g c := by
  obtain ⟨table, lk, ht, hlk, -, -, hsome, hnone⟩ := keyLookup_spec K hK
  have hmem : ∀ (codes : List Int) (h : Handler), (codes, KeyAction.ofHandler h) ∈
      specialKeysInit K → c ∈ codes → lk c = some (KeyAction.ofHandler h) :=
    fun codes h hin hc => hsome _ hin c hc
  simp only [mainStep, ht, hlk, eventStep, stepRef]
  by_cases h1 : c = K.KEY_LEFT
  · rw [hmem [K.KEY_LEFT, K.KEY_RIGHT, K.KEY_UP, K.KEY_DOWN] .arrows (by simp [specialKeysInit])
      (by simp [h1])]
    simp only [KeyAction.handle, KeyAction.ofHandler, Handler.call, arrows, if_pos h1,
      leftHandler_eq]
  by_cases h2 : c = K.KEY_RIGHT
  · rw [hmem [K.KEY_LEFT, K.KEY_RIGHT, K.KEY_UP, K.KEY_DOWN] .arrows (by simp [specialKeysInit])
      (by simp [h2])]
    simp only [KeyAction.handle, KeyAction.ofHandler, Handler.call, arrows, if_neg h1,
      if_pos h2, rightHandler_eq]
  by_cases h3 : c = K.KEY_UP
  · rw [hmem [K.KEY_LEFT, K.KEY_RIGHT, K.KEY_UP, K.KEY_DOWN] .arrows (by simp [specialKeysInit])
      (by simp [h3])]
    simp only [KeyAction.handle, KeyAction.ofHandler, Handler.call, arrows, if_neg h1,
      if_neg h2, if_pos h3, upHandler_eq]
  by_cases h4 : c = K.KEY_DOWN
  · rw [hmem [K.KEY_LEFT, K.KEY_RIGHT, K.KEY_UP, K.KEY_DOWN] .arrows (by simp [specialKeysInit])
      (by simp [h4])]
    simp only [KeyAction.handle, KeyAction.ofHandler, Handler.call, arrows, if_neg h1,
      if_neg h2, if_neg h3, if_pos h4, downHandler_eq]
  by_cases h5 : c = K.KEY_ENTER ∨ c = 10
  · rw [hmem [K.KEY_ENTER, 10] .handleEnter (by simp [specialKeysInit])
      (by simpa using h5)]
    simp only [KeyAction.handle, KeyAction.ofHandler, Handler.call, if_neg h1,
      if_neg h2, if_neg h3, if_neg h4, if_pos h5, handleEnter_eq]
  by_cases h6 : c = 8 ∨ c = K.KEY_BACKSPACE
  · rw [hmem [8, K.KEY_BACKSPACE] .handleBackspace (by simp [specialKeysInit])
      (by simpa using h6)]
    simp only [KeyAction.handle, KeyAction.ofHandler, Handler.call, if_neg h1,
      if_neg h2, if_neg h3, if_neg h4, if_neg h5, if_pos h6, handleBackspace_eq]
  by_cases h7 : c = K.KEY_HOME
  · rw [hmem [K.KEY_HOME] .handleHome (by simp [specialKeysInit]) (by simp [h7])]
    simp only [KeyAction.handle, KeyAction.ofHandler, if_neg h1,
      if_neg h2, if_neg h3, if_neg h4, if_neg h5, if_neg h6, if_pos h7, handleHome_call_eq]
  by_cases h8 : c = K.KEY_END
  · rw [hmem [K.KEY_END] .handleEnd (by simp [specialKeysInit]) (by simp [h8])]
    simp only [KeyAction.handle, KeyAction.ofHandler, if_neg h1,
      if_neg h2, if_neg h3, if_neg h4, if_neg h5, if_neg h6, if_neg h7, if_pos h8,
      handleEnd_call_eq]
  by_cases h9 : c = 27
  · rw [hmem [27] .handleEscape (by simp [specialKeysInit]) (by simp [h9])]
    simp only [KeyAction.handle, KeyAction.ofHandler, Handler.call, handleEscape, if_neg h1,
      if_neg h2, if_neg h3, if_neg h4, if_neg h5, if_neg h6, if_neg h7, if_neg h8, if_pos h9]
  · have hc : c ∉ K.codes := by
      simp only [Keys.codes, List.mem_cons, List.mem_singleton, List.not_mem_nil, or_false,
        not_or]
      simp only [not_or] at h5 h6
      exact ⟨h1, h2, h3, h4, h5.1, h5.2, h9, h6.1, h6.2, h7, h8⟩
    rw [hnone c hc]
    simp only [if_neg h1, if_neg h2, if_neg h3, if_neg h4, if_neg h5, if_neg h6, if_neg h7,
      if_neg h8, if_neg h9]
    exact insert_branch_eq g c

/-! ## Claims on containers, dispatch and the first-line backspace -/

/-- C11: on a valid document with active index `k` and active column `p`,
`cursorDown()` is a no-op when `k` is the last line and otherwise sets
`activeLineIndex` to `k + 1` and the column of line `k + 1` to
`min(p, length of line k + 1)`; `cursorUp()` is a no-op when `k = 0` and
otherwise sets `activeLineIndex` to `k - 1` and the column of line `k - 1` to
that line's length when `p = 0` and to `min(p, length of line k - 1)` when
`p > 0`.  In both cases no text changes and every line other than the
destination keeps its column. -/
theorem C11_cursorDown_cursorUp (f : File) (hwf : f.WF) (hv : f.valid) (l : Line)
    (hl : f.lineList[f.currentLine]? = some l) :
    (∃ r, f.cursorDown = .ok r ∧ r.lines.size = f.lines.size ∧
      r.lineList.map Line.chars = f.lineList.map Line.chars ∧
      (f.currentLine + 1 = f.lines.size → r = f) ∧
      (f.currentLine + 1 < f.lines.size → r.currentLine = f.currentLine + 1 ∧
        ∃ q, f.lineList[f.currentLine + 1]? = some q ∧ q.getSize = q.chars.length ∧
          r.lineList = f.lineList.set (f.currentLine + 1)
            { q with position := min l.position q.getSize })) ∧
    (∃ r, f.cursorUp = .ok r ∧ r.lines.size = f.lines.size ∧
      r.lineList.map Line.chars = f.lineList.map Line.chars ∧
      (f.currentLine = 0 → r = f) ∧
      (0 < f.currentLine → r.currentLine = f.currentLine - 1 ∧
        ∃ q, f.lineList[f.currentLine - 1]? = some q ∧ q.getSize = q.chars.length ∧
          r.lineList = f.lineList.set (f.currentLine - 1)
            { q with position :=
              if l.position = 0 then q.getSize else min l.position q.getSize })) := by
  obtain ⟨hw, h0, hk, hok⟩ := (File.good_iff f).1 ⟨hwf, hv⟩
  constructor
  · by_cases hc : f.currentLine + 1 < f.lines.size
    · obtain ⟨r, q, hr, -, a2, a3, a4, a5⟩ := File.cursorDown_step hwf hv hl hc
      have hq := ok_of_getElem? hok a4
      refine ⟨r, hr, a2, ?_, fun h => absurd h (by omega),
        fun _ => ⟨a3, q, a4, (Line.length_chars hq.1).symm, a5⟩⟩
      rw [a5, map_chars_set_position _ a4]
    · exact ⟨f, File.cursorDown_last hc, rfl, rfl, fun _ => rfl, fun h => absurd h hc⟩
  · by_cases hc : 0 < f.currentLine
    · obtain ⟨r, q, hr, -, a2, a3, a4, a5⟩ := File.cursorUp_step hwf hv hl hc
      have hq := ok_of_getElem? hok a4
      refine ⟨r, hr, a2, ?_, fun h => absurd h (by omega),
        fun _ => ⟨a3, q, a4, (Line.length_chars hq.1).symm, a5⟩⟩
      rw [a5, map_chars_set_position _ a4]
    · exact ⟨f, File.cursorUp_first hc, rfl, rfl, fun _ => rfl, fun h => absurd h hc⟩

/-- C11 at `"ab"` (column 1) / `"cd"` (column 0) with the second line active:
`cursorDown()` changes nothing and `cursorUp()`, coming from column 0, makes
`"ab"` active with column 2. -/
theorem C11_cursorDown_cursorUp_witness :
    (docAbCd 1 1 0).WF ∧ (docAbCd 1 1 0).valid ∧
    (docAbCd 1 1 0).cursorDown = .ok (docAbCd 1 1 0) ∧
    ∃ r, (docAbCd 1 1 0).cursorUp = .ok r ∧ r.currentLine = 0 ∧
      r.lineList = [lineAb 2, lineCd 0] :=
  ⟨by decide, by decide, by
    obtain ⟨⟨r, h1, -, -, h4, -⟩, -⟩ :=
      C11_cursorDown_cursorUp (docAbCd 1 1 0) (by decide) (by decide) (lineCd 0) rfl
    rw [h1, h4 rfl], by
    obtain ⟨-, r, h1, -, -, -, h5⟩ :=
      C11_cursorDown_cursorUp (docAbCd 1 1 0) (by decide) (by decide) (lineCd 0) rfl
    obtain ⟨h6, q, hq, -, h7⟩ := h5 (by decide)
    have hq2 : q = lineAb 1 := (Option.some.inj hq).symm
    subst hq2
    exact ⟨r, h1, h6, h7⟩⟩

/-- C12: for every vector `s` (with `size <= cap`), every index `i <= size` and
every value `v`, `insert(i, v)` succeeds, a following `erase(i)` succeeds and
returns `v`, and afterwards the vector has the size and the elements, in the
same order, that `s` had. -/
theorem C12_insert_erase_round_trip {T : Type} [Inhabited T] (s : Vector T) (hs : s.WF)
    (i : Nat) (hi : i ≤ s.size) (v : T) :
    ∃ s1 s2, s.insert i v = .ok s1 ∧ s1.erase i = .ok (v, s2) ∧
      s2.size = s.size ∧ s2.toList = s.toList := by
  obtain ⟨s1, s2, h1, h2, -, h4, h5⟩ := Vector.insert_erase hs hi v
  exact ⟨s1, s2, h1, h2, h4, h5⟩

/-- C12 at the vector `1, 2, 3` (capacity 4), index 1 and value 9. -/
theorem C12_insert_erase_witness :
    (⟨[1, 2, 3, 0], 3, 4⟩ : Vector Int).WF ∧
    ∃ s1 s2, (⟨[1, 2, 3, 0], 3, 4⟩ : Vector Int).insert 1 9 = .ok s1 ∧
      s1.toList = [1, 9, 2, 3] ∧ s1.erase 1 = .ok (9, s2) ∧
      s2.size = 3 ∧ s2.toList = [1, 2, 3] :=
  ⟨by decide, by
    obtain ⟨s1, s2, h1, h2, h3, h4⟩ :=
      C12_insert_erase_round_trip (⟨[1, 2, 3, 0], 3, 4⟩ : Vector Int) (by decide) 1
        (by decide) 9
    have e1 : s1 = ⟨[1, 9, 2, 3], 4, 4⟩ := by
      have : (Except.ok (⟨[1, 9, 2, 3], 4, 4⟩ : Vector Int) : Result (Vector Int)) = .ok s1 := h1
      exact (Except.ok.inj this).symm
    subst e1
    exact ⟨_, s2, h1, rfl, h2, h3, h4⟩⟩

/-- C13: pushing the values `xs` one by one onto an empty vector succeeds and
yields size `n = |xs|`, the elements `xs` in push order, and a capacity that is
0 when `n = 0` and otherwise the smallest power of two that is `>= n`.  Any
further push `y` changes the capacity exactly when size equals capacity
beforehand, and then doubles it (0 becomes 1); so the capacity is always
`>= size` and never decreases under push. -/
theorem C13_push_growth {T : Type} [Inhabited T] (xs : List T) (y : T) :
    ∃ v w, pushAll (Vector.empty : Vector T) xs = .ok v ∧
      v.size = xs.length ∧ v.toList = xs ∧ v.size ≤ v.cap ∧
      (xs.length = 0 → v.cap = 0) ∧
      (0 < xs.length → ∃ k, v.cap = 2 ^ k ∧ xs.length ≤ 2 ^ k ∧
        ∀ j, xs.length ≤ 2 ^ j → 2 ^ k ≤ 2 ^ j) ∧
      v.push y = .ok w ∧ pushAll (Vector.empty : Vector T) (xs ++ [y]) = .ok w ∧
      (w.cap ≠ v.cap ↔ v.size = v.cap) ∧
      (v.size = v.cap → w.cap = if v.cap = 0 then 1 else 2 * v.cap) ∧
      v.cap ≤ w.cap ∧ w.size ≤ w.cap := by
  obtain ⟨v, hv, hw, hs, hl, hinv⟩ := pushAll_spec xs
  obtain ⟨w, hpw, ww, ws, -, wc⟩ := Vector.push_spec hw y
  have hle : v.size ≤ v.cap := hw.1
  refine ⟨v, w, hv, hs, hl, hle, ?_, ?_, hpw, ?_, ?_, ?_, ?_, ww.1⟩
  · intro h0
    rcases hinv with ⟨-, z⟩ | ⟨k, k1, k2⟩
    · exact z
    · omega
  · intro hpos
    rcases hinv with ⟨z, -⟩ | ⟨k, k1, k2⟩
    · omega
    · rw [k1, hs] at k2
      exact ⟨k, k1, by rw [← k1, ← hs]; exact hle, pow_two_least k2⟩
  · rw [pushAll_snoc xs y _ _ hv, hpw]
  · rw [wc]
    by_cases hf : v.size = v.cap
    · rw [if_pos hf]
      by_cases hz : v.cap = 0
      · rw [if_pos hz]; constructor
        · intro _; exact hf
        · intro _; omega
      · rw [if_neg hz]; constructor
        · intro _; exact hf
        · intro _; omega
    · rw [if_neg hf]; constructor
      · intro h; exact absurd rfl h
      · intro h; exact absurd h hf
  · intro hf
    rw [wc, if_pos hf]
    split
    · rfl
    · rw [Nat.mul_comm]
  · rw [wc]
    split
    · split <;> omega
    · exact Nat.le_refl _

/-- C13 at the values `1, 2, 3, 4` followed by `5`: capacity 4 before the fifth
push, capacity 8 after it. -/
theorem C13_push_growth_witness :
    ∃ v w, pushAll (Vector.empty : Vector Int) [1, 2, 3, 4] = .ok v ∧
      v.size = 4 ∧ v.toList = [1, 2, 3, 4] ∧ v.cap = 4 ∧
      v.push 5 = .ok w ∧ w.cap = 8 ∧ w.toList = [1, 2, 3, 4, 5] := by
  obtain ⟨v, w, h1, h2, h3, -, -, -, h7, -⟩ :=
    C13_push_growth ([1, 2, 3, 4] : List Int) 5
  have e1 : v = ⟨[1, 2, 3, 4], 4, 4⟩ := by
    have : (Except.ok (⟨[1, 2, 3, 4], 4, 4⟩ : Vector Int) : Result (Vector Int)) = .ok v := h1
    exact (Except.ok.inj this).symm
  subst e1
  have e2 : w = ⟨[1, 2, 3, 4, 5, 0, 0, 0], 5, 8⟩ := by
    have : (Except.ok (⟨[1, 2, 3, 4, 5, 0, 0, 0], 5, 8⟩ : Vector Int) : Result (Vector Int)) =
        .ok w := h7
    exact (Except.ok.inj this).symm
  subst e2
  exact ⟨_, _, h1, h2, h3, rfl, h7, rfl, rfl⟩

/-- C14: on a vector `s` (with `size <= cap`), `pop()` throws
`emptyContainer` if and only if the size of `s` is 0, and then `s` is left as
it was (size 0); otherwise it returns the last element of `s` and leaves the
preceding elements unchanged in order, with the size reduced by 1 and the
capacity unchanged. -/
theorem C14_pop (T : Type) (s : Vector T) (hs : s.WF) :
    (s.popStep.1 = .error .emptyContainer ↔ s.size = 0) ∧
    (s.size = 0 → s.popStep = (.error .emptyContainer, s) ∧
      s.pop = .error .emptyContainer) ∧
    (0 < s.size → ∃ x r, s.popStep = (.ok x, r) ∧ s.pop = .ok (x, r) ∧
      s.toList = r.toList ++ [x] ∧ r.size = s.size - 1 ∧ r.cap = s.cap) := by
  refine ⟨⟨fun h => ?_, fun h => ?_⟩, fun h => Vector.pop_empty h, fun h => ?_⟩
  · by_contra hne
    obtain ⟨x, r, hr, -⟩ := Vector.pop_spec hs (by omega)
    rw [hr] at h
    cases h
  · rw [(Vector.pop_empty h).1]
  · obtain ⟨x, r, h1, h2, h3, h4, h5, -⟩ := Vector.pop_spec hs h
    exact ⟨x, r, h1, h2, h3, h4, h5⟩

/-- C14 at the vector obtained by pushing 1, 2, 3 onto an empty vector: three
pops return 3, 2, 1 and the fourth throws `emptyContainer`. -/
theorem C14_pop_witness :
    ∃ v v0, pushAll (Vector.empty : Vector Int) [1, 2, 3] = .ok v ∧
      popMany 3 v = .ok ([3, 2, 1], v0) ∧ v0.WF ∧ v0.size = 0 ∧
      v0.popStep = (.error .emptyContainer, v0) ∧ v0.pop = .error .emptyContainer :=
  ⟨⟨[1, 2, 3, 0], 3, 4⟩, ⟨[1, 2, 3, 0], 0, 4⟩, rfl, rfl, by decide, rfl,
    ((C14_pop Int ⟨[1, 2, 3, 0], 0, 4⟩ (by decide)).2.1 rfl).1,
    ((C14_pop Int ⟨[1, 2, 3, 0], 0, 4⟩ (by decide)).2.1 rfl).2⟩

/-- C15, the code at a failing input: `insert(1, 7)` on the empty vector
(size 0, capacity 0) throws `indexOutOfRange`, and the vector it leaves has
capacity 1, because `grow()` runs before the index is checked; the same call
on the full vector `1, 2` leaves capacity 4 instead of 2.  Size and elements
are as before. -/
theorem C15_failing_insert_grows :
    (Vector.empty : Vector Int).WF ∧
    (Vector.empty : Vector Int).insertStep 1 7 = (.error .indexOutOfRange, ⟨[0], 0, 1⟩) ∧
    (Vector.empty : Vector Int).cap = 0 ∧
    ((Vector.empty : Vector Int).insertStep 1 7).2.cap = 1 ∧
    ((Vector.empty : Vector Int).insertStep 1 7).2.toList = (Vector.empty : Vector Int).toList ∧
    (⟨[1, 2], 2, 2⟩ : Vector Int).insertStep 5 7 =
      (.error .indexOutOfRange, ⟨[1, 2, 0, 0], 2, 4⟩) :=
  ⟨by decide, rfl, rfl, rfl, rfl, rfl⟩

/-- C16: on a vector `s` (with `size <= cap`), `erase(i)` throws
`indexOutOfRange` if and only if `i >= size`, leaving `s` unchanged; otherwise
it returns the element that was at index `i`, and the elements afterwards are
those of `s` with position `i` removed (those before `i` in place, those after
`i` one slot to the left, in the same order), with the size reduced by 1 and
the capacity unchanged. -/
theorem C16_erase (T : Type) (s : Vector T) (hs : s.WF) (i : Nat) :
    ((s.eraseStep i).1 = .error .indexOutOfRange ↔ s.size ≤ i) ∧
    (s.size ≤ i → s.eraseStep i = (.error .indexOutOfRange, s) ∧
      s.erase i = .error .indexOutOfRange) ∧
    (i < s.size → ∃ x r, s.eraseStep i = (.ok x, r) ∧ s.erase i = .ok (x, r) ∧
      s.toList[i]? = some x ∧ r.toList = s.toList.eraseIdx i ∧
      (∀ j, j < i → r.toList[j]? = s.toList[j]?) ∧
      (∀ j, i ≤ j → r.toList[j]? = s.toList[j + 1]?) ∧
      r.size = s.size - 1 ∧ r.cap = s.cap) := by
  refine ⟨⟨fun h => ?_, fun h => ?_⟩, fun h => Vector.erase_out_of_range h, fun h => ?_⟩
  · by_contra hne
    obtain ⟨x, r, hr, -⟩ := Vector.eraseStep_spec hs (show i < s.size by omega)
    rw [hr] at h
    cases h
  · rw [(Vector.erase_out_of_range h).1]
  · obtain ⟨x, r, h1, h2, h3, -, h5, h6, h7⟩ := Vector.eraseStep_spec hs h
    refine ⟨x, r, h1, h2, h3, h7, ?_, ?_, h5, h6⟩
    · intro j hj
      rw [h7, List.getElem?_eraseIdx, if_pos hj]
    · intro j hj
      rw [h7, List.getElem?_eraseIdx, if_neg (by omega)]

/-- C16 at the vector `1, 2, 3` (capacity 4): `erase(1)` returns 2 and leaves
`1, 3`, and `erase(3)` throws and leaves the vector as it was. -/
theorem C16_erase_witness :
    (⟨[1, 2, 3, 0], 3, 4⟩ : Vector Int).WF ∧
    (∃ r, (⟨[1, 2, 3, 0], 3, 4⟩ : Vector Int).eraseStep 1 = (.ok 2, r) ∧
      r.toList = [1, 3] ∧ r.size = 2 ∧ r.cap = 4) ∧
    (⟨[1, 2, 3, 0], 3, 4⟩ : Vector Int).eraseStep 3 =
      (.error .indexOutOfRange, ⟨[1, 2, 3, 0], 3, 4⟩) :=
  ⟨by decide, by
    obtain ⟨x, r, h1, -, h3, h4, -, -, h7, h8⟩ :=
      (C16_erase Int ⟨[1, 2, 3, 0], 3, 4⟩ (by decide) 1).2.2 (by decide)
    have hx : x = 2 := by
      have : (some (2 : Int)) = some x := h3
      exact (Option.some.inj this).symm
    subst hx
    exact ⟨r, h1, h4, h7, h8⟩,
    ((C16_erase Int ⟨[1, 2, 3, 0], 3, 4⟩ (by decide) 3).2.1 (by decide)).1⟩

/-- C17: for every group table whose code groups are pairwise disjoint, the
build phase `installSpecialKeys` succeeds and the per-code table it builds
maps every code that occurs in some group to that group's action, and has no
entry for a code that occurs in no group. -/
theorem C17_installSpecialKeys_builds_lookup (table : KeyMap)
    (hwf : ∀ e ∈ table, e.1.WF)
    (hdis : table.Pairwise (fun e1 e2 => ∀ c, c ∈ e1.1.toList → c ∉ e2.1.toList)) :
    ∃ keyLookup, installSpecialKeys table = .ok keyLookup ∧
      (∀ e ∈ table, ∀ c, c ∈ e.1.toList → keyLookup c = some e.2) ∧
      (∀ c, (∀ e ∈ table, c ∉ e.1.toList) → keyLookup c = none) := by
  obtain ⟨m1, h1, h2, h3⟩ := installEntries_spec table KeyLookup.empty hwf
  exact ⟨m1, h1, h3 hdis, fun c hc => by rw [h2 c hc]; rfl⟩

/-- C17 at the built-in table with the ncurses key codes: `KEY_LEFT` (260)
resolves to the arrows action, 10 to the enter action, and the unregistered
code 97 has no entry. -/
theorem C17_installSpecialKeys_witness :
    specialKeys ncursesKeys = .ok ncursesTable ∧
    (∀ e ∈ ncursesTable, e.1.WF) ∧
    ncursesTable.Pairwise (fun e1 e2 => ∀ c, c ∈ e1.1.toList → c ∉ e2.1.toList) ∧
    ∃ keyLookup, installSpecialKeys ncursesTable = .ok keyLookup ∧
      keyLookup 260 = some (KeyAction.ofHandler .arrows) ∧
      keyLookup 10 = some (KeyAction.ofHandler .handleEnter) ∧
      keyLookup 97 = none :=
  ⟨rfl, by decide, by decide, by
    obtain ⟨lk, h1, h2, h3⟩ :=
      C17_installSpecialKeys_builds_lookup ncursesTable (by decide) (by decide)
    exact ⟨lk, h1,
      h2 (⟨[260, 261, 259, 258], 4, 4⟩, KeyAction.ofHandler .arrows) (by decide) 260
        (by decide),
      h2 (⟨[343, 10], 2, 2⟩, KeyAction.ofHandler .handleEnter) (by decide) 10 (by decide),
      h3 97 (by decide)⟩⟩

/-- C18: with the built-in key table, whose eleven codes are pairwise distinct,
the per-event step equals the reference: the four arrow codes apply
`cursorLeft` / `cursorRight` / `cursorUp` / `cursorDown`; `KEY_ENTER` and 10
apply `newLineAt`; 8 and `KEY_BACKSPACE` apply `removeChar`; `KEY_HOME` sets
the active column to 0; `KEY_END` sets it to the active line's length; 27 sets
`running` to false and leaves the document unchanged; every other code is
inserted as a character by `insertChar`.  Every code other than 27 leaves
`running` unchanged. -/
theorem C18_event_step_matches_reference (K : Keys) (hK : K.codes.Nodup) (g : Global)
    (c : Int) :
    mainStep K g c = stepRef K g c ∧
    (c = 27 → mainStep K g c = .ok { g with running := false }) ∧
    (c ∉ K.codes → mainStep K g c =
      (g.file.insertChar c).map (fun f => { g with file := f })) ∧
    (c ≠ 27 → ∀ g1, mainStep K g c = .ok g1 → g1.running = g.running) := by
  have heq := mainStep_eq_stepRef K hK g c
  refine ⟨heq, ?_, ?_, ?_⟩
  · intro h27
    subst h27
    have n1 : ¬ (27 : Int) = K.KEY_LEFT :=
      K.codes_ne hK (i := 6) (j := 0) rfl rfl (by decide)
    have n2 : ¬ (27 : Int) = K.KEY_RIGHT :=
      K.codes_ne hK (i := 6) (j := 1) rfl rfl (by decide)
    have n3 : ¬ (27 : Int) = K.KEY_UP :=
      K.codes_ne hK (i := 6) (j := 2) rfl rfl (by decide)
    have n4 : ¬ (27 : Int) = K.KEY_DOWN :=
      K.codes_ne hK (i := 6) (j := 3) rfl rfl (by decide)
    have n5 : ¬ (27 : Int) = K.KEY_ENTER :=
      K.codes_ne hK (i := 6) (j := 4) rfl rfl (by decide)
    have n6 : ¬ (27 : Int) = K.KEY_BACKSPACE :=
      K.codes_ne hK (i := 6) (j := 8) rfl rfl (by decide)
    have n7 : ¬ (27 : Int) = K.KEY_HOME :=
      K.codes_ne hK (i := 6) (j := 9) rfl rfl (by decide)
    have n8 : ¬ (27 : Int) = K.KEY_END :=
      K.codes_ne hK (i := 6) (j := 10) rfl rfl (by decide)
    have n9 : ¬ ((27 : Int) = K.KEY_ENTER ∨ (27 : Int) = 10) := by
      intro h
      rcases h with h | h
      · exact n5 h
      · exact absurd h (by decide)
    have n10 : ¬ ((27 : Int) = 8 ∨ (27 : Int) = K.KEY_BACKSPACE) := by
      intro h
      rcases h with h | h
      · exact absurd h (by decide)
      · exact n6 h
    rw [heq]
    simp only [stepRef, if_neg n1, if_neg n2, if_neg n3, if_neg n4, if_neg n9, if_neg n10,
      if_neg n7, if_neg n8, if_true]
  · intro hc
    simp only [Keys.codes, List.mem_cons, List.mem_singleton, List.not_mem_nil, or_false,
      not_or] at hc
    obtain ⟨h1, h2, h3, h4, h5, h6, h7, h8, h9, h10, h11⟩ := hc
    have n9 : ¬ (c = K.KEY_ENTER ∨ c = 10) := fun h => h.elim h5 h6
    have n10 : ¬ (c = 8 ∨ c = K.KEY_BACKSPACE) := fun h => h.elim h8 h9
    rw [heq]
    simp only [stepRef, if_neg h1, if_neg h2, if_neg h3, if_neg h4, if_neg n9, if_neg n10,
      if_neg h10, if_neg h11, if_neg h7]
  · intro hne g1 hg1
    rw [heq] at hg1
    simp only [stepRef] at hg1
    split at hg1
    · exact running_of_map g g1 _ (fun f => f) hg1
    split at hg1
    · exact running_of_map g g1 _ (fun f => f) hg1
    split at hg1
    · exact running_of_map g g1 _ (fun f => f) hg1
    split at hg1
    · exact running_of_map g g1 _ (fun f => f) hg1
    split at hg1
    · exact running_of_map g g1 _ (fun f => f) hg1
    split at hg1
    · exact running_of_map g g1 _ (fun r : CChar × File => r.2) hg1
    split at hg1
    · exact running_of_map g g1 _ (fun f => f) hg1
    split at hg1
    · exact running_of_map g g1 _ (fun f => f) hg1
    exact running_of_map g g1 _ (fun f => f) hg1

/-- C18 with the ncurses key codes on the document `"hello"` (column 2):
`KEY_END` (360) moves the cursor to column 5, and 27 stops the loop. -/
theorem C18_event_step_witness :
    ncursesKeys.codes.Nodup ∧
    mainStep ncursesKeys ⟨docHello 2, true⟩ 360 = .ok ⟨docHello 5, true⟩ ∧
    mainStep ncursesKeys ⟨docHello 2, true⟩ 27 = .ok ⟨docHello 2, false⟩ :=
  ⟨by decide,
    (C18_event_step_matches_reference ncursesKeys (by decide) ⟨docHello 2, true⟩ 360).1,
    (C18_event_step_matches_reference ncursesKeys (by decide) ⟨docHello 2, true⟩ 27).2.1 rfl⟩

/-- C19: on group keys (vectors of `int` with `size <= cap`) `operator<` is
exactly the strict lexicographic order on the element lists: the first
differing element decides and a proper initial segment is less than its extension.  The
result depends on the elements only, not on the capacities; the order is
irreflexive and transitive, and for two keys exactly one of `a < b`, `b < a`,
"same size and elements" holds. -/
theorem C19_operator_lt_is_lexicographic (a b c : Vector Int) (ha : a.WF) (hb : b.WF)
    (hc : c.WF) :
    a.lt b = .ok (lexLt a.toList b.toList) ∧
    (lexLt a.toList b.toList = true ↔ List.Lex (· < ·) a.toList b.toList) ∧
    (∀ a2 b2 : Vector Int, a2.WF → b2.WF → a2.toList = a.toList → b2.toList = b.toList →
      a2.lt b2 = a.lt b) ∧
    a.lt a = .ok false ∧
    (a.lt b = .ok true → b.lt c = .ok true → a.lt c = .ok true) ∧
    (a.lt b = .ok true ∨ b.lt a = .ok true ∨ (a.size = b.size ∧ a.toList = b.toList)) ∧
    ¬ (a.lt b = .ok true ∧ b.lt a = .ok true) ∧
    ¬ (a.lt b = .ok true ∧ a.toList = b.toList) ∧
    ¬ (b.lt a = .ok true ∧ a.toList = b.toList) := by
  have hab := Vector.lt_eq_lexLt ha hb
  have hba := Vector.lt_eq_lexLt hb ha
  have hbc := Vector.lt_eq_lexLt hb hc
  have hac := Vector.lt_eq_lexLt ha hc
  have haa := Vector.lt_eq_lexLt ha ha
  have inj : ∀ {x y : Bool}, (Except.ok x : Result Bool) = .ok y → x = y :=
    fun h => Except.ok.inj h
  refine ⟨hab, lexLt_iff_lex _ _, ?_, ?_, ?_, ?_, ?_, ?_, ?_⟩
  · intro a2 b2 ha2 hb2 e1 e2
    rw [Vector.lt_eq_lexLt ha2 hb2, hab, e1, e2]
  · rw [haa, lexLt_irrefl]
  · intro h1 h2
    rw [hab] at h1
    rw [hbc] at h2
    rw [hac, lexLt_trans _ _ _ (inj h1) (inj h2)]
  · rcases lexLt_total a.toList b.toList with h | h | h
    · exact Or.inl (by rw [hab, h])
    · exact Or.inr (Or.inl (by rw [hba, h]))
    · refine Or.inr (Or.inr ⟨?_, h⟩)
      rw [← Vector.length_toList ha, ← Vector.length_toList hb, h]
  · rintro ⟨h1, h2⟩
    rw [hab] at h1
    rw [hba] at h2
    have := lexLt_asymm _ _ (inj h1)
    rw [inj h2] at this
    cases this
  · rintro ⟨h1, h2⟩
    rw [hab, h2, lexLt_irrefl] at h1
    cases inj h1
  · rintro ⟨h1, h2⟩
    rw [hba, h2, lexLt_irrefl] at h1
    cases inj h1

/-- C19 at the keys `1, 2` (capacity 4), `1, 2, 3` and `1, 3`: the proper initial segment
is less than its extension, `1, 2, 3` is less than `1, 3` because of the second
element, and `1, 2` is less than `1, 3` by transitivity. -/
theorem C19_operator_lt_witness :
    (⟨[1, 2, 0, 0], 2, 4⟩ : Vector Int).WF ∧ (⟨[1, 2, 3], 3, 3⟩ : Vector Int).WF ∧
    (⟨[1, 3], 2, 2⟩ : Vector Int).WF ∧
    Vector.lt ⟨[1, 2, 0, 0], 2, 4⟩ ⟨[1, 2, 3], 3, 3⟩ = .ok true ∧
    Vector.lt ⟨[1, 2, 3], 3, 3⟩ ⟨[1, 3], 2, 2⟩ = .ok true ∧
    Vector.lt ⟨[1, 2, 0, 0], 2, 4⟩ ⟨[1, 3], 2, 2⟩ = .ok true ∧
    Vector.lt ⟨[1, 2, 0, 0], 2, 4⟩ ⟨[1, 2, 0, 0], 2, 4⟩ = .ok false :=
  ⟨by decide, by decide, by decide, rfl, rfl,
    (C19_operator_lt_is_lexicographic ⟨[1, 2, 0, 0], 2, 4⟩ ⟨[1, 2, 3], 3, 3⟩ ⟨[1, 3], 2, 2⟩
      (by decide) (by decide) (by decide)).2.2.2.2.1 rfl rfl,
    (C19_operator_lt_is_lexicographic ⟨[1, 2, 0, 0], 2, 4⟩ ⟨[1, 2, 3], 3, 3⟩ ⟨[1, 3], 2, 2⟩
      (by decide) (by decide) (by decide)).2.2.2.1⟩

/-- C20: on a valid document with at least two lines whose active line is the
first line with column 0, `removeChar()` deletes the first line together with
its text, leaves `activeLineIndex` at 0 so that the former second line is the
active line, sets that line's column to its length, and leaves the texts of
all remaining lines unchanged. -/
theorem C20_removeChar_on_first_line (f : File) (hwf : f.WF) (hv : f.valid) (l : Line)
    (hl : f.lineList[f.currentLine]? = some l) (hp : l.position = 0)
    (hk : f.currentLine = 0) (hn : 2 ≤ f.lines.size) :
    ∃ r q, f.removeChar = .ok (0, r) ∧ r.currentLine = 0 ∧
      r.lines.size + 1 = f.lines.size ∧
      f.lineList[1]? = some q ∧
      r.lineList[0]? = some { q with position := q.getSize } ∧
      q.getSize = q.chars.length ∧
      r.lineList.map Line.chars = (f.lineList.map Line.chars).drop 1 := by
  obtain ⟨hw, h0, hk0, hok⟩ := (File.good_iff f).1 ⟨hwf, hv⟩
  obtain ⟨r, q, hr, a1, a2, a3, a4, a5⟩ := File.removeChar_join hwf hv hl hp (by omega)
  have hgt : ¬ f.currentLine > 0 := by omega
  rw [if_neg hgt] at a3
  rw [a3] at a4 a5
  rw [hk] at a3 a4 a5
  have hq1 : f.lineList[1]? = some q := by
    rw [List.getElem?_eraseIdx, if_neg (by omega)] at a4
    exact a4
  have hq := ok_of_getElem? hok hq1
  refine ⟨r, q, hr, a3, by omega, hq1, ?_, (Line.length_chars hq.1).symm, ?_⟩
  · rw [a5]; exact getElem?_set_same _ a4
  · rw [a5, map_chars_set_position _ a4, map_eraseIdx_chars]
    cases f.lineList.map Line.chars <;> rfl

/-- C20 at `"ab"` / `"cd"` with the cursor at column 0 of the first line: the
result is the single line `"cd"` with column 2, active index 0. -/
theorem C20_removeChar_on_first_line_witness :
    (docAbCd 0 0 1).WF ∧ (docAbCd 0 0 1).valid ∧
    ∃ r, (docAbCd 0 0 1).removeChar = .ok (0, r) ∧ r.currentLine = 0 ∧
      r.lines.size + 1 = 2 ∧ r.lineList[0]? = some (lineCd 2) ∧
      r.lineList.map Line.chars = [[99, 100]] :=
  ⟨by decide, by decide, by
    obtain ⟨r, q, h1, h2, h3, h4, h5, -, h7⟩ :=
      C20_removeChar_on_first_line (docAbCd 0 0 1) (by decide) (by decide) (lineAb 0) rfl rfl
        rfl (by decide)
    have hq : q = lineCd 1 := (Option.some.inj h4).symm
    subst hq
    exact ⟨r, h1, h2, h3, h5, h7⟩⟩

end TextEditor
